import Mathlib

/-!
# Dashboard-filter reconciliation of terraform-provider-preset

A shallow embedding of `preset/resource_dashboard_filter.go`: the filters of a
dashboard live inside the `native_filter_configuration` array of the dashboard's
`json_metadata` text, and are added, replaced and removed by a whole-document
GET / modify / PUT cycle.

Go values of type `interface{}` produced by `encoding/json` are embedded as the
inductive type `Json`.  A Go `map[string]interface{}` has no key order and no
duplicate keys, so every map is represented by the one association list whose keys
are strictly increasing (`Json.canonical`); on such representatives Lean equality is
Go's `reflect.DeepEqual`.  The text codec (`encoding/json`) and the iteration order of
`range` over a map are parameters of the embedding (`Env`).
-/

namespace Preset

/-- A decoded JSON value, as `json.Unmarshal` stores it in an `interface{}`:
`nil`, `bool`, a number, `string`, `[]interface{}` or `map[string]interface{}`.
Numbers are kept as integers here (Go decodes them to `float64`; no claim depends on
their arithmetic). -/
inductive Json where
  | null
  | bool (b : Bool)
  | num (n : Int)
  | str (s : String)
  | arr (xs : List Json)
  | obj (kvs : List (String × Json))
  deriving Repr, Inhabited

/-- Lexicographic comparison of two character sequences by code point. -/
def ltChars : List Char → List Char → Bool
  | [], [] => false
  | [], _ :: _ => true
  | _ :: _, [] => false
  | a :: as, b :: bs =>
    if a.toNat < b.toNat then true
    else if a.toNat = b.toNat then ltChars as bs
    else false

/-- The strict total order in which the keys of a map are listed. -/
def keyLt (a b : String) : Bool := ltChars a.data b.data

namespace Obj

/-- Map read `m[k]` (with the `ok` flag as `Option`). -/
def get (k : String) : List (String × Json) → Option Json
  | [] => none
  | (k', v) :: rest => if k' = k then some v else get k rest

/-- Map write `m[k] = v`: replaces the value of an existing key, inserts a new key
at its place in the key order. -/
def set (k : String) (v : Json) : List (String × Json) → List (String × Json)
  | [] => [(k, v)]
  | (k', v') :: rest =>
    if k' = k then (k, v) :: rest
    else if keyLt k k' then (k, v) :: (k', v') :: rest
    else (k', v') :: set k v rest

/-- Map delete `delete(m, k)`. -/
def delete (k : String) : List (String × Json) → List (String × Json)
  | [] => []
  | (k', v') :: rest => if k' = k then delete k rest else (k', v') :: delete k rest

/-- The keys of an association list are strictly increasing. -/
def keysSorted : List (String × Json) → Bool
  | [] => true
  | [_] => true
  | (k, _) :: (k', v') :: rest => keyLt k k' && keysSorted ((k', v') :: rest)

end Obj

mutual
/-- Every map inside the value is the strictly key-sorted representative. -/
def Json.canonical : Json → Bool
  | .arr xs => Json.canonicalList xs
  | .obj kvs => Obj.keysSorted kvs && Json.canonicalMembers kvs
  | _ => true
/-- All elements of an array are canonical. -/
def Json.canonicalList : List Json → Bool
  | [] => true
  | x :: xs => Json.canonical x && Json.canonicalList xs
/-- All member values of a map are canonical. -/
def Json.canonicalMembers : List (String × Json) → Bool
  | [] => true
  | (_, v) :: kvs => Json.canonical v && Json.canonicalMembers kvs
end

/-- What the embedding takes from the Go runtime and standard library. -/
structure Env where
  /-- The function `json.Unmarshal` into an `interface{}`; `none` is a decode error. -/
  unmarshal : String → Option Json
  /-- The function `json.Marshal` of a decoded value. -/
  marshal : Json → String
  /-- The order in which `range` visits the entries of a map. -/
  mapRange : List (String × Json) → List (String × Json)

/-- The properties of the runtime the development relies on: decoding yields
well-formed maps, encoding loses nothing, `range` visits every entry once. -/
structure Env.Lawful (E : Env) : Prop where
  unmarshal_canonical : ∀ s t, E.unmarshal s = some t → t.canonical = true
  unmarshal_marshal : ∀ t, t.canonical = true → E.unmarshal (E.marshal t) = some t
  mapRange_perm : ∀ kvs, (E.mapRange kvs).Perm kvs

/-- Errors of the filter code. -/
inductive Err where
  /-- The API answered with a status other than 200. -/
  | status (code : Nat)
  /-- The text was rejected by `json.Unmarshal`. -/
  | decode
  /-- The error "Unable to parse id". -/
  | parseId
  /-- The error "Unable to parse name". -/
  | parseName
  /-- An error returned by an operation of the gabs tree library. -/
  | tree
  deriving DecidableEq, Repr

/-- The key of the metadata under which the filters are stored. -/
def nfc : String := "native_filter_configuration"

namespace Gabs

/-- Modelled from the spec: the gabs tree library is not under src/ (§4.2
"path-based read"). `Container.Path(seg)` for a one-segment path that is neither a
wildcard nor an array index (the code only uses `native_filter_configuration`, `id`
and `name`): the member of a map, and the nil container (`none`) for a missing key
or for any value that is not a map. -/
def path (t : Json) (seg : String) : Option Json :=
  match t with
  | .obj kvs => Obj.get seg kvs
  | _ => none

/-- Modelled from the spec: the gabs tree library is not under src/.
`Container.Data()`: the wrapped value, `nil` for the nil container. -/
def data : Option Json → Json
  | some t => t
  | none => .null

/-- The Go type assertion `x.(string)` with its `ok` flag. -/
def asString : Json → Option String
  | .str s => some s
  | _ => none

/-- Modelled from the spec: the gabs tree library is not under src/.
`Container.Children()`: the elements of an array in order, the values of a map in
the order `range` visits them, nothing for any other value or the nil container. -/
def children (E : Env) : Option Json → List Json
  | some (.arr xs) => xs
  | some (.obj kvs) => (E.mapRange kvs).map Prod.snd
  | _ => []

/-- Modelled from the spec: the gabs tree library is not under src/ (§4.2
"path-based delete"). `Container.Delete(key)` with a one-segment path: removes the
key of a map; fails when the key is missing or the value is not a map. -/
def delete (t : Json) (key : String) : Except Err Json :=
  match t with
  | .obj kvs =>
    match Obj.get key kvs with
    | some _ => .ok (.obj (Obj.delete key kvs))
    | none => .error .tree
  | _ => .error .tree

/-- Modelled from the spec: the gabs tree library is not under src/.
`gabs.New()`: a container holding an empty map. -/
def new : Json := .obj []

/-- Modelled from the spec: the gabs tree library is not under src/ (§4.2
"path-based replace-or-create"). `Container.Set(value, key)` with a one-segment
path that is not an array index: a nil value first becomes an empty map, a map gets
the key written, every other value is left alone and an error is returned. -/
def set (t : Json) (value : Json) (key : String) : Except Err Json :=
  match t with
  | .null => .ok (.obj [(key, value)])
  | .obj kvs => .ok (.obj (Obj.set key value kvs))
  | _ => .error .tree

/-- Modelled from the spec: the gabs tree library is not under src/ (§4.2
"indexed array construction of a given length"). `Container.ArrayOfSize(n, key)`:
`Set` of a fresh array of `n` nil elements. -/
def arrayOfSize (t : Json) (n : Nat) (key : String) : Except Err Json :=
  set t (.arr (List.replicate n .null)) key

/-- Modelled from the spec: the gabs tree library is not under src/.
`Container.SetIndex(value, i)`: writes element `i` of an array; fails out of bounds
and on a value that is not an array (the nil container included). -/
def setIndex (a : Option Json) (value : Json) (i : Nat) : Except Err Json :=
  match a with
  | some (.arr xs) => if i < xs.length then .ok (.arr (xs.set i value)) else .error .tree
  | _ => .error .tree

/-- Modelled from the spec: the gabs tree library is not under src/.
`gabs.New().Merge(source)`: when the source holds a map, every entry of it is
visited in `range` order and written into the destination with `Set`; a source that
holds no map leaves the destination empty. The destination starts empty and a map
has no two equal keys, so no key is present when it is written and the collision
branch of `MergeFn` is not entered. -/
def mergeIntoNew (E : Env) (source : Json) : Except Err Json :=
  match source with
  | .obj kvs => (E.mapRange kvs).foldlM (fun g kv => set g kv.2 kv.1) new
  | _ => .ok new

end Gabs

/-- The struct `DashboardFilter` (the `Value` of each attribute). -/
structure DashboardFilter where
  Id : String
  DashboardId : Int
  Name : String
  Config : String
  deriving DecidableEq, Repr

/-- The remote store as the two endpoints used by the filter code see it: `none`
when there is no dashboard with the id (the API answers with a status other than
200), otherwise the dashboard's `json_metadata` field, which may be absent. -/
abbrev Remote := Int → Option (Option String)

/-- The call `PutApiV1DashboardPkWithResponse` with a body that carries only
`json_metadata`, on an API that carries the call out and answers 200 whenever the
dashboard exists: replaces the whole field. The runs in which the call fails, or is
answered with another status although the dashboard exists, are those of
`upsertDashboardFilterError`. -/
def Remote.put (r : Remote) (dashboardId : Int) (jsonMetadata : String) : Except Err Remote :=
  match r dashboardId with
  | none => .error (.status 404)
  | some _ => .ok (fun d => if d = dashboardId then some (some jsonMetadata) else r d)

/-- The function `getDashboardJsonMetadata`: GET the dashboard; the nil container
(`none`) when the field is absent, otherwise `gabs.ParseJSON` of its text. -/
def getDashboardJsonMetadata (E : Env) (r : Remote) (dashboardId : Int) :
    Except Err (Option Json) :=
  match r dashboardId with
  | none => .error (.status 404)
  | some none => .ok none
  | some (some text) =>
    match E.unmarshal text with
    | some t => .ok (some t)
    | none => .error .decode

/-- One iteration of the loop of `getDashboardFilters` over an entry `v`: the
filter read from it, and `v` after `v.Delete("id")`. -/
def readFilter (E : Env) (dashboardId : Int) (v : Json) : Except Err (DashboardFilter × Json) :=
  match Gabs.asString (Gabs.data (Gabs.path v "id")) with
  | none => .error .parseId
  | some id =>
    match Gabs.asString (Gabs.data (Gabs.path v "name")) with
    | none => .error .parseName
    | some name =>
      match Gabs.delete v "id" with
      | .error e => .error e
      | .ok v' =>
        .ok ({ Id := id, DashboardId := dashboardId, Name := name, Config := E.marshal v' }, v')

/-- The loop of `getDashboardFilters`: stops at the first entry that fails. -/
def readFilters (E : Env) (dashboardId : Int) : List Json → Except Err (List DashboardFilter)
  | [] => .ok []
  | v :: vs =>
    match readFilter E dashboardId v with
    | .error e => .error e
    | .ok (f, _) =>
      match readFilters E dashboardId vs with
      | .error e => .error e
      | .ok fs => .ok (f :: fs)

/-- An entry after `Delete("id")` (unchanged when the delete fails). -/
def dropId (v : Json) : Json :=
  match Gabs.delete v "id" with
  | .ok v' => v'
  | .error _ => v

/-- The tree `jm` as the loop of `getDashboardFilters` leaves it: `Delete` works in
place, so once every entry has been read the entries under
`native_filter_configuration` have lost their `id` key inside `jm` too. -/
def afterRead (jm : Json) : Json :=
  match jm with
  | .obj kvs =>
    match Obj.get nfc kvs with
    | some (.arr xs) => .obj (Obj.set nfc (.arr (xs.map dropId)) kvs)
    | some (.obj m) => .obj (Obj.set nfc (.obj (m.map (fun kv => (kv.1, dropId kv.2)))) kvs)
    | _ => jm
  | _ => jm

/-- The function `getDashboardFilters`: the filters embedded in the metadata of a
dashboard, with the metadata tree they were read from. -/
def getDashboardFilters (E : Env) (r : Remote) (dashboardId : Int) :
    Except Err (List DashboardFilter × Option Json) :=
  match getDashboardJsonMetadata E r dashboardId with
  | .error e => .error e
  | .ok none => .ok ([], none)
  | .ok (some jm) =>
    match readFilters E dashboardId (Gabs.children E (Gabs.path jm nfc)) with
    | .error e => .error e
    | .ok filters => .ok (filters, some (afterRead jm))

/-- The function `findDashboardFilterById`: the first filter with the id. -/
def findDashboardFilterById : List DashboardFilter → String → Option DashboardFilter
  | [], _ => none
  | v :: filters, filterId =>
    if v.Id = filterId then some v else findDashboardFilterById filters filterId

/-- The function `remove`: drops the first element whose id is the item's. -/
def remove : List DashboardFilter → DashboardFilter → List DashboardFilter
  | [], _ => []
  | other :: l, item => if other.Id = item.Id then l else other :: remove l item

/-- The function `getDashboardFilterById`. -/
def getDashboardFilterById (E : Env) (r : Remote) (dashboardId : Int) (filterId : String) :
    Except Err (Option DashboardFilter) :=
  match getDashboardFilters E r dashboardId with
  | .error e => .error e
  | .ok (filters, _) => .ok (findDashboardFilterById filters filterId)

/-- The statement `config.Set(v.Id.Value, "id")`, whose error is not looked at. -/
def stampId (config : Json) (id : String) : Json :=
  match Gabs.set config (.str id) "id" with
  | .ok c => c
  | .error _ => config

/-- The statement `jsonMetadata.S("native_filter_configuration").SetIndex(config, i)`,
whose error is not looked at: the array found under the key is written in place. -/
def placeEntry (jsonMetadata : Json) (config : Json) (i : Nat) : Json :=
  match Gabs.setIndex (Gabs.path jsonMetadata nfc) config i with
  | .ok a =>
    match Gabs.set jsonMetadata a nfc with
    | .ok t => t
    | .error _ => jsonMetadata
  | .error _ => jsonMetadata

/-- The loop of `upsertDashboardFilter` over the new collection, from index `i`. -/
def writeFilters (E : Env) : List DashboardFilter → Nat → Json → Except Err Json
  | [], _, jsonMetadata => .ok jsonMetadata
  | v :: vs, i, jsonMetadata =>
    match E.unmarshal v.Config with
    | none => .error .decode
    | some config => writeFilters E vs (i + 1) (placeEntry jsonMetadata (stampId config v.Id) i)

/-- The new collection of `upsertDashboardFilter`: the existing filter with the id
is removed, the new one (when there is one) gets the id and goes last. -/
def newCollection (filters : List DashboardFilter) (filterId : String)
    (filter : Option DashboardFilter) : List DashboardFilter :=
  let filters :=
    match findDashboardFilterById filters filterId with
    | some existingFilter => remove filters existingFilter
    | none => filters
  match filter with
  | some f => filters ++ [{ f with Id := filterId }]
  | none => filters

/-- The metadata tree `upsertDashboardFilter` serializes: everything of the function
between taking the lock and `jsonMetadata.String()`. -/
def upsertMetadata (E : Env) (r : Remote) (dashboardId : Int) (filterId : String)
    (filter : Option DashboardFilter) : Except Err Json :=
  match getDashboardFilters E r dashboardId with
  | .error e => .error e
  | .ok (filters, jm) =>
    let filters := newCollection filters filterId filter
    let merged : Except Err Json :=
      match jm with
      | some jm => Gabs.mergeIntoNew E jm
      | none => .ok Gabs.new
    match merged with
    | .error e => .error e
    | .ok jsonMetadata =>
      let jsonMetadata :=
        match Gabs.arrayOfSize jsonMetadata filters.length nfc with
        | .ok t => t
        | .error _ => jsonMetadata
      writeFilters E filters 0 jsonMetadata

/-- The function `upsertDashboardFilter`, run alone (it holds the package mutex from
its first to its last statement) against an API that carries out the PUT of an
existing dashboard and answers 200: the remote store after its PUT. -/
def upsertDashboardFilter (E : Env) (r : Remote) (dashboardId : Int) (filterId : String)
    (filter : Option DashboardFilter) : Except Err Remote :=
  match upsertMetadata E r dashboardId filterId filter with
  | .error e => .error e
  | .ok jsonMetadata => r.put dashboardId (E.marshal jsonMetadata)

/-- The entry `v` of the collection reads as the filter `f` of dashboard `d`: `v` is
a map with a string `id` and a string `name`, and `f` carries them together with the
serialization of `v` without its `id` key. -/
def EntryReads (E : Env) (d : Int) (v : Json) (f : DashboardFilter) : Prop :=
  ∃ m id name, v = .obj m ∧ Obj.get "id" m = some (.str id) ∧
    Obj.get "name" m = some (.str name) ∧
    f = { Id := id, DashboardId := d, Name := name, Config := E.marshal (.obj (Obj.delete "id" m)) }

/-- The entry the loop of `upsertDashboardFilter` places for the filter `f`: its
decoded `Config` after `Set(id, "id")` (`null` stands in when the text does not
decode, in which case the loop has returned before placing anything). -/
def entryOf (E : Env) (f : DashboardFilter) : Json :=
  match E.unmarshal f.Config with
  | some config => stampId config f.Id
  | none => .null

/-- The string under the key `id` of an entry, when there is one. -/
def entryId (v : Json) : Option String :=
  match Gabs.path v "id" with
  | some (.str s) => some s
  | _ => none

/-- The top-level members of a decoded tree (none when there is no tree or the tree
is not a map). -/
def topLevel : Option Json → List (String × Json)
  | some (.obj m) => m
  | _ => []

/-- The decoded metadata of a dashboard, as `getDashboardJsonMetadata` returns it
(nothing when the call fails or the field is absent). -/
def metadataOf (E : Env) (r : Remote) (d : Int) : Option Json :=
  match getDashboardJsonMetadata E r d with
  | .ok (some t) => some t
  | _ => none

/-- The entries of the collection on the wire, in the order `getDashboardFilters`
visits them. -/
def wireEntries (E : Env) (r : Remote) (d : Int) : List Json :=
  match metadataOf E r d with
  | some t => Gabs.children E (Gabs.path t nfc)
  | none => []

/-- The entries of the collection stored in a remote store for a dashboard, when its
metadata text decodes to a tree with an array under `native_filter_configuration`. -/
def writtenArray (E : Env) (r : Remote) (d : Int) : Option (List Json) :=
  match metadataOf E r d with
  | some t =>
    match Gabs.path t nfc with
    | some (.arr xs) => some xs
    | _ => none
  | none => none

/-! ### A JSON text codec

A printer and a reader of JSON text for the values above (integers for numbers, the
escapes `\"` and `\\` in strings, no white space).  They instantiate `Env` and show
that `Env.Lawful` can be met. -/

namespace Codec

/-- The character of a decimal digit. -/
def digitChar (d : Nat) : Char :=
  match d with
  | 0 => '0'
  | 1 => '1'
  | 2 => '2'
  | 3 => '3'
  | 4 => '4'
  | 5 => '5'
  | 6 => '6'
  | 7 => '7'
  | 8 => '8'
  | _ => '9'

/-- The value of a decimal digit character. -/
def digitVal (c : Char) : Option Nat :=
  if c = '0' then some 0
  else if c = '1' then some 1
  else if c = '2' then some 2
  else if c = '3' then some 3
  else if c = '4' then some 4
  else if c = '5' then some 5
  else if c = '6' then some 6
  else if c = '7' then some 7
  else if c = '8' then some 8
  else if c = '9' then some 9
  else none

/-- The decimal digits of `n`, most significant first (`fuel` bounds their number). -/
def natDigits : Nat → Nat → List Nat
  | 0, _ => []
  | fuel + 1, n => if n < 10 then [n] else natDigits fuel (n / 10) ++ [n % 10]

/-- The number written by a sequence of decimal digits. -/
def valueOf (ds : List Nat) : Nat := ds.foldl (fun a d => a * 10 + d) 0

/-- Reads the longest run of digit characters at the front of the input. -/
def readDigits : List Char → List Nat × List Char
  | [] => ([], [])
  | c :: cs =>
    match digitVal c with
    | some d => (d :: (readDigits cs).1, (readDigits cs).2)
    | none => ([], c :: cs)

/-- Prints a natural number in decimal. -/
def renderNat (n : Nat) : List Char := (natDigits (n + 1) n).map digitChar

/-- Prints an integer in decimal. -/
def renderInt : Int → List Char
  | .ofNat n => renderNat n
  | .negSucc n => '-' :: renderNat (n + 1)

/-- Prints the characters of a string with `"` and `\` escaped. -/
def escape : List Char → List Char
  | [] => []
  | c :: cs => if c = '"' ∨ c = '\\' then '\\' :: c :: escape cs else c :: escape cs

/-- Prints a string literal. -/
def renderString (s : String) : List Char := '"' :: (escape s.data ++ ['"'])

mutual
/-- Prints a value as JSON text. -/
def render : Json → List Char
  | .null => ['n', 'u', 'l', 'l']
  | .bool true => ['t', 'r', 'u', 'e']
  | .bool false => ['f', 'a', 'l', 's', 'e']
  | .num n => renderInt n
  | .str s => renderString s
  | .arr xs => '[' :: renderElems xs
  | .obj kvs => '{' :: renderMembers kvs
/-- Prints the elements of an array and the closing bracket. -/
def renderElems : List Json → List Char
  | [] => [']']
  | x :: xs => render x ++ renderTail xs
/-- Prints the elements after the first and the closing bracket. -/
def renderTail : List Json → List Char
  | [] => [']']
  | x :: xs => ',' :: (render x ++ renderTail xs)
/-- Prints the members of a map and the closing brace. -/
def renderMembers : List (String × Json) → List Char
  | [] => ['}']
  | (k, v) :: kvs => renderString k ++ ':' :: (render v ++ renderMembersTail kvs)
/-- Prints the members after the first and the closing brace. -/
def renderMembersTail : List (String × Json) → List Char
  | [] => ['}']
  | (k, v) :: kvs => ',' :: (renderString k ++ ':' :: (render v ++ renderMembersTail kvs))
end

/-- Puts a character in front of the string read so far. -/
def consChar (c : Char) : Option (List Char × List Char) → Option (List Char × List Char)
  | some (s, rest) => some (c :: s, rest)
  | none => none

/-- Reads the body of a string literal up to its closing quote; `escaped` tells that
the character before was a backslash. -/
def readStringFrom : Bool → List Char → Option (List Char × List Char)
  | _, [] => none
  | true, c :: cs =>
    if c = '"' ∨ c = '\\' then consChar c (readStringFrom false cs) else none
  | false, c :: cs =>
    if c = '"' then some ([], cs)
    else if c = '\\' then readStringFrom true cs
    else consChar c (readStringFrom false cs)

/-- Reads the body of a string literal up to its closing quote. -/
def readString (cs : List Char) : Option (List Char × List Char) := readStringFrom false cs

/-- The input does not go on with a digit. -/
def NoDigit (rest : List Char) : Prop := ∀ c cs, rest = c :: cs → digitVal c = none

/-- Reads a run of decimal digits as a natural number. -/
def readNat (cs : List Char) : Option (Nat × List Char) :=
  match readDigits cs with
  | ([], _) => none
  | (d :: ds, rest) => some (valueOf (d :: ds), rest)

/-- The map with the given members, later members overriding earlier ones. -/
def ofMembers (kvs : List (String × Json)) : List (String × Json) :=
  kvs.foldl (fun a kv => Obj.set kv.1 kv.2 a) []

mutual
/-- Reads one value from the front of the input. -/
def readValue : Nat → List Char → Option (Json × List Char)
  | 0, _ => none
  | fuel + 1, cs =>
    match cs with
    | [] => none
    | c :: rest =>
      if c = 'n' then
        match rest with
        | 'u' :: 'l' :: 'l' :: rest' => some (.null, rest')
        | _ => none
      else if c = 't' then
        match rest with
        | 'r' :: 'u' :: 'e' :: rest' => some (.bool true, rest')
        | _ => none
      else if c = 'f' then
        match rest with
        | 'a' :: 'l' :: 's' :: 'e' :: rest' => some (.bool false, rest')
        | _ => none
      else if c = '"' then
        match readString rest with
        | some (s, rest') => some (.str (String.mk s), rest')
        | none => none
      else if c = '[' then
        match readElems fuel rest with
        | some (xs, rest') => some (.arr xs, rest')
        | none => none
      else if c = '{' then
        match readMembers fuel rest with
        | some (kvs, rest') => some (.obj (ofMembers kvs), rest')
        | none => none
      else if c = '-' then
        match readNat rest with
        | some (n, rest') => some (.num (-(n : Int)), rest')
        | none => none
      else
        match readNat (c :: rest) with
        | some (n, rest') => some (.num (n : Int), rest')
        | none => none
/-- Reads the elements of an array after the opening bracket. -/
def readElems : Nat → List Char → Option (List Json × List Char)
  | 0, _ => none
  | fuel + 1, cs =>
    match cs with
    | [] => none
    | c :: rest =>
      if c = ']' then some ([], rest)
      else
        match readValue fuel (c :: rest) with
        | some (x, rest') =>
          match readTail fuel rest' with
          | some (xs, rest'') => some (x :: xs, rest'')
          | none => none
        | none => none
/-- Reads the elements of an array after the first one. -/
def readTail : Nat → List Char → Option (List Json × List Char)
  | 0, _ => none
  | fuel + 1, cs =>
    match cs with
    | [] => none
    | c :: rest =>
      if c = ']' then some ([], rest)
      else if c = ',' then
        match readValue fuel rest with
        | some (x, rest') =>
          match readTail fuel rest' with
          | some (xs, rest'') => some (x :: xs, rest'')
          | none => none
        | none => none
      else none
/-- Reads the members of a map after the opening brace. -/
def readMembers : Nat → List Char → Option (List (String × Json) × List Char)
  | 0, _ => none
  | fuel + 1, cs =>
    match cs with
    | [] => none
    | c :: rest =>
      if c = '}' then some ([], rest)
      else if c = '"' then
        match readString rest with
        | some (k, ':' :: rest') =>
          match readValue fuel rest' with
          | some (v, rest'') =>
            match readMembersTail fuel rest'' with
            | some (kvs, rest''') => some ((String.mk k, v) :: kvs, rest''')
            | none => none
          | none => none
        | _ => none
      else none
/-- Reads the members of a map after the first one. -/
def readMembersTail : Nat → List Char → Option (List (String × Json) × List Char)
  | 0, _ => none
  | fuel + 1, cs =>
    match cs with
    | [] => none
    | c :: rest =>
      if c = '}' then some ([], rest)
      else if c = ',' then
        match rest with
        | '"' :: rest₁ =>
          match readString rest₁ with
          | some (k, ':' :: rest') =>
            match readValue fuel rest' with
            | some (v, rest'') =>
              match readMembersTail fuel rest'' with
              | some (kvs, rest''') => some ((String.mk k, v) :: kvs, rest''')
              | none => none
            | none => none
          | _ => none
        | _ => none
      else none
end

mutual
/-- The number of nodes of a value, a bound on the fuel reading it takes. -/
def size : Json → Nat
  | .arr xs => 1 + sizeElems xs
  | .obj kvs => 1 + sizeMembers kvs
  | _ => 1
/-- The number of nodes of the elements of an array. -/
def sizeElems : List Json → Nat
  | [] => 1
  | x :: xs => 1 + size x + sizeElems xs
/-- The number of nodes of the members of a map. -/
def sizeMembers : List (String × Json) → Nat
  | [] => 1
  | (_, v) :: kvs => 1 + size v + sizeMembers kvs
end

/-- Reads a whole text as one JSON value. -/
def parse (s : String) : Option Json :=
  match readValue (2 * s.length + 1) s.data with
  | some (t, []) => some t
  | _ => none

/-- Prints a value as a JSON text. -/
def print (t : Json) : String := String.mk (render t)

end Codec

/-- The runtime with the JSON codec above, `range` visiting a map in key order. -/
def jsonEnv : Env where
  unmarshal := Codec.parse
  marshal := Codec.print
  mapRange := fun kvs => kvs

mutual
/-- The function `reflect.DeepEqual` on two decoded values. -/
def Json.deepEqual : Json → Json → Bool
  | .null, .null => true
  | .bool a, .bool b => a == b
  | .num a, .num b => a == b
  | .str a, .str b => a == b
  | .arr a, .arr b => Json.deepEqualElems a b
  | .obj a, .obj b => Json.deepEqualMembers a b
  | _, _ => false
/-- Two arrays are deeply equal: same length, deeply equal elements in order. -/
def Json.deepEqualElems : List Json → List Json → Bool
  | [], [] => true
  | a :: as, b :: bs => Json.deepEqual a b && Json.deepEqualElems as bs
  | _, _ => false
/-- Two maps are deeply equal: same keys, deeply equal values. -/
def Json.deepEqualMembers : List (String × Json) → List (String × Json) → Bool
  | [], [] => true
  | (k, a) :: as, (l, b) :: bs => k == l && Json.deepEqual a b && Json.deepEqualMembers as bs
  | _, _ => false
end

/-- The call `json.Unmarshal(text, &m)` for `var m map[string]interface{}`: a JSON
object fills the map, `null` leaves it nil (`none`), any other text is an error. -/
def unmarshalMap (E : Env) (text : String) : Except Err (Option (List (String × Json))) :=
  match E.unmarshal text with
  | some (.obj m) => .ok (some m)
  | some .null => .ok none
  | _ => .error .decode

/-- The function `isConfigEqual`: both texts decoded into maps and compared with
`reflect.DeepEqual` (a nil map equals only a nil map). -/
def isConfigEqual (E : Env) (configA configB : String) : Except Err Bool :=
  match unmarshalMap E configA with
  | .error e => .error e
  | .ok ca =>
    match unmarshalMap E configB with
    | .error e => .error e
    | .ok cb =>
      match ca, cb with
      | none, none => .ok true
      | some a, some b => .ok (Json.deepEqual (.obj a) (.obj b))
      | _, _ => .ok false

/-! ### Sample data -/

/-- A store with the single dashboard 7, whose metadata holds a colour scheme and
two filters. -/
def sampleRemote : Remote := fun d =>
  if d = 7 then
    some (some "\x7b\"color_scheme\":\"blue\",\"native_filter_configuration\":[\x7b\"id\":\"100001\",\"name\":\"Region\"\x7d,\x7b\"id\":\"100002\",\"name\":\"Year\",\"scope\":[1,2]\x7d]\x7d")
  else none

/-- A store with the single dashboard 7, which has no metadata. -/
def emptyRemote : Remote := fun d => if d = 7 then some none else none

/-- A store with the single dashboard 7, whose metadata is an empty object. -/
def bareRemote : Remote := fun d => if d = 7 then some (some "\x7b\x7d") else none

/-- A store with the single dashboard 7, whose two filters share the id 100001. -/
def dupRemote : Remote := fun d =>
  if d = 7 then
    some (some "\x7b\"native_filter_configuration\":[\x7b\"id\":\"100001\",\"name\":\"Region\"\x7d,\x7b\"id\":\"100001\",\"name\":\"Year\"\x7d]\x7d")
  else none

/-- A store with the single dashboard 7, whose second filter has no name. -/
def namelessRemote : Remote := fun d =>
  if d = 7 then
    some (some "\x7b\"native_filter_configuration\":[\x7b\"id\":\"100001\",\"name\":\"Region\"\x7d,\x7b\"id\":\"100002\"\x7d]\x7d")
  else none

/-- A planned filter whose config is an object with a name. -/
def sampleFilter : DashboardFilter :=
  { Id := "", DashboardId := 7, Name := "Country",
    Config := "\x7b\"name\":\"Country\",\"filterType\":\"filter_select\"\x7d" }

/-- A planned filter whose config is an object without a name. -/
def namelessFilter : DashboardFilter :=
  { Id := "", DashboardId := 7, Name := "Country", Config := "\x7b\x7d" }

/-- A planned filter whose config is valid JSON but not an object. -/
def arrayFilter : DashboardFilter :=
  { Id := "", DashboardId := 7, Name := "Country", Config := "[]" }

/-- The two filters read from `sampleRemote`. -/
def sampleOld : List DashboardFilter :=
  [{ Id := "100001", DashboardId := 7, Name := "Region", Config := "\x7b\"name\":\"Region\"\x7d" },
   { Id := "100002", DashboardId := 7, Name := "Year",
     Config := "\x7b\"name\":\"Year\",\"scope\":[1,2]\x7d" }]

/-- The tree `getDashboardFilters` hands back for `sampleRemote`. -/
def sampleTree : Json :=
  .obj [("color_scheme", .str "blue"),
    ("native_filter_configuration",
      .arr [.obj [("name", .str "Region")],
        .obj [("name", .str "Year"), ("scope", .arr [.num 1, .num 2])]])]

/-- The store `sampleRemote` after filter 100002 has been replaced by `sampleFilter`. -/
def sampleReplaced : Remote := fun d =>
  if d = 7 then
    some (some "\x7b\"color_scheme\":\"blue\",\"native_filter_configuration\":[\x7b\"id\":\"100001\",\"name\":\"Region\"\x7d,\x7b\"filterType\":\"filter_select\",\"id\":\"100002\",\"name\":\"Country\"\x7d]\x7d")
  else sampleRemote d

/-- The store `sampleRemote` after filter 100002 has been removed. -/
def sampleRemoved : Remote := fun d =>
  if d = 7 then
    some (some "\x7b\"color_scheme\":\"blue\",\"native_filter_configuration\":[\x7b\"id\":\"100001\",\"name\":\"Region\"\x7d]\x7d")
  else sampleRemote d

/-! ### The resource and the provider -/

/-- The answer of the API to the PUT of `upsertDashboardFilter`. -/
inductive PutAnswer where
  /-- The call itself returned an error (`err != nil`). -/
  | failed
  /-- A response arrived, with this status code. -/
  | status (code : Nat)
  deriving DecidableEq, Repr

/-- The errors `upsertDashboardFilter` returns, by the `return` they come from. -/
inductive UpsertErr where
  /-- An error returned before the PUT is sent. -/
  | early (e : Err)
  /-- The error of the PUT call itself. -/
  | putFailed
  /-- The error "Unable to upsert filter", for a response whose status is not 200. -/
  | putRefused (code : Nat)
  deriving DecidableEq, Repr

/-- The error diagnostics the resource methods add to their response. -/
inductive Diagnostic where
  /-- The summary "Error creating dashboard filter", with the error of the upsert. -/
  | creating (e : Err)
  /-- The summary "Error reading dashboardfilter", with the error of the read. -/
  | reading (e : Err)
  /-- The detail "Could not find dashboard filter with id: " followed by the id. -/
  | notFound (id : String)
  /-- The diagnostic added when `isConfigEqual` fails. -/
  | comparing (e : Err)
  /-- The summary "Error updating dashboardfilter", with the error of the upsert. -/
  | updating (e : UpsertErr)
  deriving DecidableEq, Repr

/-- The call `fmt.Sprint` of an `int`: its decimal text. -/
def sprintInt (i : Int) : String := String.mk (Codec.renderInt i)

/-- The method `resourceDashboardFilter.Create`, with `n` the value drawn by
`rand.Intn(1000000)`: the store after the upsert and the state that is set (the plan,
whose `Id` the upsert has overwritten with the new id). -/
def resourceDashboardFilter.Create (E : Env) (r : Remote) (n : Nat) (plan : DashboardFilter) :
    Except Diagnostic (Remote × DashboardFilter) :=
  let id := sprintInt ((n : Int) + 100000)
  match upsertDashboardFilter E r plan.DashboardId id (some plan) with
  | .error e => .error (.creating e)
  | .ok r' => .ok (r', { plan with Id := id })

/-- The method `resourceDashboardFilter.Read`: the state that is set, or the
diagnostic. -/
def resourceDashboardFilter.Read (E : Env) (r : Remote) (state : DashboardFilter) :
    Except Diagnostic DashboardFilter :=
  match getDashboardFilterById E r state.DashboardId state.Id with
  | .error e => .error (.reading e)
  | .ok none => .error (.notFound state.Id)
  | .ok (some filter) =>
    match isConfigEqual E state.Config filter.Config with
    | .error e => .error (.comparing e)
    | .ok eq => .ok (if eq then { filter with Config := state.Config } else filter)

/-- A request sent to the dashboard API. -/
inductive Request where
  /-- The call `GetApiV1DashboardIdOrSlugWithResponse`. -/
  | get (dashboardId : Int)
  /-- The call `PutApiV1DashboardPkWithResponse` with the new `json_metadata`. -/
  | put (dashboardId : Int) (jsonMetadata : String)
  deriving DecidableEq, Repr

/-- The requests one run of `upsertDashboardFilter` sends, in order: the GET of
`getDashboardJsonMetadata` and, when the statements up to `jsonMetadata.String()`
have not returned an error, the PUT. -/
def upsertRequests (E : Env) (r : Remote) (dashboardId : Int) (filterId : String)
    (filter : Option DashboardFilter) : List Request :=
  .get dashboardId ::
    (match upsertMetadata E r dashboardId filterId filter with
     | .ok jsonMetadata => [.put dashboardId (E.marshal jsonMetadata)]
     | .error _ => [])

/-- A text that `json.Unmarshal` accepts for a `map[string]interface{}` target: a
JSON object or `null`. -/
def decodesToMap (E : Env) (text : String) : Bool :=
  match E.unmarshal text with
  | some (.obj _) => true
  | some .null => true
  | _ => false

/-- The struct `providerData`; an attribute that is null is `none`. -/
structure providerData where
  ApiToken : Option String
  ApiSecret : Option String
  BaseURL : Option String
  deriving DecidableEq, Repr

/-- The field `Value` of a `types.String`: the empty string when it is null. -/
def stringValue (s : Option String) : String :=
  match s with
  | some v => v
  | none => ""

/-- The method `presetProvider.Configure`: the error summary it reports, or the
result of `client.New(baseUrl, apiToken, apiTokenSecret)`. The function `os.Getenv`
and `client.New` are parameters. -/
def presetProvider.Configure {Client : Type} (getenv : String → String)
    (newClient : String → String → String → Except String Client) (config : providerData) :
    Except String Client :=
  let apiToken := if config.ApiToken.isNone then getenv "PRESET_API_TOKEN"
    else stringValue config.ApiToken
  if apiToken = "" then .error "Unable to find api_token"
  else
    let apiTokenSecret := if config.ApiToken.isNone then getenv "PRESET_API_SECRET"
      else stringValue config.ApiSecret
    if apiTokenSecret = "" then .error "Unable to find api_secret"
    else
      let baseUrl := if config.BaseURL.isNone then getenv "PRESET_BASE_URL"
        else stringValue config.BaseURL
      if baseUrl = "" then .error "Unable to find base_url"
      else
        match newClient baseUrl apiToken apiTokenSecret with
        | .error e => .error ("Error creating client: " ++ e)
        | .ok c => .ok c

/-- The secret the schema describes for `api_secret`: the configured value, and the
environment variable `PRESET_API_SECRET` when the attribute is null. -/
def documentedSecret (getenv : String → String) (config : providerData) : String :=
  match config.ApiSecret with
  | some v => v
  | none => getenv "PRESET_API_SECRET"

/-- An environment in which `PRESET_API_TOKEN` and `PRESET_API_SECRET` are set. -/
def sampleGetenv (name : String) : String :=
  if name = "PRESET_API_SECRET" then "s3cret"
  else if name = "PRESET_API_TOKEN" then "envtok"
  else ""

/-- A stand-in for `client.New` that always succeeds and records its arguments. -/
def recordClient (baseUrl token secret : String) : Except String (String × String × String) :=
  .ok (baseUrl, token, secret)

/-- A store with the single dashboard 7, whose metadata text is not JSON. -/
def brokenRemote : Remote := fun d => if d = 7 then some (some "oops") else none

/-- A planned filter whose config is not JSON. -/
def brokenFilter : DashboardFilter :=
  { Id := "", DashboardId := 7, Name := "Country", Config := "oops" }

/-- A second planned filter, for another id. -/
def otherFilter : DashboardFilter :=
  { Id := "", DashboardId := 7, Name := "Segment",
    Config := "\x7b\"name\":\"Segment\"\x7d" }

/-- The prior state of filter 100002 of the sample dashboard, its config written with
the keys in another order than the API returns them. -/
def sampleState : DashboardFilter :=
  { Id := "100002", DashboardId := 7, Name := "Year",
    Config := "\x7b\"scope\":[1,2],\"name\":\"Year\"\x7d" }

/-- The store `sampleRemote` after `sampleFilter` has been added under the id 100003. -/
def sampleAdded : Remote := fun d =>
  if d = 7 then
    some (some "\x7b\"color_scheme\":\"blue\",\"native_filter_configuration\":[\x7b\"id\":\"100001\",\"name\":\"Region\"\x7d,\x7b\"id\":\"100002\",\"name\":\"Year\",\"scope\":[1,2]\x7d,\x7b\"filterType\":\"filter_select\",\"id\":\"100003\",\"name\":\"Country\"\x7d]\x7d")
  else sampleRemote d

/-- The store `sampleAdded` after `otherFilter` has been added under the id 100004. -/
def sampleAddedTwice : Remote := fun d =>
  if d = 7 then
    some (some "\x7b\"color_scheme\":\"blue\",\"native_filter_configuration\":[\x7b\"id\":\"100001\",\"name\":\"Region\"\x7d,\x7b\"id\":\"100002\",\"name\":\"Year\",\"scope\":[1,2]\x7d,\x7b\"filterType\":\"filter_select\",\"id\":\"100003\",\"name\":\"Country\"\x7d,\x7b\"id\":\"100004\",\"name\":\"Segment\"\x7d]\x7d")
  else sampleAdded d

/-- A provider configuration with a token and a workspace URL and no secret. -/
def tokenOnlyConfig : providerData :=
  { ApiToken := some "tok", ApiSecret := none, BaseURL := some "https://ws.example" }

/-- A provider configuration with a secret and a workspace URL and no token. -/
def secretOnlyConfig : providerData :=
  { ApiToken := none, ApiSecret := some "configured", BaseURL := some "https://ws.example" }

/-! ### Updating a filter -/

/-- The function `upsertDashboardFilter` for an arbitrary answer of the API to its
PUT: the error it returns, `none` for nil. The requests it sends are
`upsertRequests`; the answer is looked at only once the PUT has been sent, and 200 is
the only status taken for success. -/
def upsertDashboardFilterError (E : Env) (r : Remote) (dashboardId : Int) (filterId : String)
    (filter : Option DashboardFilter) (answer : PutAnswer) : Option UpsertErr :=
  match upsertMetadata E r dashboardId filterId filter with
  | .error e => some (.early e)
  | .ok _ =>
    match answer with
    | .failed => some .putFailed
    | .status code => if code = 200 then none else some (.putRefused code)

/-- The method `resourceDashboardFilter.Update`, for an arbitrary answer of the API
to the PUT of its upsert: the state that is set (the plan, whose `Id` the upsert has
overwritten with the id of the prior state), or the diagnostic. -/
def resourceDashboardFilter.Update (E : Env) (r : Remote) (plan state : DashboardFilter)
    (answer : PutAnswer) : Except Diagnostic DashboardFilter :=
  match upsertDashboardFilterError E r plan.DashboardId state.Id (some plan) answer with
  | some e => .error (.updating e)
  | none => .ok { plan with Id := state.Id }

/-- The requests one run of `resourceDashboardFilter.Update` sends: those of its
single call of `upsertDashboardFilter`. -/
def updateRequests (E : Env) (r : Remote) (plan state : DashboardFilter) : List Request :=
  upsertRequests E r plan.DashboardId state.Id (some plan)

/-- The store after the API has received a request. A GET changes nothing. A PUT
names one dashboard: when the API carries it out, the `json_metadata` of that
dashboard is replaced, and when it does not, the store stays as it is. The error the
caller gets does not tell which of the two happened (a call can fail after the API
has done its work), so it is a parameter. -/
def Remote.serve (r : Remote) (carriedOut : Bool) : Request → Remote
  | .get _ => r
  | .put dashboardId jsonMetadata =>
    if carriedOut then
      match r.put dashboardId jsonMetadata with
      | .ok r' => r'
      | .error _ => r
    else r

/-- The store after the API has received a list of requests, in order. -/
def Remote.serveAll (r : Remote) (carriedOut : Bool) (requests : List Request) : Remote :=
  requests.foldl (fun s q => Remote.serve s carriedOut q) r

/-- A planned filter whose config is the JSON value `null`. -/
def nullFilter : DashboardFilter :=
  { Id := "", DashboardId := 7, Name := "Country", Config := "null" }

/-- A planned filter whose config is an object that carries an `id` of its own. -/
def idFilter : DashboardFilter :=
  { Id := "", DashboardId := 7, Name := "Country",
    Config := "\x7b\"id\":\"mine\",\"name\":\"Country\"\x7d" }

/-- The store `emptyRemote` after `idFilter` has been added under the id 100001. -/
def sampleTagged : Remote := fun d =>
  if d = 7 then
    some (some "\x7b\"native_filter_configuration\":[\x7b\"id\":\"100001\",\"name\":\"Country\"\x7d]\x7d")
  else emptyRemote d

/-- The store `dupRemote` after `sampleFilter` has been upserted under the id 100001:
the first of the two old entries of that id is gone, the second is still there. -/
def dupReplaced : Remote := fun d =>
  if d = 7 then
    some (some "\x7b\"native_filter_configuration\":[\x7b\"id\":\"100001\",\"name\":\"Year\"\x7d,\x7b\"filterType\":\"filter_select\",\"id\":\"100001\",\"name\":\"Country\"\x7d]\x7d")
  else dupRemote d

/-- A store with the sample dashboard 7 and a second dashboard 8 without metadata. -/
def twoRemote : Remote := fun d => if d = 8 then some none else sampleRemote d

/-- A plan that keeps filter 100002 as it is and names dashboard 8 instead of 7. -/
def movedPlan : DashboardFilter :=
  { Id := "100002", DashboardId := 8, Name := "Year",
    Config := "\x7b\"name\":\"Year\",\"scope\":[1,2]\x7d" }

/-- The store `twoRemote` after the update of filter 100002 to `movedPlan`. -/
def twoMoved : Remote := fun d =>
  if d = 8 then
    some (some "\x7b\"native_filter_configuration\":[\x7b\"id\":\"100002\",\"name\":\"Year\",\"scope\":[1,2]\x7d]\x7d")
  else twoRemote d

/-- A plan for dashboard 8 whose config is not JSON. -/
def brokenPlan : DashboardFilter :=
  { Id := "100002", DashboardId := 8, Name := "Year", Config := "oops" }

/-- A plan for dashboard 8 whose config is valid JSON but not an object. -/
def arrayPlan : DashboardFilter :=
  { Id := "100002", DashboardId := 8, Name := "Year", Config := "[]" }

/-! ## The key order -/

theorem ltChars_irrefl (a : List Char) : ltChars a a = false := by
  induction a with
  | nil => rfl
  | cons c cs ih => simp [ltChars, ih]

theorem ltChars_trans : ∀ (a b c : List Char),
    ltChars a b = true → ltChars b c = true → ltChars a c = true
  | [], [], _, h, _ => by simp [ltChars] at h
  | [], _ :: _, [], _, h => by simp [ltChars] at h
  | [], _ :: _, _ :: _, _, _ => by simp [ltChars]
  | _ :: _, [], _, h, _ => by simp [ltChars] at h
  | _ :: _, _ :: _, [], _, h => by simp [ltChars] at h
  | x :: xs, y :: ys, z :: zs, h1, h2 => by
    simp only [ltChars] at h1 h2 ⊢
    split_ifs at h1 h2 ⊢ <;> first | rfl | omega | exact ltChars_trans xs ys zs h1 h2

theorem ltChars_total : ∀ (a b : List Char), a ≠ b → ltChars a b = true ∨ ltChars b a = true
  | [], [], h => absurd rfl h
  | [], _ :: _, _ => by simp [ltChars]
  | _ :: _, [], _ => by simp [ltChars]
  | x :: xs, y :: ys, h => by
    simp only [ltChars]
    by_cases h1 : x.toNat < y.toNat
    · simp [h1]
    · by_cases h2 : y.toNat < x.toNat
      · simp [h2]
      · have hxy : x.toNat = y.toNat := by omega
        have hc : x = y := by
          rw [← Char.ofNat_toNat x, ← Char.ofNat_toNat y, hxy]
        subst hc
        have hne : xs ≠ ys := fun e => h (by rw [e])
        simpa using ltChars_total xs ys hne

theorem keyLt_irrefl (a : String) : keyLt a a = false := ltChars_irrefl _

theorem keyLt_trans {a b c : String} (h1 : keyLt a b = true) (h2 : keyLt b c = true) :
    keyLt a c = true :=
  ltChars_trans _ _ _ h1 h2

theorem keyLt_total {a b : String} (h : a ≠ b) : keyLt a b = true ∨ keyLt b a = true :=
  ltChars_total _ _ (fun e => h (String.ext e))

theorem keyLt_ne {a b : String} (h1 : keyLt a b = true) : a ≠ b := by
  intro e
  subst e
  rw [keyLt_irrefl] at h1
  exact absurd h1 (by simp)

/-! ## Maps as key-sorted association lists -/

namespace Obj

theorem keysSorted_cons_iff (k : String) (v : Json) (m : List (String × Json)) :
    keysSorted ((k, v) :: m) = true ↔ (∀ kv ∈ m, keyLt k kv.1 = true) ∧ keysSorted m = true := by
  induction m generalizing k v with
  | nil => simp [keysSorted]
  | cons kv m ih =>
    obtain ⟨k', v'⟩ := kv
    simp only [keysSorted, Bool.and_eq_true, List.mem_cons, forall_eq_or_imp]
    constructor
    · rintro ⟨h1, h2⟩
      refine ⟨⟨h1, ?_⟩, h2⟩
      intro kv hkv
      exact keyLt_trans h1 ((ih k' v').1 h2 |>.1 kv hkv)
    · rintro ⟨⟨h1, _⟩, h2⟩
      exact ⟨h1, h2⟩

theorem get_eq_none_of_lt {k : String} {m : List (String × Json)}
    (h : ∀ kv ∈ m, keyLt k kv.1 = true) : get k m = none := by
  induction m with
  | nil => rfl
  | cons kv m ih =>
    obtain ⟨k', v'⟩ := kv
    have h1 : keyLt k k' = true := h (k', v') (List.mem_cons_self _ _)
    have hne : k' ≠ k := fun e => keyLt_ne h1 e.symm
    simp only [get, hne, if_false]
    exact ih (fun kv hkv => h kv (List.mem_cons_of_mem _ hkv))

theorem mem_of_get {k : String} {v : Json} {m : List (String × Json)}
    (h : get k m = some v) : (k, v) ∈ m := by
  induction m with
  | nil => simp [get] at h
  | cons kv m ih =>
    obtain ⟨k', v'⟩ := kv
    simp only [get] at h
    split_ifs at h with hk
    · cases h
      subst hk
      exact List.mem_cons_self _ _
    · exact List.mem_cons_of_mem _ (ih h)

theorem get_set_self (k : String) (v : Json) (m : List (String × Json)) :
    get k (set k v m) = some v := by
  induction m with
  | nil => simp [set, get]
  | cons kv m ih =>
    obtain ⟨k', v'⟩ := kv
    simp only [set]
    split_ifs with h1 h2
    · simp [get]
    · simp [get]
    · simp [get, h1, ih]

theorem get_set_ne {k k' : String} (v : Json) (m : List (String × Json)) (h : k' ≠ k) :
    get k' (set k v m) = get k' m := by
  induction m with
  | nil => simp [set, get, h.symm]
  | cons kv m ih =>
    obtain ⟨k'', v''⟩ := kv
    simp only [set]
    split_ifs with h1 h2
    · subst h1
      simp [get, h.symm]
    · simp [get, h.symm]
    · simp only [get, ih]

theorem get_delete_self (k : String) (m : List (String × Json)) :
    get k (delete k m) = none := by
  induction m with
  | nil => rfl
  | cons kv m ih =>
    obtain ⟨k', v'⟩ := kv
    simp only [delete]
    split_ifs with h1
    · exact ih
    · simp [get, h1, ih]

theorem get_delete_ne {k k' : String} (m : List (String × Json)) (h : k' ≠ k) :
    get k' (delete k m) = get k' m := by
  induction m with
  | nil => rfl
  | cons kv m ih =>
    obtain ⟨k'', v''⟩ := kv
    simp only [delete]
    split_ifs with h1
    · subst h1
      simp [get, h.symm, ih]
    · simp only [get, ih]

theorem mem_delete {k : String} {m : List (String × Json)} {kv : String × Json}
    (h : kv ∈ delete k m) : kv ∈ m := by
  induction m with
  | nil => simp [delete] at h
  | cons kv' m ih =>
    obtain ⟨k', v'⟩ := kv'
    simp only [delete] at h
    split_ifs at h with h1
    · exact List.mem_cons_of_mem _ (ih h)
    · rcases List.mem_cons.1 h with h | h
      · exact h ▸ List.mem_cons_self _ _
      · exact List.mem_cons_of_mem _ (ih h)

theorem mem_set {k : String} {v : Json} {m : List (String × Json)} {kv : String × Json}
    (h : kv ∈ set k v m) : kv = (k, v) ∨ kv ∈ m := by
  induction m with
  | nil => simpa [set] using h
  | cons kv' m ih =>
    obtain ⟨k', v'⟩ := kv'
    simp only [set] at h
    split_ifs at h with h1 h2
    · rcases List.mem_cons.1 h with h | h
      · exact Or.inl h
      · exact Or.inr (List.mem_cons_of_mem _ h)
    · rcases List.mem_cons.1 h with h | h
      · exact Or.inl h
      · exact Or.inr h
    · rcases List.mem_cons.1 h with h | h
      · exact Or.inr (h ▸ List.mem_cons_self _ _)
      · rcases ih h with h | h
        · exact Or.inl h
        · exact Or.inr (List.mem_cons_of_mem _ h)

theorem keysSorted_delete {k : String} {m : List (String × Json)}
    (h : keysSorted m = true) : keysSorted (delete k m) = true := by
  induction m with
  | nil => rfl
  | cons kv m ih =>
    obtain ⟨k', v'⟩ := kv
    rw [keysSorted_cons_iff] at h
    simp only [delete]
    split_ifs with h1
    · exact ih h.2
    · rw [keysSorted_cons_iff]
      exact ⟨fun kv hkv => h.1 kv (mem_delete hkv), ih h.2⟩

theorem keysSorted_set {k : String} {v : Json} {m : List (String × Json)}
    (h : keysSorted m = true) : keysSorted (set k v m) = true := by
  induction m with
  | nil => rfl
  | cons kv m ih =>
    obtain ⟨k', v'⟩ := kv
    have h' := (keysSorted_cons_iff k' v' m).1 h
    simp only [set]
    split_ifs with h1 h2
    · subst h1
      rw [keysSorted_cons_iff]
      exact h'
    · rw [keysSorted_cons_iff]
      refine ⟨?_, h⟩
      intro kv hkv
      rcases List.mem_cons.1 hkv with e | hkv
      · subst e
        exact h2
      · exact keyLt_trans h2 (h'.1 kv hkv)
    · rw [keysSorted_cons_iff]
      refine ⟨?_, ih h'.2⟩
      intro kv hkv
      rcases mem_set hkv with e | hkv
      · subst e
        rcases keyLt_total h1 with h3 | h3
        · exact h3
        · rw [h3] at h2
          exact absurd rfl h2
      · exact h'.1 kv hkv

/-- Two key-sorted association lists with the same reads are equal. -/
theorem ext : ∀ {a b : List (String × Json)}, keysSorted a = true → keysSorted b = true →
    (∀ k, get k a = get k b) → a = b
  | [], [], _, _, _ => rfl
  | [], (k, v) :: b, _, _, h => by
    have := h k
    simp [get] at this
  | (k, v) :: a, [], _, _, h => by
    have := h k
    simp [get] at this
  | (k, v) :: a, (k', v') :: b, ha, hb, h => by
    rw [keysSorted_cons_iff] at ha hb
    have hk : k = k' := by
      by_contra hne
      rcases keyLt_total hne with h1 | h1
      · have h2 := h k
        have h3 : get k ((k', v') :: b) = none := by
          apply get_eq_none_of_lt
          intro kv hkv
          rcases List.mem_cons.1 hkv with e | hkv
          · subst e
            exact h1
          · exact keyLt_trans h1 (hb.1 kv hkv)
        rw [h3] at h2
        simp [get] at h2
      · have h2 := h k'
        have h3 : get k' ((k, v) :: a) = none := by
          apply get_eq_none_of_lt
          intro kv hkv
          rcases List.mem_cons.1 hkv with e | hkv
          · subst e
            exact h1
          · exact keyLt_trans h1 (ha.1 kv hkv)
        rw [h3] at h2
        simp [get] at h2
    subst hk
    have hv : v = v' := by
      have := h k
      simpa [get] using this
    subst hv
    have hab : a = b := by
      apply ext ha.2 hb.2
      intro j
      by_cases hj : k = j
      · subst hj
        rw [get_eq_none_of_lt ha.1, get_eq_none_of_lt hb.1]
      · have := h j
        simpa [get, hj] using this
    rw [hab]

theorem set_delete_of_get {k : String} {v : Json} {m : List (String × Json)}
    (hs : keysSorted m = true) (h : get k m = some v) : set k v (delete k m) = m := by
  apply ext (keysSorted_set (keysSorted_delete hs)) hs
  intro j
  by_cases hj : j = k
  · subst hj
    rw [get_set_self, h]
  · rw [get_set_ne _ _ hj, get_delete_ne _ hj]

theorem get_of_mem {k : String} {v : Json} {m : List (String × Json)}
    (hs : keysSorted m = true) (h : (k, v) ∈ m) : get k m = some v := by
  induction m with
  | nil => simp at h
  | cons kv m ih =>
    obtain ⟨k', v'⟩ := kv
    rw [keysSorted_cons_iff] at hs
    rcases List.mem_cons.1 h with e | h
    · cases e
      simp [get]
    · have hne : k' ≠ k := keyLt_ne (hs.1 (k, v) h)
      simp only [get, hne, if_false]
      exact ih hs.2 h

end Obj

/-! ## Canonical values -/

theorem Json.canonicalList_iff (xs : List Json) :
    Json.canonicalList xs = true ↔ ∀ x ∈ xs, x.canonical = true := by
  induction xs with
  | nil => simp [Json.canonicalList]
  | cons x xs ih => simp [Json.canonicalList, ih]

theorem Json.canonicalMembers_iff (m : List (String × Json)) :
    Json.canonicalMembers m = true ↔ ∀ kv ∈ m, kv.2.canonical = true := by
  induction m with
  | nil => simp [Json.canonicalMembers]
  | cons kv m ih =>
    obtain ⟨k, v⟩ := kv
    simp [Json.canonicalMembers, ih]

theorem Json.canonical_arr (xs : List Json) :
    (Json.arr xs).canonical = true ↔ ∀ x ∈ xs, x.canonical = true := by
  rw [Json.canonical, Json.canonicalList_iff]

theorem Json.canonical_obj (m : List (String × Json)) :
    (Json.obj m).canonical = true ↔
      Obj.keysSorted m = true ∧ ∀ kv ∈ m, kv.2.canonical = true := by
  rw [Json.canonical, Bool.and_eq_true, Json.canonicalMembers_iff]

theorem Json.canonical_get {m : List (String × Json)} {k : String} {v : Json}
    (hm : (Json.obj m).canonical = true) (h : Obj.get k m = some v) : v.canonical = true :=
  ((Json.canonical_obj m).1 hm).2 (k, v) (Obj.mem_of_get h)

theorem Json.canonical_set {m : List (String × Json)} {k : String} {v : Json}
    (hm : (Json.obj m).canonical = true) (hv : v.canonical = true) :
    (Json.obj (Obj.set k v m)).canonical = true := by
  rw [Json.canonical_obj] at hm ⊢
  refine ⟨Obj.keysSorted_set hm.1, ?_⟩
  intro kv hkv
  rcases Obj.mem_set hkv with e | hkv
  · subst e
    exact hv
  · exact hm.2 kv hkv

theorem Json.canonical_delete {m : List (String × Json)} {k : String}
    (hm : (Json.obj m).canonical = true) : (Json.obj (Obj.delete k m)).canonical = true := by
  rw [Json.canonical_obj] at hm ⊢
  exact ⟨Obj.keysSorted_delete hm.1, fun kv hkv => hm.2 kv (Obj.mem_delete hkv)⟩

namespace Obj

theorem set_set (k : String) (a b : Json) (m : List (String × Json)) :
    set k a (set k b m) = set k a m := by
  induction m with
  | nil => simp [set]
  | cons kv m ih =>
    obtain ⟨k', v'⟩ := kv
    simp only [set]
    split_ifs with h1 h2
    · simp [set]
    · simp [set, h2]
    · simp [set, h1, h2, ih]

theorem nodup_keys_of_keysSorted {m : List (String × Json)} (h : keysSorted m = true) :
    (m.map Prod.fst).Nodup := by
  induction m with
  | nil => simp
  | cons kv m ih =>
    obtain ⟨k, v⟩ := kv
    rw [keysSorted_cons_iff] at h
    rw [List.map_cons, List.nodup_cons]
    refine ⟨?_, ih h.2⟩
    intro hk
    obtain ⟨kv, hkv, e⟩ := List.mem_map.1 hk
    exact keyLt_ne (h.1 kv hkv) e.symm

theorem keysSorted_foldl_set (l : List (String × Json)) :
    ∀ acc, keysSorted acc = true →
      keysSorted (l.foldl (fun a kv => set kv.1 kv.2 a) acc) = true := by
  induction l with
  | nil => intro acc h; exact h
  | cons kv l ih => intro acc h; exact ih _ (keysSorted_set h)

theorem get_foldl_set_of_not_mem (j : String) (l : List (String × Json)) :
    ∀ acc, (∀ kv ∈ l, kv.1 ≠ j) →
      get j (l.foldl (fun a kv => set kv.1 kv.2 a) acc) = get j acc := by
  induction l with
  | nil => intro acc _; rfl
  | cons kv l ih =>
    intro acc h
    rw [List.foldl_cons, ih _ (fun kv' hkv' => h kv' (List.mem_cons_of_mem _ hkv'))]
    exact get_set_ne _ _ (h kv (List.mem_cons_self _ _)).symm

theorem get_foldl_set_of_mem (j : String) (v : Json) (l : List (String × Json)) :
    ∀ acc, (l.map Prod.fst).Nodup → (j, v) ∈ l →
      get j (l.foldl (fun a kv => set kv.1 kv.2 a) acc) = some v := by
  induction l with
  | nil => intro acc _ h; simp at h
  | cons kv l ih =>
    intro acc hnd h
    rw [List.map_cons, List.nodup_cons] at hnd
    rw [List.foldl_cons]
    rcases List.mem_cons.1 h with e | h
    · subst e
      rw [get_foldl_set_of_not_mem]
      · exact get_set_self _ _ _
      · intro kv' hkv' e
        exact hnd.1 (List.mem_map.2 ⟨kv', hkv', e⟩)
    · exact ih _ hnd.2 h

/-- Writing the entries of a map one by one, in any order, into an empty map gives
the map back. -/
theorem foldl_set_perm {m l : List (String × Json)} (hs : keysSorted m = true)
    (hp : l.Perm m) : l.foldl (fun a kv => set kv.1 kv.2 a) [] = m := by
  apply ext (keysSorted_foldl_set l [] rfl) hs
  intro j
  have hnd : (l.map Prod.fst).Nodup :=
    (List.Perm.nodup_iff (hp.map Prod.fst)).2 (nodup_keys_of_keysSorted hs)
  cases hj : get j m with
  | some v =>
    exact get_foldl_set_of_mem j v l [] hnd (hp.mem_iff.2 (mem_of_get hj))
  | none =>
    rw [get_foldl_set_of_not_mem]
    · rfl
    · intro kv hkv e
      have hmem : (j, kv.2) ∈ m := by
        rw [← e]
        exact hp.mem_iff.1 hkv
      rw [get_of_mem hs hmem] at hj
      cases hj

end Obj

/-! ## The tree operations -/

theorem Gabs.foldlM_set (l : List (String × Json)) :
    ∀ acc : List (String × Json),
      l.foldlM (fun g kv => Gabs.set g kv.2 kv.1) (Json.obj acc) =
        (Except.ok (Json.obj (l.foldl (fun a kv => Obj.set kv.1 kv.2 a) acc)) : Except Err Json) := by
  induction l with
  | nil => intro acc; rfl
  | cons kv l ih =>
    intro acc
    rw [List.foldlM_cons, List.foldl_cons, ← ih]
    rfl

/-- Merging a map-valued tree into a fresh container copies its top level. -/
theorem Gabs.mergeIntoNew_obj {E : Env} (hE : E.Lawful) {m : List (String × Json)}
    (hs : Obj.keysSorted m = true) : Gabs.mergeIntoNew E (.obj m) = .ok (.obj m) := by
  simp only [Gabs.mergeIntoNew, Gabs.new]
  rw [Gabs.foldlM_set, Obj.foldl_set_perm hs (hE.mapRange_perm m)]

/-- Merging never fails and always leaves a map. -/
theorem Gabs.mergeIntoNew_ok (E : Env) (t : Json) :
    ∃ base, Gabs.mergeIntoNew E t = .ok (.obj base) := by
  cases t with
  | obj m => exact ⟨_, by simp only [Gabs.mergeIntoNew, Gabs.new]; rw [Gabs.foldlM_set]⟩
  | _ => exact ⟨[], rfl⟩

/-! ## Reading the collection -/

theorem readFilter_ok_iff (E : Env) (d : Int) (v : Json) (f : DashboardFilter) :
    (∃ v', readFilter E d v = .ok (f, v')) ↔ EntryReads E d v f := by
  constructor
  · rintro ⟨v', h⟩
    cases v with
    | obj m =>
      simp only [readFilter, Gabs.path, Gabs.data, Gabs.delete] at h
      cases hid : Obj.get "id" m with
      | none => simp [hid, Gabs.asString] at h
      | some a =>
        cases a with
        | str id =>
          cases hname : Obj.get "name" m with
          | none => simp [hid, hname, Gabs.asString] at h
          | some b =>
            cases b with
            | str name =>
              simp only [hid, hname, Gabs.asString, Except.ok.injEq, Prod.mk.injEq] at h
              exact ⟨m, id, name, rfl, hid, hname, h.1.symm⟩
            | _ => simp [hid, hname, Gabs.asString] at h
        | _ => simp [hid, Gabs.asString] at h
    | _ => simp [readFilter, Gabs.path, Gabs.data, Gabs.asString] at h
  · rintro ⟨m, id, name, rfl, hid, hname, rfl⟩
    exact ⟨.obj (Obj.delete "id" m),
      by simp [readFilter, Gabs.path, Gabs.data, Gabs.delete, hid, hname, Gabs.asString]⟩

theorem readFilters_ok_iff (E : Env) (d : Int) (vs : List Json) (fs : List DashboardFilter) :
    readFilters E d vs = .ok fs ↔ List.Forall₂ (EntryReads E d) vs fs := by
  induction vs generalizing fs with
  | nil =>
    cases fs with
    | nil => simp [readFilters]
    | cons f fs => simp [readFilters]
  | cons v vs ih =>
    simp only [readFilters]
    cases hr : readFilter E d v with
    | error e =>
      simp only [reduceCtorEq, false_iff]
      intro h
      cases h with
      | cons h1 _ =>
        obtain ⟨v', hv'⟩ := (readFilter_ok_iff E d v _).2 h1
        rw [hr] at hv'
        cases hv'
    | ok p =>
      obtain ⟨f, v'⟩ := p
      have hf : EntryReads E d v f := (readFilter_ok_iff E d v f).1 ⟨v', hr⟩
      cases hrs : readFilters E d vs with
      | error e =>
        simp only [reduceCtorEq, false_iff]
        intro h
        cases h with
        | cons _ h2 =>
          rw [(ih _).2 h2] at hrs
          cases hrs
      | ok fs' =>
        simp only [Except.ok.injEq]
        constructor
        · rintro rfl
          exact List.Forall₂.cons hf ((ih _).1 hrs)
        · intro h
          cases h with
          | cons h1 h2 =>
            have e1 := (ih _).2 h2
            rw [hrs] at e1
            cases e1
            obtain ⟨m, id, name, rfl, hid, hname, rfl⟩ := hf
            obtain ⟨m', id', name', hm', hid', hname', rfl⟩ := h1
            cases hm'
            rw [hid] at hid'
            rw [hname] at hname'
            cases hid'
            cases hname'
            rfl

/-- The loop fails as soon as one entry does not read as a filter. -/
theorem readFilters_error_of_mem (E : Env) (d : Int) (vs : List Json) (v : Json)
    (hv : v ∈ vs) (h : ¬ ∃ f, EntryReads E d v f) : ∃ e, readFilters E d vs = .error e := by
  cases hr : readFilters E d vs with
  | error e => exact ⟨e, rfl⟩
  | ok fs =>
    exfalso
    have h2 := (readFilters_ok_iff E d vs fs).1 hr
    clear hr
    induction h2 with
    | nil => simp at hv
    | cons h1 _ ih =>
      rcases List.mem_cons.1 hv with e | hv
      · subst e
        exact h ⟨_, h1⟩
      · exact ih hv

/-- What a successful `getDashboardFilters` says about the remote document. -/
theorem getDashboardFilters_ok_iff (E : Env) (r : Remote) (d : Int)
    (fs : List DashboardFilter) (jm : Option Json) :
    getDashboardFilters E r d = .ok (fs, jm) ↔
      (r d = some none ∧ fs = [] ∧ jm = none) ∨
      (∃ text t, r d = some (some text) ∧ E.unmarshal text = some t ∧
        List.Forall₂ (EntryReads E d) (Gabs.children E (Gabs.path t nfc)) fs ∧
        jm = some (afterRead t)) := by
  simp only [getDashboardFilters, getDashboardJsonMetadata]
  cases hr : r d with
  | none => simp
  | some md =>
    cases md with
    | none =>
      simp only [Except.ok.injEq, Prod.mk.injEq, Option.some.injEq, reduceCtorEq, false_and,
        exists_false, or_false, true_and]
      constructor
      · rintro ⟨rfl, rfl⟩
        exact ⟨rfl, rfl⟩
      · rintro ⟨rfl, rfl⟩
        exact ⟨rfl, rfl⟩
    | some text =>
      simp only [Option.some.injEq, reduceCtorEq, false_and, false_or]
      cases hu : E.unmarshal text with
      | none =>
        simp only [reduceCtorEq, false_iff]
        rintro ⟨text', t', rfl, ht', _⟩
        rw [hu] at ht'
        cases ht'
      | some t =>
        simp only []
        cases hrf : readFilters E d (Gabs.children E (Gabs.path t nfc)) with
        | error e =>
          simp only [reduceCtorEq, false_iff]
          rintro ⟨text', t', rfl, ht', h, _⟩
          rw [hu] at ht'
          cases ht'
          rw [(readFilters_ok_iff _ _ _ _).2 h] at hrf
          cases hrf
        | ok fs' =>
          have hfs := (readFilters_ok_iff _ _ _ _).1 hrf
          simp only [Except.ok.injEq, Prod.mk.injEq]
          constructor
          · rintro ⟨rfl, rfl⟩
            exact ⟨text, t, rfl, hu, hfs, rfl⟩
          · rintro ⟨text', t', rfl, ht', h, rfl⟩
            rw [hu] at ht'
            cases ht'
            have e1 := (readFilters_ok_iff _ _ _ _).2 h
            rw [hrf] at e1
            cases e1
            exact ⟨rfl, rfl⟩

/-! ## Writing the collection -/

theorem placeEntry_obj {m : List (String × Json)} {done todo : List Json} (t c : Json)
    (h : Obj.get nfc m = some (.arr (done ++ t :: todo))) :
    placeEntry (.obj m) c done.length =
      .obj (Obj.set nfc (.arr ((done ++ [c]) ++ todo)) m) := by
  simp only [placeEntry, Gabs.path, h, Gabs.setIndex, List.length_append, List.length_cons,
    Gabs.set]
  have hlt : done.length < done.length + (todo.length + 1) := by omega
  simp only [hlt, if_true]
  congr 3
  simp

theorem writeFilters_ok (E : Env) (fs : List DashboardFilter) :
    ∀ (base : List (String × Json)) (done todo : List Json),
      todo.length = fs.length →
      (∀ f ∈ fs, (E.unmarshal f.Config).isSome = true) →
      writeFilters E fs done.length (.obj (Obj.set nfc (.arr (done ++ todo)) base)) =
        .ok (.obj (Obj.set nfc (.arr (done ++ fs.map (entryOf E))) base)) := by
  induction fs with
  | nil =>
    intro base done todo hlen _
    have : todo = [] := List.length_eq_zero.1 hlen
    subst this
    rfl
  | cons f fs ih =>
    intro base done todo hlen hparse
    cases todo with
    | nil => simp at hlen
    | cons t todo =>
      have hf := hparse f (List.mem_cons_self _ _)
      obtain ⟨c, hc⟩ := Option.isSome_iff_exists.1 hf
      simp only [writeFilters, hc]
      rw [placeEntry_obj t _ (Obj.get_set_self _ _ _), Obj.set_set]
      have hlen' : (done ++ [stampId c f.Id]).length = done.length + 1 := by simp
      rw [← hlen']
      rw [ih base (done ++ [stampId c f.Id]) todo (by simpa using hlen)
        (fun f' hf' => hparse f' (List.mem_cons_of_mem _ hf'))]
      simp [entryOf, hc]

theorem writeFilters_isSome (E : Env) (fs : List DashboardFilter) :
    ∀ (i : Nat) (t t' : Json), writeFilters E fs i t = .ok t' →
      ∀ f ∈ fs, (E.unmarshal f.Config).isSome = true := by
  induction fs with
  | nil => intro i t t' _ f hf; simp at hf
  | cons f fs ih =>
    intro i t t' h f' hf'
    simp only [writeFilters] at h
    cases hc : E.unmarshal f.Config with
    | none => simp [hc] at h
    | some c =>
      simp only [hc] at h
      rcases List.mem_cons.1 hf' with e | hf'
      · subst e
        simp [hc]
      · exact ih _ _ _ h f' hf'

/-! ## The new collection -/

theorem findDashboardFilterById_some {fs : List DashboardFilter} {X : String}
    {f : DashboardFilter} (h : findDashboardFilterById fs X = some f) : f.Id = X ∧ f ∈ fs := by
  induction fs with
  | nil => simp [findDashboardFilterById] at h
  | cons g fs ih =>
    simp only [findDashboardFilterById] at h
    split_ifs at h with hg
    · cases h
      exact ⟨hg, List.mem_cons_self _ _⟩
    · exact ⟨(ih h).1, List.mem_cons_of_mem _ (ih h).2⟩

theorem findDashboardFilterById_none {fs : List DashboardFilter} {X : String} :
    findDashboardFilterById fs X = none ↔ ∀ f ∈ fs, f.Id ≠ X := by
  induction fs with
  | nil => simp [findDashboardFilterById]
  | cons g fs ih =>
    simp only [findDashboardFilterById]
    split_ifs with hg
    · simp [hg]
    · simp [hg, ih]

theorem filter_ne_eq_self {fs : List DashboardFilter} {X : String}
    (h : ∀ f ∈ fs, f.Id ≠ X) : fs.filter (fun f => decide (f.Id ≠ X)) = fs := by
  apply List.filter_eq_self.2
  intro f hf
  simpa using h f hf

theorem remove_eq_filter {fs : List DashboardFilter} (item : DashboardFilter)
    (hnd : (fs.map (fun f => f.Id)).Nodup) :
    remove fs item = fs.filter (fun f => decide (f.Id ≠ item.Id)) := by
  induction fs with
  | nil => rfl
  | cons g fs ih =>
    rw [List.map_cons, List.nodup_cons] at hnd
    simp only [remove]
    split_ifs with hg
    · have hrest : ∀ f ∈ fs, f.Id ≠ item.Id := by
        intro f hf e
        exact hnd.1 (List.mem_map.2 ⟨f, hf, by rw [e, hg]⟩)
      have h2 := filter_ne_eq_self hrest
      simp only [List.filter_cons, hg, ne_eq, not_true_eq_false, decide_False]
      exact h2.symm
    · have h2 := ih hnd.2
      simp only [List.filter_cons, hg, ne_eq, not_false_eq_true, decide_True, if_true]
      rw [h2]

/-- With pairwise distinct ids the new collection is the old one without the
elements of the given id, followed by the new element. -/
theorem newCollection_eq_filter {fs : List DashboardFilter} (X : String)
    (F : Option DashboardFilter) (hnd : (fs.map (fun f => f.Id)).Nodup) :
    newCollection fs X F =
      fs.filter (fun f => decide (f.Id ≠ X)) ++
        (match F with
         | some f => [{ f with Id := X }]
         | none => []) := by
  have h1 : (match findDashboardFilterById fs X with
      | some existingFilter => remove fs existingFilter
      | none => fs) = fs.filter (fun f => decide (f.Id ≠ X)) := by
    cases hfind : findDashboardFilterById fs X with
    | none => exact (filter_ne_eq_self (findDashboardFilterById_none.1 hfind)).symm
    | some g =>
      have hg := (findDashboardFilterById_some hfind).1
      simp only [remove_eq_filter g hnd, hg]
  simp only [newCollection, h1]
  cases F with
  | none => simp
  | some f => rfl

/-! ## The tree `upsertDashboardFilter` writes -/

theorem metadataOf_canonical {E : Env} (hE : E.Lawful) {r : Remote} {d : Int} {t : Json}
    (h : metadataOf E r d = some t) : t.canonical = true := by
  simp only [metadataOf, getDashboardJsonMetadata] at h
  cases hr : r d with
  | none => simp [hr] at h
  | some md =>
    cases md with
    | none => simp [hr] at h
    | some text =>
      simp only [hr] at h
      cases hu : E.unmarshal text with
      | none => simp [hu] at h
      | some t' =>
        simp only [hu, Option.some.injEq] at h
        subst h
        exact hE.unmarshal_canonical _ _ hu

theorem children_canonical {E : Env} (hE : E.Lawful) {t : Json} (ht : t.canonical = true)
    (k : String) : ∀ v ∈ Gabs.children E (Gabs.path t k), v.canonical = true := by
  intro v hv
  cases t with
  | obj m =>
    simp only [Gabs.path] at hv
    cases hg : Obj.get k m with
    | none => simp [hg, Gabs.children] at hv
    | some c =>
      have hc := Json.canonical_get ht hg
      rw [hg] at hv
      cases c with
      | arr xs =>
        simp only [Gabs.children] at hv
        exact (Json.canonical_arr xs).1 hc v hv
      | obj kvs =>
        simp only [Gabs.children] at hv
        obtain ⟨kv, hkv, rfl⟩ := List.mem_map.1 hv
        exact ((Json.canonical_obj kvs).1 hc).2 kv ((hE.mapRange_perm kvs).mem_iff.1 hkv)
      | _ => simp [Gabs.children] at hv
  | _ => simp [Gabs.path, Gabs.children] at hv

theorem wireEntries_canonical {E : Env} (hE : E.Lawful) (r : Remote) (d : Int) :
    ∀ v ∈ wireEntries E r d, v.canonical = true := by
  intro v hv
  simp only [wireEntries] at hv
  cases hm : metadataOf E r d with
  | none => simp [hm] at hv
  | some t =>
    rw [hm] at hv
    exact children_canonical hE (metadataOf_canonical hE hm) nfc v hv

/-- A successful read, in terms of the wire entries. -/
theorem getDashboardFilters_ok {E : Env} {r : Remote} {d : Int} {old : List DashboardFilter}
    {jm : Option Json} (h : getDashboardFilters E r d = .ok (old, jm)) :
    List.Forall₂ (EntryReads E d) (wireEntries E r d) old ∧
      jm = (metadataOf E r d).map afterRead ∧ (r d).isSome = true := by
  rcases (getDashboardFilters_ok_iff E r d old jm).1 h with ⟨hr, rfl, rfl⟩ | ⟨text, t, hr, hu, hf, rfl⟩
  · simp [wireEntries, metadataOf, getDashboardJsonMetadata, hr]
  · simp [wireEntries, metadataOf, getDashboardJsonMetadata, hr, hu, hf]

/-- The entry written back for a filter that was read from a canonical entry is
that entry. -/
theorem entryOf_of_entryReads {E : Env} (hE : E.Lawful) {d : Int} {v : Json}
    {f : DashboardFilter} (hv : v.canonical = true) (h : EntryReads E d v f) :
    entryOf E f = v := by
  obtain ⟨m, id, name, rfl, hid, hname, rfl⟩ := h
  have hc : (Json.obj (Obj.delete "id" m)).canonical = true := Json.canonical_delete hv
  simp only [entryOf, hE.unmarshal_marshal _ hc, stampId, Gabs.set]
  rw [Obj.set_delete_of_get ((Json.canonical_obj m).1 hv).1 hid]

theorem entryId_of_entryReads {E : Env} {d : Int} {v : Json} {f : DashboardFilter}
    (h : EntryReads E d v f) : entryId v = some f.Id := by
  obtain ⟨m, id, name, rfl, hid, hname, rfl⟩ := h
  simp [entryId, Gabs.path, hid]

theorem unmarshal_config_of_entryReads {E : Env} (hE : E.Lawful) {d : Int} {v : Json}
    {f : DashboardFilter} (hv : v.canonical = true) (h : EntryReads E d v f) :
    (E.unmarshal f.Config).isSome = true := by
  obtain ⟨m, id, name, rfl, hid, hname, rfl⟩ := h
  have hc : (Json.obj (Obj.delete "id" m)).canonical = true := Json.canonical_delete hv
  simp [hE.unmarshal_marshal _ hc]

theorem map_entryOf_filter {E : Env} (hE : E.Lawful) {d : Int} (X : String) :
    ∀ {vs : List Json} {fs : List DashboardFilter}, List.Forall₂ (EntryReads E d) vs fs →
      (∀ v ∈ vs, v.canonical = true) →
      (fs.filter (fun f => decide (f.Id ≠ X))).map (entryOf E) =
        vs.filter (fun v => decide (entryId v ≠ some X)) := by
  intro vs fs h
  induction h with
  | nil => intro _; rfl
  | @cons v f vs fs h1 _ ih =>
    intro hc
    have hv := hc v (List.mem_cons_self _ _)
    have ih' := ih (fun v' hv' => hc v' (List.mem_cons_of_mem _ hv'))
    have hid := entryId_of_entryReads h1
    by_cases hX : f.Id = X
    · simp only [List.filter_cons, hX, hid, ne_eq, not_true_eq_false, decide_False]
      simpa [hX] using ih'
    · simp only [List.filter_cons, hX, hid, ne_eq, Option.some.injEq, not_false_eq_true,
        decide_True, if_true, List.map_cons, entryOf_of_entryReads hE hv h1]
      rw [ih']

theorem topLevel_afterRead_set (a : Json) (jm : Option Json) :
    Obj.set nfc a (topLevel (jm.map afterRead)) = Obj.set nfc a (topLevel jm) := by
  cases jm with
  | none => rfl
  | some t =>
    cases t with
    | obj m =>
      simp only [Option.map, afterRead]
      cases hg : Obj.get nfc m with
      | none => rfl
      | some c =>
        cases c with
        | arr xs => simp only [topLevel, Obj.set_set]
        | obj kvs => simp only [topLevel, Obj.set_set]
        | _ => rfl
    | _ => rfl

theorem merge_afterRead {E : Env} (hE : E.Lawful) {t : Json} (ht : t.canonical = true) :
    Gabs.mergeIntoNew E (afterRead t) = .ok (.obj (topLevel (some (afterRead t)))) := by
  cases t with
  | obj m =>
    have hs := ((Json.canonical_obj m).1 ht).1
    simp only [afterRead]
    cases hg : Obj.get nfc m with
    | none => exact Gabs.mergeIntoNew_obj hE hs
    | some c =>
      cases c with
      | arr xs => exact Gabs.mergeIntoNew_obj hE (Obj.keysSorted_set hs)
      | obj kvs => exact Gabs.mergeIntoNew_obj hE (Obj.keysSorted_set hs)
      | _ => exact Gabs.mergeIntoNew_obj hE hs
  | _ => rfl

/-- The tree serialized by a successful upsert: the top level of the decoded
metadata with the rebuilt array under `native_filter_configuration`. -/
theorem upsertMetadata_eq {E : Env} (hE : E.Lawful) {r : Remote} {d : Int} (X : String)
    (F : Option DashboardFilter) {old : List DashboardFilter} {jm : Option Json}
    (hget : getDashboardFilters E r d = .ok (old, jm))
    (hparse : ∀ f ∈ newCollection old X F, (E.unmarshal f.Config).isSome = true) :
    upsertMetadata E r d X F =
      .ok (.obj (Obj.set nfc (.arr ((newCollection old X F).map (entryOf E)))
        (topLevel (metadataOf E r d)))) := by
  obtain ⟨_, hjm, _⟩ := getDashboardFilters_ok hget
  have hmerge : (match jm with
      | some jm => Gabs.mergeIntoNew E jm
      | none => Except.ok Gabs.new) = .ok (.obj (topLevel jm)) := by
    rw [hjm]
    cases hm : metadataOf E r d with
    | none => rfl
    | some t => exact merge_afterRead hE (metadataOf_canonical hE hm)
  simp only [upsertMetadata, hget, hmerge, Gabs.arrayOfSize, Gabs.set]
  have h := writeFilters_ok E (newCollection old X F) (topLevel jm) []
    (List.replicate (newCollection old X F).length Json.null) (by simp) hparse
  simp only [List.nil_append, List.length_nil] at h
  rw [h, hjm, topLevel_afterRead_set]

theorem upsertMetadata_ok_parse {E : Env} {r : Remote} {d : Int} {X : String}
    {F : Option DashboardFilter} {tree : Json} (h : upsertMetadata E r d X F = .ok tree) :
    ∃ old jm, getDashboardFilters E r d = .ok (old, jm) ∧
      ∀ f ∈ newCollection old X F, (E.unmarshal f.Config).isSome = true := by
  simp only [upsertMetadata] at h
  cases hget : getDashboardFilters E r d with
  | error e => simp [hget] at h
  | ok p =>
    obtain ⟨old, jm⟩ := p
    refine ⟨old, jm, rfl, ?_⟩
    simp only [hget] at h
    split at h
    · cases h
    · exact writeFilters_isSome E _ _ _ _ h

theorem upsertDashboardFilter_ok_iff (E : Env) (r r' : Remote) (d : Int) (X : String)
    (F : Option DashboardFilter) :
    upsertDashboardFilter E r d X F = .ok r' ↔
      ∃ tree, upsertMetadata E r d X F = .ok tree ∧ (r d).isSome = true ∧
        r' = fun d' => if d' = d then some (some (E.marshal tree)) else r d' := by
  simp only [upsertDashboardFilter]
  cases hm : upsertMetadata E r d X F with
  | error e => simp
  | ok tree =>
    simp only [Remote.put, Except.ok.injEq, exists_eq_left']
    cases hr : r d with
    | none => simp
    | some md =>
      simp only [Except.ok.injEq, Option.isSome_some, true_and]
      exact eq_comm

/-! ## The JSON codec reads back what it prints -/

namespace Codec

theorem digitVal_digitChar : ∀ d, d < 10 → digitVal (digitChar d) = some d := by decide

theorem natDigits_lt : ∀ (fuel n : Nat), ∀ d ∈ natDigits fuel n, d < 10
  | 0, _, d, h => by simp [natDigits] at h
  | fuel + 1, n, d, h => by
    simp only [natDigits] at h
    split_ifs at h with hn
    · simp only [List.mem_singleton] at h
      omega
    · rcases List.mem_append.1 h with h | h
      · exact natDigits_lt fuel (n / 10) d h
      · simp only [List.mem_singleton] at h
        omega

theorem natDigits_ne_nil : ∀ (fuel n : Nat), n < fuel → natDigits fuel n ≠ []
  | 0, _, h => by omega
  | fuel + 1, n, _ => by
    simp only [natDigits]
    split_ifs <;> simp

theorem valueOf_append (ds : List Nat) (d : Nat) : valueOf (ds ++ [d]) = valueOf ds * 10 + d := by
  simp [valueOf, List.foldl_append]

theorem valueOf_natDigits : ∀ (fuel n : Nat), n < fuel → valueOf (natDigits fuel n) = n
  | 0, _, h => by omega
  | fuel + 1, n, h => by
    simp only [natDigits]
    split_ifs with hn
    · simp [valueOf]
    · rw [valueOf_append, valueOf_natDigits fuel (n / 10) (by omega)]
      omega

theorem readDigits_map (rest : List Char) (hrest : NoDigit rest) :
    ∀ ds : List Nat, (∀ d ∈ ds, d < 10) → readDigits (ds.map digitChar ++ rest) = (ds, rest)
  | [], _ => by
    cases rest with
    | nil => rfl
    | cons c cs => simp [readDigits, hrest c cs rfl]
  | d :: ds, h => by
    have ih := readDigits_map rest hrest ds (fun d' hd' => h d' (List.mem_cons_of_mem _ hd'))
    simp only [List.map_cons, List.cons_append, readDigits,
      digitVal_digitChar d (h d (List.mem_cons_self _ _)), List.append_eq, ih]

theorem readNat_renderNat (n : Nat) (rest : List Char) (hrest : NoDigit rest) :
    readNat (renderNat n ++ rest) = some (n, rest) := by
  simp only [readNat, renderNat, readDigits_map rest hrest _ (natDigits_lt (n + 1) n)]
  cases hds : natDigits (n + 1) n with
  | nil => exact absurd hds (natDigits_ne_nil _ _ (by omega))
  | cons d ds =>
    simp only [Option.some.injEq, Prod.mk.injEq, and_true]
    rw [← hds]
    exact valueOf_natDigits _ _ (by omega)

theorem readString_escape (rest : List Char) :
    ∀ cs : List Char, readStringFrom false (escape cs ++ '"' :: rest) = some (cs, rest)
  | [] => by simp [escape, readStringFrom]
  | c :: cs => by
    by_cases h1 : c = '"'
    · subst h1
      simp [escape, readStringFrom, consChar, readString_escape rest cs]
    · by_cases h2 : c = '\\'
      · subst h2
        simp [escape, readStringFrom, consChar, readString_escape rest cs]
      · simp [escape, readStringFrom, consChar, h1, h2, readString_escape rest cs]

end Codec

namespace Codec

theorem digitChar_ne : ∀ d, d < 10 →
    digitChar d ≠ 'n' ∧ digitChar d ≠ 't' ∧ digitChar d ≠ 'f' ∧ digitChar d ≠ '"' ∧
    digitChar d ≠ '[' ∧ digitChar d ≠ '{' ∧ digitChar d ≠ '-' ∧ digitChar d ≠ ']' := by
  decide

theorem renderNat_head (n : Nat) :
    ∃ d ds, d < 10 ∧ renderNat n = digitChar d :: ds := by
  cases hds : natDigits (n + 1) n with
  | nil => exact absurd hds (natDigits_ne_nil _ _ (by omega))
  | cons d ds =>
    refine ⟨d, ds.map digitChar, ?_, by simp [renderNat, hds]⟩
    exact natDigits_lt (n + 1) n d (by rw [hds]; exact List.mem_cons_self _ _)

/-- No value is printed with a closing bracket in front. -/
theorem render_head (t : Json) : ∃ c cs, render t = c :: cs ∧ c ≠ ']' := by
  cases t with
  | null => exact ⟨_, _, rfl, by decide⟩
  | bool b => cases b <;> exact ⟨_, _, rfl, by decide⟩
  | num n =>
    cases n with
    | ofNat n =>
      obtain ⟨d, ds, hd, h⟩ := renderNat_head n
      exact ⟨_, _, h, (digitChar_ne d hd).2.2.2.2.2.2.2⟩
    | negSucc n => exact ⟨_, _, rfl, by decide⟩
  | str s => exact ⟨_, _, rfl, by decide⟩
  | arr xs => exact ⟨_, _, rfl, by decide⟩
  | obj kvs => exact ⟨_, _, rfl, by decide⟩

theorem noDigit_nil : NoDigit [] := by
  intro c cs h
  cases h

theorem noDigit_cons {c : Char} (cs : List Char) (h : digitVal c = none) : NoDigit (c :: cs) := by
  intro c' cs' e
  cases e
  exact h

theorem readValue_num (n : Int) (fuel : Nat) (rest : List Char) (hrest : NoDigit rest) :
    readValue (fuel + 1) (renderInt n ++ rest) = some (.num n, rest) := by
  cases n with
  | ofNat n =>
    obtain ⟨d, ds, hd, h⟩ := renderNat_head n
    obtain ⟨h1, h2, h3, h4, h5, h6, h7, _⟩ := digitChar_ne d hd
    have hr := readNat_renderNat n rest hrest
    simp only [renderInt]
    rw [h] at hr ⊢
    simp only [List.cons_append] at hr ⊢
    simp only [readValue, h1, h2, h3, h4, h5, h6, h7, if_false, hr]
    rfl
  | negSucc n =>
    have hr := readNat_renderNat (n + 1) rest hrest
    simp only [renderInt, List.cons_append, readValue, hr]
    simp only [Char.reduceEq, if_false, if_true]
    rfl

end Codec

namespace Codec

theorem ofMembers_of_keysSorted {kvs : List (String × Json)} (h : Obj.keysSorted kvs = true) :
    ofMembers kvs = kvs :=
  Obj.foldl_set_perm h (List.Perm.refl kvs)

theorem readMember (k : String) (v : Json) (tail rest : List Char) :
    ∃ body, renderString k ++ ':' :: (render v ++ tail ++ rest) = '"' :: body ∧
      readString body = some (k.data, ':' :: (render v ++ tail ++ rest)) := by
  refine ⟨escape k.data ++ '"' :: ':' :: (render v ++ tail ++ rest), ?_, readString_escape _ _⟩
  simp [renderString]

mutual
theorem readValue_render : ∀ (t : Json) (fuel : Nat) (rest : List Char),
    t.canonical = true → size t ≤ fuel → NoDigit rest →
    readValue fuel (render t ++ rest) = some (t, rest)
  | .null, fuel + 1, rest, _, _, _ => by simp [render, readValue]
  | .bool true, fuel + 1, rest, _, _, _ => by simp [render, readValue]
  | .bool false, fuel + 1, rest, _, _, _ => by simp [render, readValue]
  | .num n, fuel + 1, rest, _, _, hrest => readValue_num n fuel rest hrest
  | .str s, fuel + 1, rest, _, _, _ => by
    have h := readString_escape rest s.data
    simp only [readString] at h
    simp [render, renderString, readValue, readString, h]
  | .arr xs, fuel + 1, rest, hc, hf, _ => by
    have h := readElems_render xs fuel rest (by simpa [Json.canonical] using hc)
      (by simp only [size] at hf; omega)
    simp [render, readValue, h]
  | .obj kvs, fuel + 1, rest, hc, hf, _ => by
    have hc' := (Json.canonical_obj kvs).1 hc
    have h := readMembers_render kvs fuel rest
      ((Json.canonicalMembers_iff kvs).2 hc'.2) (by simp only [size] at hf; omega)
    simp [render, readValue, h, ofMembers_of_keysSorted hc'.1]
  | .null, 0, _, _, hf, _ => by simp [size] at hf
  | .bool _, 0, _, _, hf, _ => by simp [size] at hf
  | .num _, 0, _, _, hf, _ => by simp [size] at hf
  | .str _, 0, _, _, hf, _ => by simp [size] at hf
  | .arr _, 0, _, _, hf, _ => by simp [size] at hf
  | .obj _, 0, _, _, hf, _ => by simp [size] at hf
theorem readElems_render : ∀ (xs : List Json) (fuel : Nat) (rest : List Char),
    Json.canonicalList xs = true → sizeElems xs ≤ fuel →
    readElems fuel (renderElems xs ++ rest) = some (xs, rest)
  | [], fuel + 1, rest, _, _ => by simp [renderElems, readElems]
  | x :: xs, fuel + 1, rest, hc, hf => by
    simp only [Json.canonicalList, Bool.and_eq_true] at hc
    simp only [sizeElems] at hf
    obtain ⟨c, cs, hcs, hne⟩ := render_head x
    have hx := readValue_render x fuel (renderTail xs ++ rest) hc.1 (by omega)
      (by
        cases xs with
        | nil => exact noDigit_cons _ (by decide)
        | cons y ys => exact noDigit_cons _ (by decide))
    have ht := readTail_render xs fuel rest hc.2 (by omega)
    rw [hcs] at hx
    simp only [renderElems, hcs, List.cons_append, List.append_assoc, readElems, hne, if_false]
    simp only [List.cons_append, List.append_assoc] at hx
    simp only [hx, ht]
  | [], 0, _, _, hf => by simp [sizeElems] at hf
  | _ :: _, 0, _, _, hf => by simp [sizeElems] at hf
theorem readTail_render : ∀ (xs : List Json) (fuel : Nat) (rest : List Char),
    Json.canonicalList xs = true → sizeElems xs ≤ fuel →
    readTail fuel (renderTail xs ++ rest) = some (xs, rest)
  | [], fuel + 1, rest, _, _ => by simp [renderTail, readTail]
  | x :: xs, fuel + 1, rest, hc, hf => by
    simp only [Json.canonicalList, Bool.and_eq_true] at hc
    simp only [sizeElems] at hf
    have hx := readValue_render x fuel (renderTail xs ++ rest) hc.1 (by omega)
      (by
        cases xs with
        | nil => exact noDigit_cons _ (by decide)
        | cons y ys => exact noDigit_cons _ (by decide))
    have ht := readTail_render xs fuel rest hc.2 (by omega)
    simp only [renderTail, List.cons_append, List.append_assoc, readTail, Char.reduceEq,
      if_false, if_true, hx, ht]
  | [], 0, _, _, hf => by simp [sizeElems] at hf
  | _ :: _, 0, _, _, hf => by simp [sizeElems] at hf
theorem readMembers_render : ∀ (kvs : List (String × Json)) (fuel : Nat) (rest : List Char),
    Json.canonicalMembers kvs = true → sizeMembers kvs ≤ fuel →
    readMembers fuel (renderMembers kvs ++ rest) = some (kvs, rest)
  | [], fuel + 1, rest, _, _ => by simp [renderMembers, readMembers]
  | (k, v) :: kvs, fuel + 1, rest, hc, hf => by
    simp only [Json.canonicalMembers, Bool.and_eq_true] at hc
    simp only [sizeMembers] at hf
    have hv := readValue_render v fuel (renderMembersTail kvs ++ rest) hc.1 (by omega)
      (by
        cases kvs with
        | nil => exact noDigit_cons _ (by decide)
        | cons y ys => obtain ⟨k', v'⟩ := y; exact noDigit_cons _ (by decide))
    have ht := readMembersTail_render kvs fuel rest hc.2 (by omega)
    obtain ⟨body, hb, hr⟩ := readMember k v (renderMembersTail kvs) rest
    simp only [List.append_assoc] at hb hr
    simp only [renderMembers, List.append_assoc, List.cons_append, hb, readMembers,
      Char.reduceEq, if_false, if_true, hr, hv, ht]
  | [], 0, _, _, hf => by simp [sizeMembers] at hf
  | _ :: _, 0, _, _, hf => by simp [sizeMembers] at hf
theorem readMembersTail_render : ∀ (kvs : List (String × Json)) (fuel : Nat) (rest : List Char),
    Json.canonicalMembers kvs = true → sizeMembers kvs ≤ fuel →
    readMembersTail fuel (renderMembersTail kvs ++ rest) = some (kvs, rest)
  | [], fuel + 1, rest, _, _ => by simp [renderMembersTail, readMembersTail]
  | (k, v) :: kvs, fuel + 1, rest, hc, hf => by
    simp only [Json.canonicalMembers, Bool.and_eq_true] at hc
    simp only [sizeMembers] at hf
    have hv := readValue_render v fuel (renderMembersTail kvs ++ rest) hc.1 (by omega)
      (by
        cases kvs with
        | nil => exact noDigit_cons _ (by decide)
        | cons y ys => obtain ⟨k', v'⟩ := y; exact noDigit_cons _ (by decide))
    have ht := readMembersTail_render kvs fuel rest hc.2 (by omega)
    obtain ⟨body, hb, hr⟩ := readMember k v (renderMembersTail kvs) rest
    simp only [List.append_assoc] at hb hr
    simp only [renderMembersTail, List.append_assoc, List.cons_append, hb, readMembersTail,
      Char.reduceEq, if_false, if_true, hr, hv, ht]
  | [], 0, _, _, hf => by simp [sizeMembers] at hf
  | _ :: _, 0, _, _, hf => by simp [sizeMembers] at hf
end

end Codec

namespace Codec

theorem renderInt_length (n : Int) : 1 ≤ (renderInt n).length := by
  cases n with
  | ofNat n =>
    obtain ⟨d, ds, _, h⟩ := renderNat_head n
    simp [renderInt, h]
  | negSucc n => simp [renderInt]

mutual
theorem size_le_render : ∀ t : Json, size t + 1 ≤ 2 * (render t).length
  | .null => by simp [size, render]
  | .bool true => by simp [size, render]
  | .bool false => by simp [size, render]
  | .num n => by
    have := renderInt_length n
    simp only [size, render]
    omega
  | .str s => by
    simp only [size, render, renderString, List.length_cons, List.length_append]
    omega
  | .arr xs => by
    have := sizeElems_le_render xs
    simp only [size, render, List.length_cons]
    omega
  | .obj kvs => by
    have := sizeMembers_le_render kvs
    simp only [size, render, List.length_cons]
    omega
theorem sizeElems_le_render : ∀ xs : List Json, sizeElems xs ≤ 2 * (renderElems xs).length
  | [] => by simp [sizeElems, renderElems]
  | x :: xs => by
    have h1 := size_le_render x
    have h2 := sizeElems_le_renderTail xs
    simp only [sizeElems, renderElems, List.length_append]
    omega
theorem sizeElems_le_renderTail : ∀ xs : List Json, sizeElems xs + 1 ≤ 2 * (renderTail xs).length
  | [] => by simp [sizeElems, renderTail]
  | x :: xs => by
    have h1 := size_le_render x
    have h2 := sizeElems_le_renderTail xs
    simp only [sizeElems, renderTail, List.length_append, List.length_cons]
    omega
theorem sizeMembers_le_render :
    ∀ kvs : List (String × Json), sizeMembers kvs ≤ 2 * (renderMembers kvs).length
  | [] => by simp [sizeMembers, renderMembers]
  | (k, v) :: kvs => by
    have h1 := size_le_render v
    have h2 := sizeMembers_le_renderTail kvs
    simp only [sizeMembers, renderMembers, List.length_append, List.length_cons]
    omega
theorem sizeMembers_le_renderTail :
    ∀ kvs : List (String × Json), sizeMembers kvs + 1 ≤ 2 * (renderMembersTail kvs).length
  | [] => by simp [sizeMembers, renderMembersTail]
  | (k, v) :: kvs => by
    have h1 := size_le_render v
    have h2 := sizeMembers_le_renderTail kvs
    simp only [sizeMembers, renderMembersTail, List.length_append, List.length_cons]
    omega
end

/-- Reading a printed canonical value gives the value back. -/
theorem parse_print (t : Json) (ht : t.canonical = true) : parse (print t) = some t := by
  have h := readValue_render t (2 * (render t).length + 1) [] ht
    (by have := size_le_render t; omega) noDigit_nil
  simp only [List.append_nil] at h
  simp only [parse, print, String.length, h]

theorem mem_foldl_set (l : List (String × Json)) :
    ∀ (acc : List (String × Json)) (kv : String × Json),
      kv ∈ l.foldl (fun a kv => Obj.set kv.1 kv.2 a) acc → kv ∈ acc ∨ kv ∈ l := by
  induction l with
  | nil => intro acc kv h; exact Or.inl h
  | cons x l ih =>
    intro acc kv h
    rcases ih _ kv h with h | h
    · rcases Obj.mem_set h with e | h
      · exact Or.inr (e ▸ List.mem_cons_self _ _)
      · exact Or.inl h
    · exact Or.inr (List.mem_cons_of_mem _ h)

theorem canonical_ofMembers {kvs : List (String × Json)}
    (h : Json.canonicalMembers kvs = true) : (Json.obj (ofMembers kvs)).canonical = true := by
  rw [Json.canonical_obj]
  refine ⟨Obj.keysSorted_foldl_set kvs [] rfl, ?_⟩
  intro kv hkv
  rcases mem_foldl_set kvs [] kv hkv with h' | h'
  · simp at h'
  · exact (Json.canonicalMembers_iff kvs).1 h kv h'

end Codec

namespace Codec

mutual
theorem readValue_canonical : ∀ (fuel : Nat) (cs : List Char) (t : Json) (rest : List Char),
    readValue fuel cs = some (t, rest) → t.canonical = true
  | 0, _, _, _, h => by simp [readValue] at h
  | fuel + 1, cs, t, rest, h => by
    simp only [readValue] at h
    split at h
    · cases h
    · split_ifs at h
      · split at h
        · cases h; rfl
        · cases h
      · split at h
        · cases h; rfl
        · cases h
      · split at h
        · cases h; rfl
        · cases h
      · split at h
        · cases h; rfl
        · cases h
      · split at h
        · rename_i xs rest' hx
          cases h
          exact readElems_canonical fuel _ _ _ hx
        · cases h
      · split at h
        · rename_i kvs rest' hx
          cases h
          exact canonical_ofMembers (readMembers_canonical fuel _ _ _ hx)
        · cases h
      · split at h
        · cases h; rfl
        · cases h
      · split at h
        · cases h; rfl
        · cases h
theorem readElems_canonical : ∀ (fuel : Nat) (cs : List Char) (xs : List Json) (rest : List Char),
    readElems fuel cs = some (xs, rest) → Json.canonicalList xs = true
  | 0, _, _, _, h => by simp [readElems] at h
  | fuel + 1, cs, xs, rest, h => by
    simp only [readElems] at h
    split at h
    · cases h
    · split_ifs at h
      · cases h; rfl
      · split at h
        · rename_i x rest' hx
          split at h
          · rename_i ys rest'' hy
            cases h
            simp only [Json.canonicalList, Bool.and_eq_true]
            exact ⟨readValue_canonical fuel _ _ _ hx, readTail_canonical fuel _ _ _ hy⟩
          · cases h
        · cases h
theorem readTail_canonical : ∀ (fuel : Nat) (cs : List Char) (xs : List Json) (rest : List Char),
    readTail fuel cs = some (xs, rest) → Json.canonicalList xs = true
  | 0, _, _, _, h => by simp [readTail] at h
  | fuel + 1, cs, xs, rest, h => by
    simp only [readTail] at h
    split at h
    · cases h
    · split_ifs at h
      · cases h; rfl
      · split at h
        · rename_i x rest' hx
          split at h
          · rename_i ys rest'' hy
            cases h
            simp only [Json.canonicalList, Bool.and_eq_true]
            exact ⟨readValue_canonical fuel _ _ _ hx, readTail_canonical fuel _ _ _ hy⟩
          · cases h
        · cases h
theorem readMembers_canonical : ∀ (fuel : Nat) (cs : List Char) (kvs : List (String × Json))
    (rest : List Char), readMembers fuel cs = some (kvs, rest) → Json.canonicalMembers kvs = true
  | 0, _, _, _, h => by simp [readMembers] at h
  | fuel + 1, cs, kvs, rest, h => by
    simp only [readMembers] at h
    split at h
    · cases h
    · split_ifs at h
      · cases h; rfl
      · split at h
        · split at h
          · rename_i v rest' hv
            split at h
            · rename_i ys rest'' hy
              cases h
              simp only [Json.canonicalMembers, Bool.and_eq_true]
              exact ⟨readValue_canonical fuel _ _ _ hv, readMembersTail_canonical fuel _ _ _ hy⟩
            · cases h
          · cases h
        · cases h
theorem readMembersTail_canonical : ∀ (fuel : Nat) (cs : List Char) (kvs : List (String × Json))
    (rest : List Char), readMembersTail fuel cs = some (kvs, rest) →
      Json.canonicalMembers kvs = true
  | 0, _, _, _, h => by simp [readMembersTail] at h
  | fuel + 1, cs, kvs, rest, h => by
    simp only [readMembersTail] at h
    split at h
    · cases h
    · split_ifs at h
      · cases h; rfl
      · split at h
        · split at h
          · split at h
            · rename_i v rest' hv
              split at h
              · rename_i ys rest'' hy
                cases h
                simp only [Json.canonicalMembers, Bool.and_eq_true]
                exact ⟨readValue_canonical fuel _ _ _ hv,
                  readMembersTail_canonical fuel _ _ _ hy⟩
              · cases h
            · cases h
          · cases h
        · cases h
end

theorem parse_canonical (s : String) (t : Json) (h : parse s = some t) : t.canonical = true := by
  simp only [parse] at h
  split at h
  · rename_i t' ht'
    cases h
    exact readValue_canonical _ _ _ _ ht'
  · cases h

end Codec

/-- The JSON codec meets the requirements on the runtime. -/
theorem jsonEnv_lawful : jsonEnv.Lawful where
  unmarshal_canonical := Codec.parse_canonical
  unmarshal_marshal := Codec.parse_print
  mapRange_perm := fun kvs => List.Perm.refl kvs

/-! ## After the write -/

theorem metadataOf_eq_some_iff (E : Env) (r : Remote) (d : Int) (t : Json) :
    metadataOf E r d = some t ↔ ∃ text, r d = some (some text) ∧ E.unmarshal text = some t := by
  simp only [metadataOf, getDashboardJsonMetadata]
  cases hr : r d with
  | none => simp
  | some md =>
    cases md with
    | none => simp
    | some text =>
      cases hu : E.unmarshal text with
      | none => simp [hu]
      | some t' => simp [hu]

theorem stampId_canonical {c : Json} (id : String) (h : c.canonical = true) :
    (stampId c id).canonical = true := by
  cases c with
  | null => rfl
  | obj m => exact Json.canonical_set h rfl
  | _ => exact h

theorem entryOf_canonical {E : Env} (hE : E.Lawful) {f : DashboardFilter}
    (h : (E.unmarshal f.Config).isSome = true) : (entryOf E f).canonical = true := by
  obtain ⟨c, hc⟩ := Option.isSome_iff_exists.1 h
  simp only [entryOf, hc]
  exact stampId_canonical _ (hE.unmarshal_canonical _ _ hc)

theorem topLevel_canonical {E : Env} (hE : E.Lawful) (r : Remote) (d : Int) :
    (Json.obj (topLevel (metadataOf E r d))).canonical = true := by
  cases hm : metadataOf E r d with
  | none => rfl
  | some t =>
    have ht := metadataOf_canonical hE hm
    cases t with
    | obj m => exact ht
    | _ => rfl

theorem metadataOf_put {E : Env} (hE : E.Lawful) (r : Remote) (d : Int) {tree : Json}
    (ht : tree.canonical = true) :
    metadataOf E (fun d' => if d' = d then some (some (E.marshal tree)) else r d') d =
      some tree := by
  rw [metadataOf_eq_some_iff]
  exact ⟨E.marshal tree, by simp, hE.unmarshal_marshal tree ht⟩

/-- The state after a successful upsert: the metadata of the dashboard is the
serialization of the rebuilt tree, and decodes to it. -/
theorem upsert_post {E : Env} (hE : E.Lawful) {r r' : Remote} {d : Int} {X : String}
    {F : Option DashboardFilter} {old : List DashboardFilter} {jm : Option Json}
    (hget : getDashboardFilters E r d = .ok (old, jm))
    (hup : upsertDashboardFilter E r d X F = .ok r') :
    ∃ tree, tree = Json.obj (Obj.set nfc (.arr ((newCollection old X F).map (entryOf E)))
        (topLevel (metadataOf E r d))) ∧
      r' = (fun d' => if d' = d then some (some (E.marshal tree)) else r d') ∧
      tree.canonical = true ∧ metadataOf E r' d = some tree ∧
      ∀ f ∈ newCollection old X F, (E.unmarshal f.Config).isSome = true := by
  obtain ⟨tree, htree, _, hr'⟩ := (upsertDashboardFilter_ok_iff E r r' d X F).1 hup
  obtain ⟨old', jm', hget', hparse⟩ := upsertMetadata_ok_parse htree
  rw [hget] at hget'
  cases hget'
  rw [upsertMetadata_eq hE X F hget hparse] at htree
  cases htree
  have hcan : (Json.obj (Obj.set nfc (.arr ((newCollection old X F).map (entryOf E)))
      (topLevel (metadataOf E r d)))).canonical = true := by
    apply Json.canonical_set (topLevel_canonical hE r d)
    rw [Json.canonical_arr]
    intro v hv
    obtain ⟨f, hf, rfl⟩ := List.mem_map.1 hv
    exact entryOf_canonical hE (hparse f hf)
  refine ⟨_, rfl, hr', hcan, ?_, hparse⟩
  rw [hr']
  exact metadataOf_put hE r d hcan

theorem writtenArray_of_metadata {E : Env} {r : Remote} {d : Int} {ws : List Json}
    {base : List (String × Json)}
    (h : metadataOf E r d = some (.obj (Obj.set nfc (.arr ws) base))) :
    writtenArray E r d = some ws ∧ wireEntries E r d = ws := by
  simp [writtenArray, wireEntries, h, Gabs.path, Obj.get_set_self, Gabs.children]

theorem wireEntries_of_writtenArray {E : Env} {r : Remote} {d : Int} {xs : List Json}
    (h : writtenArray E r d = some xs) : wireEntries E r d = xs := by
  simp only [writtenArray, wireEntries] at h ⊢
  cases hm : metadataOf E r d with
  | none => simp [hm] at h
  | some t =>
    simp only [hm] at h ⊢
    cases hp : Gabs.path t nfc with
    | none => simp [hp] at h
    | some c =>
      cases c with
      | arr ys =>
        simp only [hp, Option.some.injEq] at h
        subst h
        rfl
      | _ => simp [hp] at h

/-- Reading a dashboard whose decoded metadata is known. -/
theorem getDashboardFilters_of_metadata {E : Env} {r : Remote} {d : Int} {t : Json}
    {fs : List DashboardFilter} (hm : metadataOf E r d = some t)
    (h : List.Forall₂ (EntryReads E d) (Gabs.children E (Gabs.path t nfc)) fs) :
    getDashboardFilters E r d = .ok (fs, some (afterRead t)) := by
  obtain ⟨text, hr, hu⟩ := (metadataOf_eq_some_iff E r d t).1 hm
  exact (getDashboardFilters_ok_iff E r d fs _).2 (Or.inr ⟨text, t, hr, hu, h, rfl⟩)

theorem mem_remove {l : List DashboardFilter} {item f : DashboardFilter}
    (h : f ∈ remove l item) : f ∈ l := by
  induction l with
  | nil => simp [remove] at h
  | cons g l ih =>
    simp only [remove] at h
    split_ifs at h
    · exact List.mem_cons_of_mem _ h
    · rcases List.mem_cons.1 h with e | h
      · exact e ▸ List.mem_cons_self _ _
      · exact List.mem_cons_of_mem _ (ih h)

theorem mem_newCollection {old : List DashboardFilter} {X : String}
    {F : Option DashboardFilter} {f : DashboardFilter} (h : f ∈ newCollection old X F) :
    f ∈ old ∨ ∃ f0, F = some f0 ∧ f = { f0 with Id := X } := by
  have hrem : ∀ g, g ∈ (match findDashboardFilterById old X with
      | some existingFilter => remove old existingFilter
      | none => old) → g ∈ old := by
    intro g hg
    cases hfind : findDashboardFilterById old X with
    | none => simpa [hfind] using hg
    | some e =>
      rw [hfind] at hg
      exact mem_remove hg
  simp only [newCollection] at h
  cases F with
  | none => exact Or.inl (hrem f h)
  | some f0 =>
    rcases List.mem_append.1 h with h | h
    · exact Or.inl (hrem f h)
    · exact Or.inr ⟨f0, rfl, by simpa using h⟩

theorem exists_entry_of_mem {E : Env} {d : Int} :
    ∀ {vs : List Json} {fs : List DashboardFilter}, List.Forall₂ (EntryReads E d) vs fs →
      ∀ f ∈ fs, ∃ v ∈ vs, EntryReads E d v f := by
  intro vs fs h
  induction h with
  | nil => intro f hf; simp at hf
  | @cons v g vs fs h1 _ ih =>
    intro f hf
    rcases List.mem_cons.1 hf with e | hf
    · subst e
      exact ⟨v, List.mem_cons_self _ _, h1⟩
    · obtain ⟨v', hv', h'⟩ := ih f hf
      exact ⟨v', List.mem_cons_of_mem _ hv', h'⟩

theorem entryReads_filter {E : Env} {d : Int} (X : String) :
    ∀ {vs : List Json} {fs : List DashboardFilter}, List.Forall₂ (EntryReads E d) vs fs →
      List.Forall₂ (EntryReads E d) (vs.filter (fun v => decide (entryId v ≠ some X)))
        (fs.filter (fun f => decide (f.Id ≠ X))) := by
  intro vs fs h
  induction h with
  | nil => exact List.Forall₂.nil
  | @cons v f vs fs h1 _ ih =>
    have hid := entryId_of_entryReads h1
    by_cases hX : f.Id = X
    · simpa [List.filter_cons, hX, hid] using ih
    · simp only [List.filter_cons, hX, hid, ne_eq, Option.some.injEq, not_false_eq_true,
        decide_True, if_true]
      exact List.Forall₂.cons h1 ih

theorem exists_filter_of_mem {E : Env} {d : Int} :
    ∀ {vs : List Json} {fs : List DashboardFilter}, List.Forall₂ (EntryReads E d) vs fs →
      ∀ v ∈ vs, ∃ f ∈ fs, EntryReads E d v f := by
  intro vs fs h
  induction h with
  | nil => intro v hv; simp at hv
  | @cons v' g vs fs h1 _ ih =>
    intro v hv
    rcases List.mem_cons.1 hv with e | hv
    · subst e
      exact ⟨g, List.mem_cons_self _ _, h1⟩
    · obtain ⟨f, hf, h'⟩ := ih v hv
      exact ⟨f, List.mem_cons_of_mem _ hf, h'⟩

/-! ## The claims -/

/-- C1: when the ids of the extracted collection `old` are pairwise distinct and the
new filter is absent or has a `Config` that decodes to a JSON object, the array
written under `native_filter_configuration` by a successful `upsertDashboardFilter`
is: the wire entries of the elements of `old` whose id differs from `X`, unchanged and
in their order, followed, exactly when there is a new filter, by the object of its
`Config` with `id` set to `X`; when `X` is not in `old` and there is no new filter the
written array is the original one. -/
theorem C1_upsert_written_array (E : Env) (hE : E.Lawful) (r r' : Remote) (d : Int)
    (X : String) (F : Option DashboardFilter) (old : List DashboardFilter) (jm : Option Json)
    (hget : getDashboardFilters E r d = .ok (old, jm))
    (hnd : (old.map (fun f => f.Id)).Nodup)
    (hF : ∀ f, F = some f → ∃ o, E.unmarshal f.Config = some (.obj o))
    (hup : upsertDashboardFilter E r d X F = .ok r') :
    List.Forall₂ (EntryReads E d) (wireEntries E r d) old ∧
    (F = none → writtenArray E r' d =
      some ((wireEntries E r d).filter (fun v => decide (entryId v ≠ some X)))) ∧
    (∀ f o, F = some f → E.unmarshal f.Config = some (.obj o) → writtenArray E r' d =
      some ((wireEntries E r d).filter (fun v => decide (entryId v ≠ some X)) ++
        [.obj (Obj.set "id" (.str X) o)])) ∧
    (X ∉ old.map (fun f => f.Id) → F = none →
      writtenArray E r' d = some (wireEntries E r d) ∧
      ∀ xs, writtenArray E r d = some xs → writtenArray E r' d = some xs) := by
  obtain ⟨hwire, _, _⟩ := getDashboardFilters_ok hget
  obtain ⟨tree, htree, _, _, hmeta, _⟩ := upsert_post hE hget hup
  rw [htree, newCollection_eq_filter X F hnd, List.map_append,
    map_entryOf_filter hE X hwire (wireEntries_canonical hE r d)] at hmeta
  have hnone : F = none → writtenArray E r' d =
      some ((wireEntries E r d).filter (fun v => decide (entryId v ≠ some X))) := by
    intro hFn
    subst hFn
    simp only [List.map_nil, List.append_nil] at hmeta
    exact (writtenArray_of_metadata hmeta).1
  refine ⟨hwire, hnone, ?_, ?_⟩
  · intro f o hFs ho
    subst hFs
    have he : entryOf E { f with Id := X } = .obj (Obj.set "id" (.str X) o) := by
      simp [entryOf, ho, stampId, Gabs.set]
    simp only [List.map_cons, List.map_nil, he] at hmeta
    exact (writtenArray_of_metadata hmeta).1
  · intro hX hFn
    have hall : (wireEntries E r d).filter (fun v => decide (entryId v ≠ some X)) =
        wireEntries E r d := by
      apply List.filter_eq_self.2
      intro v hv
      obtain ⟨f, hf, hvf⟩ := exists_filter_of_mem hwire v hv
      rw [entryId_of_entryReads hvf]
      have : f.Id ≠ X := fun e => hX (List.mem_map.2 ⟨f, hf, e⟩)
      simpa using this
    have h1 := hnone hFn
    rw [hall] at h1
    refine ⟨h1, ?_⟩
    intro xs hxs
    rw [h1, wireEntries_of_writtenArray hxs]

set_option maxRecDepth 20000 in
/-- C1 at the sample dashboard: replacing filter 100002 keeps the entry of filter
100001 and appends the new entry with its id. -/
theorem C1_upsert_written_array_witness :
    writtenArray jsonEnv sampleReplaced 7 =
      some [.obj [("id", .str "100001"), ("name", .str "Region")],
        .obj [("filterType", .str "filter_select"), ("id", .str "100002"),
          ("name", .str "Country")]] :=
  (C1_upsert_written_array jsonEnv jsonEnv_lawful sampleRemote sampleReplaced 7 "100002"
    (some sampleFilter) sampleOld (some sampleTree) rfl (by decide)
    (fun f hf => ⟨[("filterType", .str "filter_select"), ("name", .str "Country")],
      by cases hf; rfl⟩) rfl).2.2.1 sampleFilter
      [("filterType", .str "filter_select"), ("name", .str "Country")] rfl rfl

theorem findDashboardFilterById_filter_ne {fs : List DashboardFilter} {X Y : String}
    (h : Y ≠ X) :
    findDashboardFilterById (fs.filter (fun f => decide (f.Id ≠ X))) Y =
      findDashboardFilterById fs Y := by
  induction fs with
  | nil => rfl
  | cons g fs ih =>
    by_cases hg : g.Id = X
    · subst hg
      have hgY : g.Id ≠ Y := fun e => h e.symm
      simp only [List.filter_cons, ne_eq, not_true_eq_false, decide_False,
        findDashboardFilterById, hgY, if_false]
      simpa using ih
    · simp only [List.filter_cons, hg, ne_eq, not_false_eq_true, decide_True, if_true,
        findDashboardFilterById, ih]

theorem getDashboardFilterById_of_filters {E : Env} {r : Remote} {d : Int}
    {fs : List DashboardFilter} {jm : Option Json}
    (h : getDashboardFilters E r d = .ok (fs, jm)) (Y : String) :
    getDashboardFilterById E r d Y = .ok (findDashboardFilterById fs Y) := by
  simp only [getDashboardFilterById, h]

theorem remove_ne_of_atMostOne {X : String} {e : DashboardFilter} (he : e.Id = X) :
    ∀ {old : List DashboardFilter},
      (old.filter (fun g => decide (g.Id = X))).length ≤ 1 →
      ∀ g ∈ remove old e, g.Id ≠ X := by
  intro old
  induction old with
  | nil => intro _ g hg; simp [remove] at hg
  | cons h l ih =>
    intro hlen g hg
    by_cases hh : h.Id = X
    · simp only [remove, hh, he, if_true] at hg
      simp only [List.filter_cons, hh, decide_True, if_true, List.length_cons] at hlen
      have hnil : l.filter (fun g => decide (g.Id = X)) = [] :=
        List.length_eq_zero.1 (by omega)
      have := (List.filter_eq_nil_iff.1 hnil) g hg
      simpa using this
    · have hhe : h.Id ≠ e.Id := by rw [he]; exact hh
      simp only [remove, hhe, if_false] at hg
      simp only [List.filter_cons, hh, decide_False] at hlen
      rcases List.mem_cons.1 hg with e' | hg
      · subst e'
        exact hh
      · exact ih hlen g hg

theorem newCollection_none_ne {old : List DashboardFilter} {X : String}
    (h : (old.filter (fun g => decide (g.Id = X))).length ≤ 1) :
    ∀ g ∈ newCollection old X none, g.Id ≠ X := by
  intro g hg
  simp only [newCollection] at hg
  cases hfind : findDashboardFilterById old X with
  | none =>
    rw [hfind] at hg
    exact findDashboardFilterById_none.1 hfind g hg
  | some e =>
    rw [hfind] at hg
    exact remove_ne_of_atMostOne (findDashboardFilterById_some hfind).1 h g hg

theorem remove_eq_filter_of_atMostOne {X : String} {e : DashboardFilter} (he : e.Id = X) :
    ∀ {old : List DashboardFilter},
      (old.filter (fun g => decide (g.Id = X))).length ≤ 1 →
      remove old e = old.filter (fun f => decide (f.Id ≠ X)) := by
  intro old
  induction old with
  | nil => intro _; rfl
  | cons h l ih =>
    intro hlen
    by_cases hh : h.Id = X
    · simp only [List.filter_cons, hh, decide_True, if_true, List.length_cons] at hlen
      have hnil : l.filter (fun g => decide (g.Id = X)) = [] :=
        List.length_eq_zero.1 (by omega)
      have hall : ∀ g ∈ l, g.Id ≠ X := by
        intro g hg
        have := (List.filter_eq_nil_iff.1 hnil) g hg
        simpa using this
      simp only [remove, hh, he, if_true, List.filter_cons, ne_eq, not_true_eq_false,
        decide_False]
      exact (filter_ne_eq_self hall).symm
    · have hhe : h.Id ≠ e.Id := by rw [he]; exact hh
      simp only [List.filter_cons, hh, decide_False] at hlen
      simp only [remove, hhe, if_false, List.filter_cons, hh, ne_eq, not_false_eq_true,
        decide_True, if_true]
      exact congrArg (List.cons h) (ih hlen)

/-- With at most one element of the id in the collection, removing the id leaves the
other elements in their order. -/
theorem newCollection_none_eq_filter {old : List DashboardFilter} {X : String}
    (h : (old.filter (fun g => decide (g.Id = X))).length ≤ 1) :
    newCollection old X none = old.filter (fun f => decide (f.Id ≠ X)) := by
  simp only [newCollection]
  cases hfind : findDashboardFilterById old X with
  | none => exact (filter_ne_eq_self (findDashboardFilterById_none.1 hfind)).symm
  | some e => exact remove_eq_filter_of_atMostOne (findDashboardFilterById_some hfind).1 h

/-- C2, the counterexample: the two filters of dashboard 7 share the id 100001;
removing that id drops only the first of them, so the written array still has an
entry with the id and reading the id afterwards finds a filter. -/
theorem C2_counterexample :
    ∃ old jm r', getDashboardFilters jsonEnv dupRemote 7 = .ok (old, jm) ∧
      "100001" ∈ old.map (fun f => f.Id) ∧
      upsertDashboardFilter jsonEnv dupRemote 7 "100001" none = .ok r' ∧
      writtenArray jsonEnv r' 7 = some [.obj [("id", .str "100001"), ("name", .str "Year")]] ∧
      getDashboardFilterById jsonEnv r' 7 "100001" =
        .ok (some { Id := "100001", DashboardId := 7, Name := "Year",
                    Config := "\x7b\"name\":\"Year\"\x7d" }) :=
  ⟨_, _, _, rfl, by decide, rfl, rfl, rfl⟩

/-- C2, amended: when the extracted collection has at most one element of id `X`,
after a successful `upsertDashboardFilter(d, X, nil)` no entry of the written array has
the id `X`, `getDashboardFilterById(d, X)` returns nil without error, and the
collection read back is the old one without the element of id `X`, in the same order,
so every other id reads as before. -/
theorem C2_remove_then_read (E : Env) (hE : E.Lawful) (r r' : Remote) (d : Int) (X : String)
    (old : List DashboardFilter) (jm : Option Json)
    (hget : getDashboardFilters E r d = .ok (old, jm))
    (hone : (old.filter (fun g => decide (g.Id = X))).length ≤ 1)
    (hup : upsertDashboardFilter E r d X none = .ok r') :
    (∃ ws, writtenArray E r' d = some ws ∧ ∀ v ∈ ws, entryId v ≠ some X) ∧
    getDashboardFilterById E r' d X = .ok none ∧
    (∃ jm', getDashboardFilters E r' d =
      .ok (old.filter (fun f => decide (f.Id ≠ X)), jm')) ∧
    ∀ Y, Y ≠ X → getDashboardFilterById E r' d Y = getDashboardFilterById E r d Y := by
  obtain ⟨hwire, _, _⟩ := getDashboardFilters_ok hget
  obtain ⟨tree, htree, _, _, hmeta, _⟩ := upsert_post hE hget hup
  rw [htree, newCollection_none_eq_filter hone,
    map_entryOf_filter hE X hwire (wireEntries_canonical hE r d)] at hmeta
  have hkept : List.Forall₂ (EntryReads E d)
      (Gabs.children E (Gabs.path (Json.obj (Obj.set nfc
        (.arr ((wireEntries E r d).filter (fun v => decide (entryId v ≠ some X))))
        (topLevel (metadataOf E r d)))) nfc))
      (old.filter (fun f => decide (f.Id ≠ X))) := by
    simp only [Gabs.path, Obj.get_set_self, Gabs.children]
    exact entryReads_filter X hwire
  have hread := getDashboardFilters_of_metadata hmeta hkept
  refine ⟨⟨_, (writtenArray_of_metadata hmeta).1, ?_⟩, ?_, ⟨_, hread⟩, ?_⟩
  · intro v hv
    have := (List.mem_filter.1 hv).2
    simpa using this
  · rw [getDashboardFilterById_of_filters hread, findDashboardFilterById_none.2]
    intro f hf
    have := (List.mem_filter.1 hf).2
    simpa using this
  · intro Y hY
    rw [getDashboardFilterById_of_filters hread, getDashboardFilterById_of_filters hget,
      findDashboardFilterById_filter_ne hY]

set_option maxRecDepth 20000 in
/-- C2 at the sample dashboard: after filter 100002 is removed it reads as absent and
filter 100001 is still there. -/
theorem C2_remove_then_read_witness :
    getDashboardFilterById jsonEnv sampleRemoved 7 "100002" = .ok none ∧
    ∃ jm', getDashboardFilters jsonEnv sampleRemoved 7 =
      .ok ([{ Id := "100001", DashboardId := 7, Name := "Region",
              Config := "\x7b\"name\":\"Region\"\x7d" }], jm') :=
  have h := C2_remove_then_read jsonEnv jsonEnv_lawful sampleRemote sampleRemoved 7 "100002"
    sampleOld (some sampleTree) rfl (by decide) rfl
  ⟨h.2.1, h.2.2.1⟩

/-- C3: when the metadata text of the dashboard decodes to a JSON object `T`, the
metadata written by a successful `upsertDashboardFilter` decodes to an object that has
every key of `T` other than `native_filter_configuration` with the same value, and no
key besides those of `T` and `native_filter_configuration`. -/
theorem C3_siblings_preserved (E : Env) (hE : E.Lawful) (r r' : Remote) (d : Int) (X : String)
    (F : Option DashboardFilter) (text : String) (T : List (String × Json))
    (hr : r d = some (some text)) (hT : E.unmarshal text = some (.obj T))
    (hup : upsertDashboardFilter E r d X F = .ok r') :
    ∃ M, r' d = some (some (E.marshal (.obj M))) ∧ metadataOf E r' d = some (.obj M) ∧
      (∀ k, k ≠ nfc → Obj.get k M = Obj.get k T) ∧
      (∀ k, (Obj.get k M).isSome = true → k = nfc ∨ (Obj.get k T).isSome = true) := by
  obtain ⟨tree0, htree0, _, _⟩ := (upsertDashboardFilter_ok_iff E r r' d X F).1 hup
  obtain ⟨old, jm, hget, _⟩ := upsertMetadata_ok_parse htree0
  obtain ⟨tree, htree, hr', _, hmeta, _⟩ := upsert_post hE hget hup
  have hm : metadataOf E r d = some (.obj T) :=
    (metadataOf_eq_some_iff E r d _).2 ⟨text, hr, hT⟩
  rw [hm] at htree
  simp only [topLevel] at htree
  subst htree
  refine ⟨_, ?_, hmeta, ?_, ?_⟩
  · rw [hr']
    simp
  · intro k hk
    exact Obj.get_set_ne _ _ hk
  · intro k hk
    by_cases hkn : k = nfc
    · exact Or.inl hkn
    · rw [Obj.get_set_ne _ _ hkn] at hk
      exact Or.inr hk

set_option maxRecDepth 20000 in
/-- C3 at the sample dashboard: replacing a filter keeps the colour scheme. -/
theorem C3_siblings_preserved_witness :
    ∃ M, sampleReplaced 7 = some (some (jsonEnv.marshal (.obj M))) ∧
      metadataOf jsonEnv sampleReplaced 7 = some (.obj M) ∧
      (∀ k, k ≠ nfc → Obj.get k M =
        Obj.get k [("color_scheme", .str "blue"),
          ("native_filter_configuration",
            .arr [.obj [("id", .str "100001"), ("name", .str "Region")],
              .obj [("id", .str "100002"), ("name", .str "Year"),
                ("scope", .arr [.num 1, .num 2])]])]) ∧
      (∀ k, (Obj.get k M).isSome = true → k = nfc ∨
        (Obj.get k [("color_scheme", .str "blue"),
          ("native_filter_configuration",
            .arr [.obj [("id", .str "100001"), ("name", .str "Region")],
              .obj [("id", .str "100002"), ("name", .str "Year"),
                ("scope", .arr [.num 1, .num 2])]])]).isSome = true) :=
  C3_siblings_preserved jsonEnv jsonEnv_lawful sampleRemote sampleReplaced 7 "100002"
    (some sampleFilter) _ _ rfl rfl rfl

/-- C4: when the dashboard has no metadata and the `Config` of the new filter decodes
to a JSON object, `upsertDashboardFilter` succeeds and writes a metadata object whose
only key is `native_filter_configuration`, holding the one-entry array with the object
of the `Config` with `id` set to `X`. -/
theorem C4_bootstrap (E : Env) (hE : E.Lawful) (r : Remote) (d : Int) (X : String)
    (f : DashboardFilter) (o : List (String × Json))
    (hr : r d = some none) (ho : E.unmarshal f.Config = some (.obj o)) :
    ∃ r', upsertDashboardFilter E r d X (some f) = .ok r' ∧
      r' d = some (some (E.marshal (.obj [(nfc, .arr [.obj (Obj.set "id" (.str X) o)])]))) ∧
      metadataOf E r' d = some (.obj [(nfc, .arr [.obj (Obj.set "id" (.str X) o)])]) ∧
      writtenArray E r' d = some [.obj (Obj.set "id" (.str X) o)] := by
  have hget : getDashboardFilters E r d = .ok ([], none) :=
    (getDashboardFilters_ok_iff E r d [] none).2 (Or.inl ⟨hr, rfl, rfl⟩)
  have hnew : newCollection [] X (some f) = [{ f with Id := X }] := rfl
  have hparse : ∀ g ∈ newCollection [] X (some f), (E.unmarshal g.Config).isSome = true := by
    intro g hg
    rw [hnew] at hg
    simp only [List.mem_singleton] at hg
    subst hg
    simp [ho]
  have htree := upsertMetadata_eq hE X (some f) hget hparse
  have hm : metadataOf E r d = none := by
    simp [metadataOf, getDashboardJsonMetadata, hr]
  have he : entryOf E { f with Id := X } = .obj (Obj.set "id" (.str X) o) := by
    simp [entryOf, ho, stampId, Gabs.set]
  rw [hnew, hm] at htree
  simp only [List.map_cons, List.map_nil, he, topLevel, Obj.set] at htree
  have hup : upsertDashboardFilter E r d X (some f) =
      .ok (fun d' => if d' = d then
        some (some (E.marshal (.obj [(nfc, .arr [.obj (Obj.set "id" (.str X) o)])])))
        else r d') := by
    simp only [upsertDashboardFilter, htree, Remote.put, hr]
  obtain ⟨tree, htree', _, _, hmeta, _⟩ := upsert_post hE hget hup
  rw [hnew, hm] at htree'
  simp only [List.map_cons, List.map_nil, he, topLevel, Obj.set] at htree'
  subst htree'
  exact ⟨_, hup, by simp, hmeta, (@writtenArray_of_metadata E _ d _ [] hmeta).1⟩

/-- C4 at the sample data: creating the first filter of a dashboard without
metadata. -/
theorem C4_bootstrap_witness :
    ∃ r', upsertDashboardFilter jsonEnv emptyRemote 7 "100001" (some sampleFilter) = .ok r' ∧
      r' 7 = some (some (jsonEnv.marshal (.obj [(nfc, .arr [.obj (Obj.set "id" (.str "100001")
        [("filterType", .str "filter_select"), ("name", .str "Country")])])]))) ∧
      metadataOf jsonEnv r' 7 = some (.obj [(nfc, .arr [.obj (Obj.set "id" (.str "100001")
        [("filterType", .str "filter_select"), ("name", .str "Country")])])]) ∧
      writtenArray jsonEnv r' 7 = some [.obj (Obj.set "id" (.str "100001")
        [("filterType", .str "filter_select"), ("name", .str "Country")])] :=
  C4_bootstrap jsonEnv jsonEnv_lawful emptyRemote 7 "100001" sampleFilter
    [("filterType", .str "filter_select"), ("name", .str "Country")] rfl rfl

/-! ### Re-upsert -/

theorem newCollection_some (old : List DashboardFilter) (X : String) (f : DashboardFilter) :
    newCollection old X (some f) = newCollection old X none ++ [{ f with Id := X }] := rfl

theorem findDashboardFilterById_append_last {R : List DashboardFilter} {X : String}
    {g : DashboardFilter} (hR : ∀ f ∈ R, f.Id ≠ X) (hg : g.Id = X) :
    findDashboardFilterById (R ++ [g]) X = some g := by
  induction R with
  | nil => simp [findDashboardFilterById, hg]
  | cons h R ih =>
    have hh := hR h (List.mem_cons_self _ _)
    simp only [List.cons_append, findDashboardFilterById, hh, if_false]
    exact ih (fun f hf => hR f (List.mem_cons_of_mem _ hf))

theorem remove_append_last {R : List DashboardFilter} {X : String} {g : DashboardFilter}
    (hR : ∀ f ∈ R, f.Id ≠ X) (hg : g.Id = X) : remove (R ++ [g]) g = R := by
  induction R with
  | nil => simp [remove]
  | cons h R ih =>
    have hh : h.Id ≠ g.Id := by rw [hg]; exact hR h (List.mem_cons_self _ _)
    simp only [List.cons_append, remove, hh, if_false]
    exact congrArg (List.cons h) (ih (fun f hf => hR f (List.mem_cons_of_mem _ hf)))

theorem newCollection_append_last {R : List DashboardFilter} {X : String}
    {g : DashboardFilter} (hR : ∀ f ∈ R, f.Id ≠ X) (hg : g.Id = X) :
    newCollection (R ++ [g]) X none = R := by
  simp only [newCollection, findDashboardFilterById_append_last hR hg]
  exact remove_append_last hR hg

theorem entryReads_map_entryOf {E : Env} (hE : E.Lawful) {d : Int} :
    ∀ {l : List DashboardFilter},
      (∀ g ∈ l, ∃ v, v.canonical = true ∧ EntryReads E d v g) →
      List.Forall₂ (EntryReads E d) (l.map (entryOf E)) l := by
  intro l
  induction l with
  | nil => intro _; exact List.Forall₂.nil
  | cons g l ih =>
    intro h
    obtain ⟨v, hv, hvg⟩ := h g (List.mem_cons_self _ _)
    rw [List.map_cons, entryOf_of_entryReads hE hv hvg]
    exact List.Forall₂.cons hvg (ih (fun g' hg' => h g' (List.mem_cons_of_mem _ hg')))

theorem entryReads_append {E : Env} {d : Int} :
    ∀ {vs : List Json} {fs : List DashboardFilter} {v : Json} {f : DashboardFilter},
      List.Forall₂ (EntryReads E d) vs fs → EntryReads E d v f →
      List.Forall₂ (EntryReads E d) (vs ++ [v]) (fs ++ [f]) := by
  intro vs fs v f h hv
  induction h with
  | nil => exact List.Forall₂.cons hv List.Forall₂.nil
  | cons h1 _ ih => exact List.Forall₂.cons h1 ih

mutual
theorem Json.deepEqual_refl : ∀ t : Json, Json.deepEqual t t = true
  | .null => rfl
  | .bool b => by simp [Json.deepEqual]
  | .num n => by simp [Json.deepEqual]
  | .str s => by simp [Json.deepEqual]
  | .arr xs => by simp [Json.deepEqual, Json.deepEqualElems_refl xs]
  | .obj kvs => by simp [Json.deepEqual, Json.deepEqualMembers_refl kvs]
theorem Json.deepEqualElems_refl : ∀ xs : List Json, Json.deepEqualElems xs xs = true
  | [] => rfl
  | x :: xs => by simp [Json.deepEqualElems, Json.deepEqual_refl x, Json.deepEqualElems_refl xs]
theorem Json.deepEqualMembers_refl :
    ∀ kvs : List (String × Json), Json.deepEqualMembers kvs kvs = true
  | [] => rfl
  | (k, v) :: kvs => by
    simp [Json.deepEqualMembers, Json.deepEqual_refl v, Json.deepEqualMembers_refl kvs]
end

theorem isConfigEqual_self {E : Env} {text : String} {m : List (String × Json)}
    (h : E.unmarshal text = some (.obj m)) : isConfigEqual E text text = .ok true := by
  simp [isConfigEqual, unmarshalMap, h, Json.deepEqual_refl]

theorem isConfigEqual_of_entryReads {E : Env} (hE : E.Lawful) {d : Int} {v : Json}
    {g : DashboardFilter} (hv : v.canonical = true) (h : EntryReads E d v g) :
    isConfigEqual E g.Config g.Config = .ok true := by
  obtain ⟨m, id, name, rfl, hid, hname, rfl⟩ := h
  exact isConfigEqual_self (hE.unmarshal_marshal _ (Json.canonical_delete hv))

set_option maxRecDepth 20000 in
/-- C5, the counterexample: (1) on a dashboard without metadata an upsert of a filter
whose `Config` is the object without a `name` key succeeds, and the same upsert
repeated on the document it wrote fails with the name-parse error; (2) on the
dashboard whose two filters share the id 100001, upserting that id twice with the same
filter leaves two different collections. -/
theorem C5_counterexample :
    (jsonEnv.unmarshal namelessFilter.Config = some (.obj []) ∧
      ∃ r1, upsertDashboardFilter jsonEnv emptyRemote 7 "100001" (some namelessFilter) = .ok r1 ∧
        upsertDashboardFilter jsonEnv r1 7 "100001" (some namelessFilter) = .error .parseName) ∧
    (∃ r1 r2 c1 c2 jm1 jm2,
      upsertDashboardFilter jsonEnv dupRemote 7 "100001" (some sampleFilter) = .ok r1 ∧
      upsertDashboardFilter jsonEnv r1 7 "100001" (some sampleFilter) = .ok r2 ∧
      getDashboardFilters jsonEnv r1 7 = .ok (c1, jm1) ∧
      getDashboardFilters jsonEnv r2 7 = .ok (c2, jm2) ∧
      c1.map (fun g => g.Name) = ["Year", "Country"] ∧
      c2.map (fun g => g.Name) = ["Country", "Country"]) :=
  ⟨⟨rfl, _, rfl, rfl⟩, _, _, _, _, _, _, rfl, rfl, rfl, rfl, rfl, rfl⟩

/-- C5, amended: when the extracted collection has at most one element of id `X` and
the `Config` of the filter decodes to a JSON object with a string `name`, a successful
`upsertDashboardFilter(d, X, F)` followed by the same call on the document it wrote
succeeds again, writes the same document, and the collection extracted after the
second call is the one extracted after the first, each config equal to itself under
`isConfigEqual`. -/
theorem C5_idempotent_reupsert (E : Env) (hE : E.Lawful) (r r1 : Remote) (d : Int)
    (X : String) (f : DashboardFilter) (o : List (String × Json)) (nm : String)
    (old : List DashboardFilter) (jm : Option Json)
    (hget : getDashboardFilters E r d = .ok (old, jm))
    (hone : (old.filter (fun g => decide (g.Id = X))).length ≤ 1)
    (ho : E.unmarshal f.Config = some (.obj o))
    (hname : Obj.get "name" o = some (.str nm))
    (hup : upsertDashboardFilter E r d X (some f) = .ok r1) :
    ∃ r2 c jm1 jm2, upsertDashboardFilter E r1 d X (some f) = .ok r2 ∧ r2 = r1 ∧
      getDashboardFilters E r1 d = .ok (c, jm1) ∧
      getDashboardFilters E r2 d = .ok (c, jm2) ∧
      (∃ g ∈ c, g.Id = X ∧ g.Name = nm) ∧
      ∀ g ∈ c, isConfigEqual E g.Config g.Config = .ok true := by
  obtain ⟨hwire, _, _⟩ := getDashboardFilters_ok hget
  obtain ⟨tree, htree, hr1, hcan, hmeta, hparse⟩ := upsert_post hE hget hup
  have hR := newCollection_none_ne hone
  have hRmem : ∀ g ∈ newCollection old X none, ∃ v, v.canonical = true ∧ EntryReads E d v g := by
    intro g hg
    rcases mem_newCollection hg with h | ⟨f0, h, _⟩
    · obtain ⟨v, hv, hvg⟩ := exists_entry_of_mem hwire g h
      exact ⟨v, wireEntries_canonical hE r d v hv, hvg⟩
    · cases h
  have ho_can : (Json.obj o).canonical = true := hE.unmarshal_canonical _ _ ho
  have he : entryOf E { f with Id := X } = .obj (Obj.set "id" (.str X) o) := by
    simp [entryOf, ho, stampId, Gabs.set]
  obtain ⟨fX, hfXid, hfXname, hXreads⟩ : ∃ fX : DashboardFilter, fX.Id = X ∧ fX.Name = nm ∧
      EntryReads E d (.obj (Obj.set "id" (.str X) o)) fX :=
    ⟨{ Id := X, DashboardId := d, Name := nm,
       Config := E.marshal (.obj (Obj.delete "id" (Obj.set "id" (.str X) o))) }, rfl, rfl,
      ⟨_, X, nm, rfl, Obj.get_set_self _ _ _,
        by rw [Obj.get_set_ne _ _ (by decide)]; exact hname, rfl⟩⟩
  have hentries : List.Forall₂ (EntryReads E d)
      ((newCollection old X (some f)).map (entryOf E)) (newCollection old X none ++ [fX]) := by
    rw [newCollection_some, List.map_append, List.map_cons, List.map_nil, he]
    exact entryReads_append (entryReads_map_entryOf hE hRmem) hXreads
  have hentries' : List.Forall₂ (EntryReads E d) (Gabs.children E (Gabs.path tree nfc))
      (newCollection old X none ++ [fX]) := by
    rw [htree]
    simp only [Gabs.path, Obj.get_set_self, Gabs.children]
    exact hentries
  have hread1 := getDashboardFilters_of_metadata hmeta hentries'
  have hnew2 : newCollection (newCollection old X none ++ [fX]) X (some f) =
      newCollection old X (some f) := by
    rw [newCollection_some, newCollection_some, newCollection_append_last hR hfXid]
  have hmd2 := upsertMetadata_eq hE X (some f) hread1 (by rw [hnew2]; exact hparse)
  rw [hnew2, hmeta] at hmd2
  have htree2 : Json.obj (Obj.set nfc (.arr ((newCollection old X (some f)).map (entryOf E)))
      (topLevel (some tree))) = tree := by
    rw [htree]
    simp only [topLevel, Obj.set_set]
  rw [htree2] at hmd2
  have hr1d : r1 d = some (some (E.marshal tree)) := by
    rw [hr1]
    simp
  have hup2 : upsertDashboardFilter E r1 d X (some f) = .ok r1 := by
    rw [upsertDashboardFilter_ok_iff]
    refine ⟨tree, hmd2, by simp [hr1d], ?_⟩
    funext d'
    by_cases hd : d' = d
    · subst hd
      simp [hr1d]
    · simp [hd]
  refine ⟨r1, _, _, _, hup2, rfl, hread1, hread1, ?_, ?_⟩
  · exact ⟨fX, List.mem_append_right _ (List.mem_singleton_self _), hfXid, hfXname⟩
  · intro g hg
    have hcanon : ∀ v ∈ (newCollection old X (some f)).map (entryOf E),
        v.canonical = true := by
      intro v hv
      obtain ⟨g', hg', rfl⟩ := List.mem_map.1 hv
      exact entryOf_canonical hE (hparse g' hg')
    obtain ⟨v, hv, hvg⟩ := exists_entry_of_mem hentries g hg
    exact isConfigEqual_of_entryReads hE (hcanon v hv) hvg

set_option maxRecDepth 20000 in
/-- C5 at the sample dashboard: replacing filter 100002 by `sampleFilter` a second
time changes nothing. -/
theorem C5_idempotent_reupsert_witness :
    ∃ r2 c jm1 jm2,
      upsertDashboardFilter jsonEnv sampleReplaced 7 "100002" (some sampleFilter) = .ok r2 ∧
      r2 = sampleReplaced ∧
      getDashboardFilters jsonEnv sampleReplaced 7 = .ok (c, jm1) ∧
      getDashboardFilters jsonEnv r2 7 = .ok (c, jm2) ∧
      (∃ g ∈ c, g.Id = "100002" ∧ g.Name = "Country") ∧
      ∀ g ∈ c, isConfigEqual jsonEnv g.Config g.Config = .ok true :=
  C5_idempotent_reupsert jsonEnv jsonEnv_lawful sampleRemote sampleReplaced 7 "100002"
    sampleFilter [("filterType", .str "filter_select"), ("name", .str "Country")] "Country"
    sampleOld (some sampleTree) rfl (by decide) rfl rfl rfl

/-- C6, the failing input: on a dashboard without metadata, upserting a filter whose
`Config` is the JSON array `[]` succeeds; the entry written for it is the array
itself, without any `id` key, and every later read of the dashboard fails. -/
theorem C6_array_config_not_stamped :
    jsonEnv.unmarshal arrayFilter.Config = some (.arr []) ∧
    ∃ r', upsertDashboardFilter jsonEnv emptyRemote 7 "100001" (some arrayFilter) = .ok r' ∧
      r' 7 = some (some "\x7b\"native_filter_configuration\":[[]]\x7d") ∧
      writtenArray jsonEnv r' 7 = some [.arr []] ∧
      Gabs.path (.arr []) "id" = none ∧
      getDashboardFilters jsonEnv r' 7 = .error .parseId :=
  ⟨rfl, _, rfl, rfl, rfl, rfl, rfl⟩

/-! ### Uniqueness of ids -/

theorem entryId_stampId (c : Json) (X : String) :
    entryId (stampId c X) = some X ∨ entryId (stampId c X) = none := by
  cases c with
  | null => exact Or.inl (by simp [stampId, Gabs.set, entryId, Gabs.path, Obj.get])
  | obj m => exact Or.inl (by simp [stampId, Gabs.set, entryId, Gabs.path, Obj.get_set_self])
  | bool b => exact Or.inr rfl
  | num n => exact Or.inr rfl
  | str s => exact Or.inr rfl
  | arr xs => exact Or.inr rfl

/-- C7: when the ids of the extracted collection are pairwise distinct, the entries of
the array written by a successful `upsertDashboardFilter` have pairwise distinct
`id`s: no two positions of the array carry the same `id` lookup. -/
theorem C7_ids_stay_unique (E : Env) (hE : E.Lawful) (r r' : Remote) (d : Int) (X : String)
    (F : Option DashboardFilter) (old : List DashboardFilter) (jm : Option Json)
    (hget : getDashboardFilters E r d = .ok (old, jm))
    (hnd : (old.map (fun f => f.Id)).Nodup)
    (hup : upsertDashboardFilter E r d X F = .ok r') :
    ∃ ws, writtenArray E r' d = some ws ∧ (ws.map entryId).Nodup := by
  obtain ⟨hwire, _, _⟩ := getDashboardFilters_ok hget
  obtain ⟨tree, htree, _, _, hmeta, hparse⟩ := upsert_post hE hget hup
  rw [htree] at hmeta
  refine ⟨_, (writtenArray_of_metadata hmeta).1, ?_⟩
  have hold : ∀ g ∈ old, entryId (entryOf E g) = some g.Id := by
    intro g hg
    obtain ⟨v, hv, hvg⟩ := exists_entry_of_mem hwire g hg
    rw [entryOf_of_entryReads hE (wireEntries_canonical hE r d v hv) hvg]
    exact entryId_of_entryReads hvg
  have hkept : ((old.filter (fun f => decide (f.Id ≠ X))).map (entryOf E)).map entryId =
      (old.filter (fun f => decide (f.Id ≠ X))).map (fun g => some g.Id) := by
    rw [List.map_map]
    apply List.map_congr_left
    intro g hg
    exact hold g (List.mem_filter.1 hg).1
  have hkept_nd : ((old.filter (fun f => decide (f.Id ≠ X))).map (fun g => some g.Id)).Nodup := by
    have h1 : ((old.filter (fun f => decide (f.Id ≠ X))).map (fun f => f.Id)).Nodup :=
      List.Nodup.sublist (List.Sublist.map _ (List.filter_sublist _)) hnd
    have h2 := List.Nodup.map (Option.some_injective String) h1
    rwa [List.map_map] at h2
  rw [newCollection_eq_filter X F hnd, List.map_append, List.map_append, hkept]
  cases F with
  | none => simpa using hkept_nd
  | some f =>
    simp only [List.map_cons, List.map_nil]
    rw [List.nodup_append]
    refine ⟨hkept_nd, List.nodup_singleton _, ?_⟩
    intro a ha hb
    rw [List.mem_singleton] at hb
    obtain ⟨g, hg, hga⟩ := List.mem_map.1 ha
    have hgX : g.Id ≠ X := by simpa using (List.mem_filter.1 hg).2
    have hc : (E.unmarshal f.Config).isSome = true := by
      have := hparse { f with Id := X } (by
        rw [newCollection_some]
        exact List.mem_append_right _ (List.mem_singleton_self _))
      simpa using this
    obtain ⟨c, hc⟩ := Option.isSome_iff_exists.1 hc
    have he : entryOf E { f with Id := X } = stampId c X := by
      simp [entryOf, hc]
    rw [he] at hb
    rcases entryId_stampId c X with h | h
    · rw [h] at hb
      rw [hb] at hga
      exact hgX (Option.some.inj hga)
    · rw [h] at hb
      rw [hb] at hga
      cases hga

set_option maxRecDepth 20000 in
/-- C7 at the sample dashboard: after filter 100002 is replaced the written entries
carry the ids 100001 and 100002. -/
theorem C7_ids_stay_unique_witness :
    ∃ ws, writtenArray jsonEnv sampleReplaced 7 = some ws ∧ (ws.map entryId).Nodup :=
  C7_ids_stay_unique jsonEnv jsonEnv_lawful sampleRemote sampleReplaced 7 "100002"
    (some sampleFilter) sampleOld (some sampleTree) rfl (by decide) rfl

/-! ### Extraction -/

theorem exists_filters_of_wellFormed (E : Env) (d : Int) :
    ∀ es : List Json,
      (∀ e ∈ es, ∃ m id name, e = Json.obj m ∧ Obj.get "id" m = some (.str id) ∧
        Obj.get "name" m = some (.str name)) →
      ∃ fs, List.Forall₂ (EntryReads E d) es fs := by
  intro es
  induction es with
  | nil => intro _; exact ⟨[], List.Forall₂.nil⟩
  | cons e es ih =>
    intro h
    obtain ⟨m, id, name, he, hid, hname⟩ := h e (List.mem_cons_self _ _)
    obtain ⟨fs, hfs⟩ := ih (fun e' he' => h e' (List.mem_cons_of_mem _ he'))
    exact ⟨_ :: fs, List.Forall₂.cons ⟨m, id, name, he, hid, hname, rfl⟩ hfs⟩

theorem entryReads_with_canonical {E : Env} {d : Int} :
    ∀ {vs : List Json} {fs : List DashboardFilter}, List.Forall₂ (EntryReads E d) vs fs →
      (∀ v ∈ vs, v.canonical = true) →
      List.Forall₂ (fun v f => EntryReads E d v f ∧ v.canonical = true) vs fs := by
  intro vs fs h
  induction h with
  | nil => intro _; exact List.Forall₂.nil
  | @cons v f vs fs h1 _ ih =>
    intro hc
    exact List.Forall₂.cons ⟨h1, hc v (List.mem_cons_self _ _)⟩
      (ih (fun v' hv' => hc v' (List.mem_cons_of_mem _ hv')))

/-- C8: when the metadata decodes to a tree whose `native_filter_configuration` is an
array of objects that each have a string `id` and a string `name`,
`getDashboardFilters` returns one filter per entry, in array order, with the `Id` and
`Name` of the entry, the requested `DashboardId`, and as `Config` the serialization of
the entry without its `id` key and with every other key kept; the `Config` decodes to
an object without an `id` key. -/
theorem C8_extraction (E : Env) (hE : E.Lawful) (r : Remote) (d : Int) (text : String)
    (t : Json) (es : List Json)
    (hr : r d = some (some text)) (ht : E.unmarshal text = some t)
    (hes : Gabs.path t nfc = some (.arr es))
    (hwf : ∀ e ∈ es, ∃ m id name, e = Json.obj m ∧ Obj.get "id" m = some (.str id) ∧
      Obj.get "name" m = some (.str name)) :
    ∃ fs jm, getDashboardFilters E r d = .ok (fs, jm) ∧
      List.Forall₂ (fun e f => ∃ m id name, e = Json.obj m ∧
        Obj.get "id" m = some (.str id) ∧ Obj.get "name" m = some (.str name) ∧
        f.Id = id ∧ f.Name = name ∧ f.DashboardId = d ∧
        f.Config = E.marshal (.obj (Obj.delete "id" m)) ∧
        E.unmarshal f.Config = some (.obj (Obj.delete "id" m)) ∧
        Obj.get "id" (Obj.delete "id" m) = none ∧
        ∀ k, k ≠ "id" → Obj.get k (Obj.delete "id" m) = Obj.get k m) es fs := by
  have hm : metadataOf E r d = some t := (metadataOf_eq_some_iff E r d t).2 ⟨text, hr, ht⟩
  obtain ⟨fs, hfs⟩ := exists_filters_of_wellFormed E d es hwf
  have hfs' : List.Forall₂ (EntryReads E d) (Gabs.children E (Gabs.path t nfc)) fs := by
    simp only [hes, Gabs.children]
    exact hfs
  have hread := getDashboardFilters_of_metadata hm hfs'
  have hcan : ∀ e ∈ es, e.canonical = true := by
    have := children_canonical hE (hE.unmarshal_canonical _ _ ht) nfc
    simpa [hes, Gabs.children] using this
  refine ⟨fs, _, hread, ?_⟩
  refine List.Forall₂.imp ?_ (entryReads_with_canonical hfs hcan)
  rintro e f ⟨⟨m, id, name, rfl, hid, hname, rfl⟩, hc⟩
  exact ⟨m, id, name, rfl, hid, hname, rfl, rfl, rfl, rfl,
    hE.unmarshal_marshal _ (Json.canonical_delete hc), Obj.get_delete_self _ _,
    fun k hk => Obj.get_delete_ne _ hk⟩

set_option maxRecDepth 20000 in
/-- C8 at the sample dashboard. -/
theorem C8_extraction_witness :
    ∃ fs jm, getDashboardFilters jsonEnv sampleRemote 7 = .ok (fs, jm) ∧
      List.Forall₂ (fun e f => ∃ m id name, e = Json.obj m ∧
        Obj.get "id" m = some (.str id) ∧ Obj.get "name" m = some (.str name) ∧
        f.Id = id ∧ f.Name = name ∧ f.DashboardId = 7 ∧
        f.Config = jsonEnv.marshal (.obj (Obj.delete "id" m)) ∧
        jsonEnv.unmarshal f.Config = some (.obj (Obj.delete "id" m)) ∧
        Obj.get "id" (Obj.delete "id" m) = none ∧
        ∀ k, k ≠ "id" → Obj.get k (Obj.delete "id" m) = Obj.get k m)
        [.obj [("id", .str "100001"), ("name", .str "Region")],
          .obj [("id", .str "100002"), ("name", .str "Year"),
            ("scope", .arr [.num 1, .num 2])]] fs :=
  C8_extraction jsonEnv jsonEnv_lawful sampleRemote 7 _ _ _ rfl rfl rfl (by
    intro e he
    simp only [List.mem_cons, List.mem_singleton, List.not_mem_nil, or_false] at he
    rcases he with rfl | rfl
    · exact ⟨_, "100001", "Region", rfl, rfl, rfl⟩
    · exact ⟨_, "100002", "Year", rfl, rfl, rfl⟩)

theorem readFilter_error_kind {E : Env} {d : Int} {v : Json} {e : Err}
    (h : readFilter E d v = .error e) : e = .parseId ∨ e = .parseName := by
  simp only [readFilter] at h
  split at h
  · cases h
    exact Or.inl rfl
  · rename_i id hid
    split at h
    · cases h
      exact Or.inr rfl
    · split at h
      · rename_i e' hdel
        exfalso
        cases v with
        | obj m =>
          simp only [Gabs.delete] at hdel
          cases hg : Obj.get "id" m with
          | none => simp [Gabs.path, hg, Gabs.data, Gabs.asString] at hid
          | some a => simp [hg] at hdel
        | _ => simp [Gabs.path, Gabs.data, Gabs.asString] at hid
      · cases h

theorem readFilters_error_kind {E : Env} {d : Int} :
    ∀ {vs : List Json} {e : Err}, readFilters E d vs = .error e →
      e = .parseId ∨ e = .parseName := by
  intro vs
  induction vs with
  | nil => intro e h; simp [readFilters] at h
  | cons v vs ih =>
    intro e h
    simp only [readFilters] at h
    split at h
    · rename_i e' he'
      cases h
      exact readFilter_error_kind he'
    · split at h
      · rename_i e' he'
        cases h
        exact ih he'
      · cases h

/-- C9: when an entry of the `native_filter_configuration` array has no string `id`
or no string `name`, `getDashboardFilters` returns the id-parse or the name-parse
error and no filters, and so do `getDashboardFilterById` and `upsertDashboardFilter`
for every filter id and every filter. -/
theorem C9_malformed_entry_is_fatal (E : Env) (r : Remote) (d : Int) (text : String)
    (t : Json) (es : List Json) (e : Json)
    (hr : r d = some (some text)) (ht : E.unmarshal text = some t)
    (hes : Gabs.path t nfc = some (.arr es)) (he : e ∈ es)
    (hbad : (∀ s, Gabs.path e "id" ≠ some (.str s)) ∨
      (∀ s, Gabs.path e "name" ≠ some (.str s))) :
    ∃ err, (err = .parseId ∨ err = .parseName) ∧
      getDashboardFilters E r d = .error err ∧
      (∀ X, getDashboardFilterById E r d X = .error err) ∧
      ∀ X F, upsertDashboardFilter E r d X F = .error err := by
  have hnot : ¬ ∃ f, EntryReads E d e f := by
    rintro ⟨f, m, id, name, rfl, hid, hname, _⟩
    rcases hbad with h | h
    · exact h id hid
    · exact h name hname
  obtain ⟨err, herr⟩ := readFilters_error_of_mem E d es e he hnot
  have hget : getDashboardFilters E r d = .error err := by
    simp only [getDashboardFilters, getDashboardJsonMetadata, hr, ht, hes, Gabs.children, herr]
  refine ⟨err, readFilters_error_kind herr, hget, ?_, ?_⟩
  · intro X
    simp only [getDashboardFilterById, hget]
  · intro X F
    simp only [upsertDashboardFilter, upsertMetadata, hget]

set_option maxRecDepth 20000 in
/-- C9 at a dashboard whose second filter has no name: every read and every upsert
fails, also for the id of the well-formed first filter. -/
theorem C9_malformed_entry_is_fatal_witness :
    ∃ err, (err = .parseId ∨ err = .parseName) ∧
      getDashboardFilters jsonEnv namelessRemote 7 = .error err ∧
      (∀ X, getDashboardFilterById jsonEnv namelessRemote 7 X = .error err) ∧
      ∀ X F, upsertDashboardFilter jsonEnv namelessRemote 7 X F = .error err :=
  C9_malformed_entry_is_fatal jsonEnv namelessRemote 7 _ _
    [.obj [("id", .str "100001"), ("name", .str "Region")], .obj [("id", .str "100002")]]
    (.obj [("id", .str "100002")]) rfl rfl rfl
    (List.mem_cons_of_mem _ (List.mem_singleton_self _)) (Or.inr (by intro s h; cases h))

/-- C10, the counterexample: the metadata of the dashboard is the empty object, which
has no `native_filter_configuration`; `getDashboardFilters` returns no filters and no
error, but the containing tree it returns is the decoded object, not nil. -/
theorem C10_counterexample :
    metadataOf jsonEnv bareRemote 7 = some (.obj []) ∧
    Gabs.path (.obj []) nfc = none ∧
    getDashboardFilters jsonEnv bareRemote 7 = .ok ([], some (.obj [])) :=
  ⟨rfl, rfl, rfl⟩

/-- C10, amended: when the dashboard has no metadata text `getDashboardFilters`
returns no filters, a nil containing tree and no error; when the metadata text decodes
to a tree without `native_filter_configuration` it returns no filters, that decoded
tree as the containing tree, and no error. -/
theorem C10_absent_collection (E : Env) (r : Remote) (d : Int) :
    (r d = some none → getDashboardFilters E r d = .ok ([], none)) ∧
    (∀ text t, r d = some (some text) → E.unmarshal text = some t →
      Gabs.path t nfc = none → getDashboardFilters E r d = .ok ([], some t)) := by
  constructor
  · intro hr
    exact (getDashboardFilters_ok_iff E r d [] none).2 (Or.inl ⟨hr, rfl, rfl⟩)
  · intro text t hr ht hp
    have hafter : afterRead t = t := by
      cases t with
      | obj m =>
        simp only [Gabs.path] at hp
        simp only [afterRead, hp]
      | _ => rfl
    simp only [getDashboardFilters, getDashboardJsonMetadata, hr, ht, hp, Gabs.children,
      readFilters, hafter]

/-- C10 at the sample data: a dashboard without metadata and a dashboard whose
metadata is the empty object. -/
theorem C10_absent_collection_witness :
    getDashboardFilters jsonEnv emptyRemote 7 = .ok ([], none) ∧
    getDashboardFilters jsonEnv bareRemote 7 = .ok ([], some (.obj [])) :=
  ⟨(C10_absent_collection jsonEnv emptyRemote 7).1 rfl,
    (C10_absent_collection jsonEnv bareRemote 7).2 _ _ rfl rfl rfl⟩

/-! ### Reading one filter -/

theorem findDashboardFilterById_some_iff (fs : List DashboardFilter) (X : String)
    (f : DashboardFilter) :
    findDashboardFilterById fs X = some f ↔
      ∃ pre post, fs = pre ++ f :: post ∧ f.Id = X ∧ ∀ g ∈ pre, g.Id ≠ X := by
  induction fs with
  | nil => simp [findDashboardFilterById]
  | cons h fs ih =>
    simp only [findDashboardFilterById]
    split_ifs with hh
    · constructor
      · intro e
        cases e
        exact ⟨[], fs, rfl, hh, by simp⟩
      · rintro ⟨pre, post, hfs, _, hpre⟩
        cases pre with
        | nil =>
          simp only [List.nil_append, List.cons.injEq] at hfs
          rw [hfs.1]
        | cons p pre =>
          simp only [List.cons_append, List.cons.injEq] at hfs
          exact absurd hh (hfs.1 ▸ hpre p (List.mem_cons_self _ _))
    · rw [ih]
      constructor
      · rintro ⟨pre, post, hfs, hf, hpre⟩
        refine ⟨h :: pre, post, by rw [hfs]; rfl, hf, ?_⟩
        intro g hg
        rcases List.mem_cons.1 hg with e | hg
        · rw [e]
          exact hh
        · exact hpre g hg
      · rintro ⟨pre, post, hfs, hf, hpre⟩
        cases pre with
        | nil =>
          simp only [List.nil_append, List.cons.injEq] at hfs
          exact absurd (hfs.1 ▸ hf) hh
        | cons p pre =>
          simp only [List.cons_append, List.cons.injEq] at hfs
          exact ⟨pre, post, hfs.2, hf, fun g hg => hpre g (List.mem_cons_of_mem _ hg)⟩

/-- C11: `getDashboardFilterById` is a linear scan over the extracted collection. When
the extraction succeeds it returns the first element, in order, whose `Id` is the
requested one; it returns nil without error exactly when the extraction succeeds and
no extracted element has the id, also when the metadata or the collection is absent;
it returns an error exactly when the extraction (the GET included) does, and then the
same error. -/
theorem C11_lookup_is_linear_scan (E : Env) (r : Remote) (d : Int) (X : String) :
    (∀ fs jm, getDashboardFilters E r d = .ok (fs, jm) →
      getDashboardFilterById E r d X = .ok (findDashboardFilterById fs X) ∧
      (∀ f, getDashboardFilterById E r d X = .ok (some f) ↔
        ∃ pre post, fs = pre ++ f :: post ∧ f.Id = X ∧ ∀ g ∈ pre, g.Id ≠ X)) ∧
    (getDashboardFilterById E r d X = .ok none ↔
      ∃ fs jm, getDashboardFilters E r d = .ok (fs, jm) ∧ ∀ g ∈ fs, g.Id ≠ X) ∧
    (∀ e, getDashboardFilterById E r d X = .error e ↔ getDashboardFilters E r d = .error e) ∧
    (r d = some none → getDashboardFilterById E r d X = .ok none) ∧
    (∀ text t, r d = some (some text) → E.unmarshal text = some t →
      Gabs.path t nfc = none → getDashboardFilterById E r d X = .ok none) := by
  refine ⟨?_, ?_, ?_, ?_, ?_⟩
  · intro fs jm h
    have h1 := getDashboardFilterById_of_filters h X
    refine ⟨h1, ?_⟩
    intro f
    rw [h1, ← findDashboardFilterById_some_iff]
    simp
  · constructor
    · intro h
      cases hget : getDashboardFilters E r d with
      | error e => simp [getDashboardFilterById, hget] at h
      | ok p =>
        obtain ⟨fs, jm⟩ := p
        rw [getDashboardFilterById_of_filters hget X] at h
        simp only [Except.ok.injEq] at h
        exact ⟨fs, jm, rfl, findDashboardFilterById_none.1 h⟩
    · rintro ⟨fs, jm, hget, hno⟩
      rw [getDashboardFilterById_of_filters hget X, findDashboardFilterById_none.2 hno]
  · intro e
    cases hget : getDashboardFilters E r d with
    | error e' => simp [getDashboardFilterById, hget]
    | ok p =>
      obtain ⟨fs, jm⟩ := p
      simp [getDashboardFilterById, hget]
  · intro hr
    have hget : getDashboardFilters E r d = .ok ([], none) :=
      (getDashboardFilters_ok_iff E r d [] none).2 (Or.inl ⟨hr, rfl, rfl⟩)
    rw [getDashboardFilterById_of_filters hget X]
    rfl
  · intro text t hr ht hp
    have hget : getDashboardFilters E r d = .ok ([], some (afterRead t)) :=
      (getDashboardFilters_ok_iff E r d [] _).2
        (Or.inr ⟨text, t, hr, ht, by rw [hp]; exact List.Forall₂.nil, rfl⟩)
    rw [getDashboardFilterById_of_filters hget X]
    rfl

set_option maxRecDepth 20000 in
/-- C11 at the sample data: the second filter of the sample dashboard is found by its
id, an unknown id and a dashboard without metadata give nil, a dashboard that does not
exist gives the error of the GET. -/
theorem C11_lookup_is_linear_scan_witness :
    getDashboardFilterById jsonEnv sampleRemote 7 "100002" =
      .ok (some { Id := "100002", DashboardId := 7, Name := "Year",
                  Config := "\x7b\"name\":\"Year\",\"scope\":[1,2]\x7d" }) ∧
    getDashboardFilterById jsonEnv emptyRemote 7 "100002" = .ok none ∧
    getDashboardFilterById jsonEnv bareRemote 7 "100002" = .ok none ∧
    getDashboardFilters jsonEnv sampleRemote 8 = .error (.status 404) :=
  ⟨((C11_lookup_is_linear_scan jsonEnv sampleRemote 7 "100002").1 sampleOld
      (some sampleTree) rfl).1,
    (C11_lookup_is_linear_scan jsonEnv emptyRemote 7 "100002").2.2.2.1 rfl,
    (C11_lookup_is_linear_scan jsonEnv bareRemote 7 "100002").2.2.2.2 _ _ rfl rfl rfl,
    ((C11_lookup_is_linear_scan jsonEnv sampleRemote 8 "100002").2.2.1 (.status 404)).1 rfl⟩

/-! ### Comparing configs -/

mutual
theorem Json.eq_of_deepEqual : ∀ a b : Json, Json.deepEqual a b = true → a = b
  | .null, .null, _ => rfl
  | .bool a, .bool b, h => by simpa [Json.deepEqual] using h
  | .num a, .num b, h => by simpa [Json.deepEqual] using h
  | .str a, .str b, h => by simpa [Json.deepEqual] using h
  | .arr a, .arr b, h => by
    simp only [Json.deepEqual] at h
    rw [Json.eq_of_deepEqualElems a b h]
  | .obj a, .obj b, h => by
    simp only [Json.deepEqual] at h
    rw [Json.eq_of_deepEqualMembers a b h]
  | .null, .bool _, h => by simp [Json.deepEqual] at h
  | .null, .num _, h => by simp [Json.deepEqual] at h
  | .null, .str _, h => by simp [Json.deepEqual] at h
  | .null, .arr _, h => by simp [Json.deepEqual] at h
  | .null, .obj _, h => by simp [Json.deepEqual] at h
  | .bool _, .null, h => by simp [Json.deepEqual] at h
  | .bool _, .num _, h => by simp [Json.deepEqual] at h
  | .bool _, .str _, h => by simp [Json.deepEqual] at h
  | .bool _, .arr _, h => by simp [Json.deepEqual] at h
  | .bool _, .obj _, h => by simp [Json.deepEqual] at h
  | .num _, .null, h => by simp [Json.deepEqual] at h
  | .num _, .bool _, h => by simp [Json.deepEqual] at h
  | .num _, .str _, h => by simp [Json.deepEqual] at h
  | .num _, .arr _, h => by simp [Json.deepEqual] at h
  | .num _, .obj _, h => by simp [Json.deepEqual] at h
  | .str _, .null, h => by simp [Json.deepEqual] at h
  | .str _, .bool _, h => by simp [Json.deepEqual] at h
  | .str _, .num _, h => by simp [Json.deepEqual] at h
  | .str _, .arr _, h => by simp [Json.deepEqual] at h
  | .str _, .obj _, h => by simp [Json.deepEqual] at h
  | .arr _, .null, h => by simp [Json.deepEqual] at h
  | .arr _, .bool _, h => by simp [Json.deepEqual] at h
  | .arr _, .num _, h => by simp [Json.deepEqual] at h
  | .arr _, .str _, h => by simp [Json.deepEqual] at h
  | .arr _, .obj _, h => by simp [Json.deepEqual] at h
  | .obj _, .null, h => by simp [Json.deepEqual] at h
  | .obj _, .bool _, h => by simp [Json.deepEqual] at h
  | .obj _, .num _, h => by simp [Json.deepEqual] at h
  | .obj _, .str _, h => by simp [Json.deepEqual] at h
  | .obj _, .arr _, h => by simp [Json.deepEqual] at h
theorem Json.eq_of_deepEqualElems :
    ∀ a b : List Json, Json.deepEqualElems a b = true → a = b
  | [], [], _ => rfl
  | [], _ :: _, h => by simp [Json.deepEqualElems] at h
  | _ :: _, [], h => by simp [Json.deepEqualElems] at h
  | x :: xs, y :: ys, h => by
    simp only [Json.deepEqualElems, Bool.and_eq_true] at h
    rw [Json.eq_of_deepEqual x y h.1, Json.eq_of_deepEqualElems xs ys h.2]
theorem Json.eq_of_deepEqualMembers :
    ∀ a b : List (String × Json), Json.deepEqualMembers a b = true → a = b
  | [], [], _ => rfl
  | [], _ :: _, h => by simp [Json.deepEqualMembers] at h
  | _ :: _, [], h => by simp [Json.deepEqualMembers] at h
  | (k, x) :: xs, (l, y) :: ys, h => by
    simp only [Json.deepEqualMembers, Bool.and_eq_true, beq_iff_eq] at h
    rw [h.1.1, Json.eq_of_deepEqual x y h.1.2, Json.eq_of_deepEqualMembers xs ys h.2]
end

theorem Json.deepEqual_iff (a b : Json) : Json.deepEqual a b = true ↔ a = b :=
  ⟨Json.eq_of_deepEqual a b, fun h => h ▸ Json.deepEqual_refl a⟩

theorem isConfigEqual_of_objects {E : Env} {a b : String} {ma mb : List (String × Json)}
    (ha : E.unmarshal a = some (.obj ma)) (hb : E.unmarshal b = some (.obj mb)) :
    isConfigEqual E a b = .ok (Json.deepEqual (.obj ma) (.obj mb)) := by
  simp [isConfigEqual, unmarshalMap, ha, hb]

/-- C12: for two texts that each decode to a JSON object, `isConfigEqual` returns
true without error exactly when the two decoded values are equal as values: the same
keys with equal values at every depth, whatever the order of the keys in the text, and
arrays equal element by element in order. The result depends on the texts only
through the values they decode to. -/
theorem C12_config_equality (E : Env) (hE : E.Lawful) (a b : String)
    (ma mb : List (String × Json))
    (ha : E.unmarshal a = some (.obj ma)) (hb : E.unmarshal b = some (.obj mb)) :
    (isConfigEqual E a b = .ok true ↔ Json.obj ma = Json.obj mb) ∧
    (isConfigEqual E a b = .ok false ↔ Json.obj ma ≠ Json.obj mb) ∧
    (isConfigEqual E a b = .ok true ↔ ∀ k, Obj.get k ma = Obj.get k mb) ∧
    (∀ k xs ys, Obj.get k ma = some (.arr xs) → Obj.get k mb = some (.arr ys) →
      isConfigEqual E a b = .ok true → xs = ys) ∧
    (∀ a' b', E.unmarshal a' = E.unmarshal a → E.unmarshal b' = E.unmarshal b →
      isConfigEqual E a' b' = isConfigEqual E a b) := by
  have hres := isConfigEqual_of_objects ha hb
  have h1 : isConfigEqual E a b = .ok true ↔ Json.obj ma = Json.obj mb := by
    rw [hres, ← Json.deepEqual_iff]
    simp
  have hsa := ((Json.canonical_obj ma).1 (hE.unmarshal_canonical _ _ ha)).1
  have hsb := ((Json.canonical_obj mb).1 (hE.unmarshal_canonical _ _ hb)).1
  have h3 : isConfigEqual E a b = .ok true ↔ ∀ k, Obj.get k ma = Obj.get k mb := by
    rw [h1]
    constructor
    · intro h k
      cases h
      rfl
    · intro h
      rw [Obj.ext hsa hsb h]
  refine ⟨h1, ?_, h3, ?_, ?_⟩
  · rw [hres]
    cases hd : Json.deepEqual (Json.obj ma) (Json.obj mb) with
    | true =>
      have heq := (Json.deepEqual_iff _ _).1 hd
      simp [heq]
    | false =>
      have hne : Json.obj ma ≠ Json.obj mb := by
        intro e
        rw [(Json.deepEqual_iff _ _).2 e] at hd
        cases hd
      simp [hne]
  · intro k xs ys hx hy heq
    have := h3.1 heq k
    rw [hx, hy] at this
    simpa using this
  · intro a' b' ha' hb'
    rw [hres, isConfigEqual_of_objects (ha'.trans ha) (hb'.trans hb)]

/-- C12 at the three pairs of the specification and at a pair that differs in the key
order of a nested object. -/
theorem C12_config_equality_witness :
    isConfigEqual jsonEnv "\x7b\"a\":1,\"b\":2\x7d" "\x7b\"b\":2,\"a\":1\x7d" = .ok true ∧
    isConfigEqual jsonEnv "\x7b\"a\":1\x7d" "\x7b\"a\":2\x7d" = .ok false ∧
    isConfigEqual jsonEnv "\x7b\"a\":[1,2]\x7d" "\x7b\"a\":[2,1]\x7d" = .ok false ∧
    isConfigEqual jsonEnv "\x7b\"a\":\x7b\"x\":1,\"y\":2\x7d\x7d"
      "\x7b\"a\":\x7b\"y\":2,\"x\":1\x7d\x7d" = .ok true :=
  ⟨(C12_config_equality jsonEnv jsonEnv_lawful "\x7b\"a\":1,\"b\":2\x7d"
      "\x7b\"b\":2,\"a\":1\x7d" [("a", .num 1), ("b", .num 2)]
      [("a", .num 1), ("b", .num 2)] rfl rfl).1.2 rfl,
    (C12_config_equality jsonEnv jsonEnv_lawful "\x7b\"a\":1\x7d" "\x7b\"a\":2\x7d"
      [("a", .num 1)] [("a", .num 2)] rfl rfl).2.1.2 (by simp),
    (C12_config_equality jsonEnv jsonEnv_lawful "\x7b\"a\":[1,2]\x7d"
      "\x7b\"a\":[2,1]\x7d" [("a", .arr [.num 1, .num 2])]
      [("a", .arr [.num 2, .num 1])] rfl rfl).2.1.2 (by simp),
    (C12_config_equality jsonEnv jsonEnv_lawful "\x7b\"a\":\x7b\"x\":1,\"y\":2\x7d\x7d"
      "\x7b\"a\":\x7b\"y\":2,\"x\":1\x7d\x7d"
      [("a", .obj [("x", .num 1), ("y", .num 2)])]
      [("a", .obj [("x", .num 1), ("y", .num 2)])] rfl rfl).1.2 rfl⟩

theorem unmarshalMap_error_iff (E : Env) (text : String) :
    (∃ e, unmarshalMap E text = .error e) ↔ decodesToMap E text = false := by
  simp only [unmarshalMap, decodesToMap]
  cases E.unmarshal text with
  | none => simp
  | some t => cases t <;> simp

theorem unmarshalMap_error_kind {E : Env} {text : String} {e : Err}
    (h : unmarshalMap E text = .error e) : e = .decode := by
  simp only [unmarshalMap] at h
  split at h <;> first | (cases h; rfl) | cases h

/-- C13, the counterexample: the texts `[]` and `1` are valid JSON, yet
`isConfigEqual` returns an error for them, because it decodes into a map. -/
theorem C13_counterexample :
    jsonEnv.unmarshal "[]" = some (.arr []) ∧
    isConfigEqual jsonEnv "[]" "[]" = .error .decode ∧
    jsonEnv.unmarshal "1" = some (.num 1) ∧
    jsonEnv.unmarshal "\x7b\x7d" = some (.obj []) ∧
    isConfigEqual jsonEnv "\x7b\x7d" "1" = .error .decode :=
  ⟨rfl, rfl, rfl, rfl, rfl⟩

/-- C13, amended: `isConfigEqual` returns an error exactly when at least one of the
two texts does not decode into a map, that is, is neither a JSON object nor `null`;
the error is the decode error; in particular a malformed text gives an error, and two
texts that both decode into a map give a result without error. -/
theorem C13_error_iff_not_map (E : Env) (a b : String) :
    ((∃ e, isConfigEqual E a b = .error e) ↔
      (decodesToMap E a = false ∨ decodesToMap E b = false)) ∧
    (∀ e, isConfigEqual E a b = .error e → e = .decode) ∧
    (E.unmarshal a = none ∨ E.unmarshal b = none → isConfigEqual E a b = .error .decode) ∧
    (decodesToMap E a = true → decodesToMap E b = true →
      ∃ eq, isConfigEqual E a b = .ok eq) := by
  have hkind : ∀ e, isConfigEqual E a b = .error e → e = .decode := by
    intro e h
    simp only [isConfigEqual] at h
    cases hma : unmarshalMap E a with
    | error e' =>
      rw [hma] at h
      cases h
      exact unmarshalMap_error_kind hma
    | ok ca =>
      rw [hma] at h
      cases hmb : unmarshalMap E b with
      | error e' =>
        rw [hmb] at h
        cases h
        exact unmarshalMap_error_kind hmb
      | ok cb =>
        rw [hmb] at h
        cases ca <;> cases cb <;> cases h
  have hiff : (∃ e, isConfigEqual E a b = .error e) ↔
      (decodesToMap E a = false ∨ decodesToMap E b = false) := by
    rw [← unmarshalMap_error_iff, ← unmarshalMap_error_iff]
    simp only [isConfigEqual]
    cases hma : unmarshalMap E a with
    | error e' => simp
    | ok ca =>
      cases hmb : unmarshalMap E b with
      | error e' => simp
      | ok cb => cases ca <;> cases cb <;> simp
  refine ⟨hiff, hkind, ?_, ?_⟩
  · intro h
    have hex : ∃ e, isConfigEqual E a b = .error e := by
      rw [hiff]
      rcases h with h | h
      · exact Or.inl (by simp [decodesToMap, h])
      · exact Or.inr (by simp [decodesToMap, h])
    obtain ⟨e, he⟩ := hex
    rw [he, hkind e he]
  · intro h1 h2
    cases hres : isConfigEqual E a b with
    | ok eq => exact ⟨eq, rfl⟩
    | error e =>
      rcases hiff.1 ⟨e, hres⟩ with h | h
      · rw [h1] at h
        cases h
      · rw [h2] at h
        cases h

/-- C13 at a malformed text and at two objects. -/
theorem C13_error_iff_not_map_witness :
    isConfigEqual jsonEnv "oops" "\x7b\x7d" = .error .decode ∧
    ∃ eq, isConfigEqual jsonEnv "\x7b\"a\":1\x7d" "null" = .ok eq :=
  ⟨(C13_error_iff_not_map jsonEnv "oops" "\x7b\x7d").2.2.1 (Or.inl rfl),
    (C13_error_iff_not_map jsonEnv "\x7b\"a\":1\x7d" "null").2.2.2 rfl rfl⟩

/-- C14: in `Read`, when the filter is found and `isConfigEqual` of the prior and the
fresh config is true, the state set has the prior `Config` text unchanged; when it is
false the state has the fresh `Config` text; in both cases `Id`, `DashboardId` and
`Name` are the freshly read ones. So a fresh config that decodes to the same object as
the prior one never changes the stored text. -/
theorem C14_read_keeps_equal_config (E : Env) (r : Remote) (state fresh : DashboardFilter)
    (hfound : getDashboardFilterById E r state.DashboardId state.Id = .ok (some fresh)) :
    (isConfigEqual E state.Config fresh.Config = .ok true →
      resourceDashboardFilter.Read E r state = .ok { fresh with Config := state.Config }) ∧
    (isConfigEqual E state.Config fresh.Config = .ok false →
      resourceDashboardFilter.Read E r state = .ok fresh) ∧
    (∀ s, resourceDashboardFilter.Read E r state = .ok s →
      s.Id = fresh.Id ∧ s.DashboardId = fresh.DashboardId ∧ s.Name = fresh.Name) ∧
    (∀ m, E.unmarshal state.Config = some (.obj m) →
      E.unmarshal fresh.Config = some (.obj m) →
      resourceDashboardFilter.Read E r state = .ok { fresh with Config := state.Config }) := by
  have htrue : isConfigEqual E state.Config fresh.Config = .ok true →
      resourceDashboardFilter.Read E r state = .ok { fresh with Config := state.Config } := by
    intro h
    simp [resourceDashboardFilter.Read, hfound, h]
  refine ⟨htrue, ?_, ?_, ?_⟩
  · intro h
    simp [resourceDashboardFilter.Read, hfound, h]
  · intro s hs
    simp only [resourceDashboardFilter.Read, hfound] at hs
    cases heq : isConfigEqual E state.Config fresh.Config with
    | error e => simp [heq] at hs
    | ok eq =>
      simp only [heq, Except.ok.injEq] at hs
      subst hs
      cases eq <;> simp
  · intro m h1 h2
    apply htrue
    rw [isConfigEqual_of_objects h1 h2, Json.deepEqual_refl]

set_option maxRecDepth 20000 in
/-- C14 at the sample dashboard: the prior config lists its keys in another order than
the fresh one, and `Read` keeps the prior text. -/
theorem C14_read_keeps_equal_config_witness :
    resourceDashboardFilter.Read jsonEnv sampleRemote sampleState = .ok sampleState :=
  (C14_read_keeps_equal_config jsonEnv sampleRemote sampleState
    { Id := "100002", DashboardId := 7, Name := "Year",
      Config := "\x7b\"name\":\"Year\",\"scope\":[1,2]\x7d" } rfl).2.2.2
    [("name", .str "Year"), ("scope", .arr [.num 1, .num 2])] rfl rfl

/-! ### Failures before the write -/

theorem writeFilters_error {E : Env} :
    ∀ (fs : List DashboardFilter), (∃ f ∈ fs, E.unmarshal f.Config = none) →
      ∀ (i : Nat) (t : Json), writeFilters E fs i t = .error .decode := by
  intro fs
  induction fs with
  | nil => rintro ⟨f, hf, _⟩; simp at hf
  | cons g fs ih =>
    rintro ⟨f, hf, hnone⟩ i t
    simp only [writeFilters]
    cases hg : E.unmarshal g.Config with
    | none => rfl
    | some c =>
      rcases List.mem_cons.1 hf with e | hf
      · subst e
        rw [hg] at hnone
        cases hnone
      · exact ih ⟨f, hf, hnone⟩ _ _

theorem upsertMetadata_error_of_read {E : Env} {r : Remote} {d : Int} {e : Err}
    (X : String) (F : Option DashboardFilter) (h : getDashboardFilters E r d = .error e) :
    upsertMetadata E r d X F = .error e := by
  simp only [upsertMetadata, h]

theorem upsertMetadata_error_of_config {E : Env} {r : Remote} {d : Int} {X : String}
    {F : Option DashboardFilter} {old : List DashboardFilter} {jm : Option Json}
    (hget : getDashboardFilters E r d = .ok (old, jm))
    (h : ∃ f ∈ newCollection old X F, E.unmarshal f.Config = none) :
    upsertMetadata E r d X F = .error .decode := by
  have hmerge : ∃ base, (match jm with
      | some jm => Gabs.mergeIntoNew E jm
      | none => Except.ok Gabs.new) = .ok (.obj base) := by
    cases jm with
    | none => exact ⟨[], rfl⟩
    | some t => exact Gabs.mergeIntoNew_ok E t
  obtain ⟨base, hbase⟩ := hmerge
  simp only [upsertMetadata, hget, hbase]
  exact writeFilters_error _ h _ _

theorem no_put_of_metadata_error {E : Env} {r : Remote} {d : Int} {X : String}
    {F : Option DashboardFilter} {e : Err} (h : upsertMetadata E r d X F = .error e) :
    upsertDashboardFilter E r d X F = .error e ∧ upsertRequests E r d X F = [.get d] := by
  simp only [upsertDashboardFilter, upsertRequests, h, and_self]

/-- The failures before the write: when the GET fails, the metadata text is
malformed, an existing entry lacks a string `id` or `name`, or the `Config` of an
element of the new collection is not decodable, `upsertDashboardFilter` returns an
error and the only request it has sent is the GET; and a PUT is sent only when the
extraction and the decoding of the `Config` of every element of the new collection
have succeeded, its body being the serialization of the tree built from them. -/
theorem listed_failures_send_no_put (E : Env) (r : Remote) (d : Int) (X : String)
    (F : Option DashboardFilter) :
    (r d = none →
      ∃ e, upsertDashboardFilter E r d X F = .error e ∧
        upsertRequests E r d X F = [.get d]) ∧
    (∀ text, r d = some (some text) → E.unmarshal text = none →
      ∃ e, upsertDashboardFilter E r d X F = .error e ∧
        upsertRequests E r d X F = [.get d]) ∧
    (∀ text t v, r d = some (some text) → E.unmarshal text = some t →
      v ∈ Gabs.children E (Gabs.path t nfc) →
      ((∀ s, Gabs.path v "id" ≠ some (.str s)) ∨ (∀ s, Gabs.path v "name" ≠ some (.str s))) →
      ∃ e, upsertDashboardFilter E r d X F = .error e ∧
        upsertRequests E r d X F = [.get d]) ∧
    (∀ old jm f, getDashboardFilters E r d = .ok (old, jm) → f ∈ newCollection old X F →
      E.unmarshal f.Config = none →
      ∃ e, upsertDashboardFilter E r d X F = .error e ∧
        upsertRequests E r d X F = [.get d]) ∧
    (∀ body, Request.put d body ∈ upsertRequests E r d X F →
      ∃ old jm tree, getDashboardFilters E r d = .ok (old, jm) ∧
        (∀ f ∈ newCollection old X F, (E.unmarshal f.Config).isSome = true) ∧
        upsertMetadata E r d X F = .ok tree ∧ body = E.marshal tree) := by
  refine ⟨?_, ?_, ?_, ?_, ?_⟩
  · intro hr
    have hget : getDashboardFilters E r d = .error (.status 404) := by
      simp [getDashboardFilters, getDashboardJsonMetadata, hr]
    exact ⟨_, no_put_of_metadata_error (upsertMetadata_error_of_read X F hget)⟩
  · intro text hr hu
    have hget : getDashboardFilters E r d = .error .decode := by
      simp [getDashboardFilters, getDashboardJsonMetadata, hr, hu]
    exact ⟨_, no_put_of_metadata_error (upsertMetadata_error_of_read X F hget)⟩
  · intro text t v hr hu hv hbad
    have hnot : ¬ ∃ f, EntryReads E d v f := by
      rintro ⟨f, m, id, name, rfl, hid, hname, _⟩
      rcases hbad with h | h
      · exact h id hid
      · exact h name hname
    obtain ⟨err, herr⟩ := readFilters_error_of_mem E d _ v hv hnot
    have hget : getDashboardFilters E r d = .error err := by
      simp only [getDashboardFilters, getDashboardJsonMetadata, hr, hu, herr]
    exact ⟨_, no_put_of_metadata_error (upsertMetadata_error_of_read X F hget)⟩
  · intro old jm f hget hf hnone
    exact ⟨_, no_put_of_metadata_error (upsertMetadata_error_of_config hget ⟨f, hf, hnone⟩)⟩
  · intro body hbody
    cases hmd : upsertMetadata E r d X F with
    | error e => simp [upsertRequests, hmd] at hbody
    | ok tree =>
      obtain ⟨old, jm, hget, hparse⟩ := upsertMetadata_ok_parse hmd
      refine ⟨old, jm, tree, hget, hparse, rfl, ?_⟩
      simpa [upsertRequests, hmd] using hbody

set_option maxRecDepth 20000 in
/-- C15, the failing input: on a dashboard without metadata, for the filter whose
`Config` is the JSON array `[]`, the build step `config.Set(id, "id")` fails (the
entry stays the array, without an `id`), and `upsertDashboardFilter` sends the PUT all
the same, with that entry in the body, and returns nil when the PUT is answered with
200. -/
theorem C15_put_after_failed_build_step :
    jsonEnv.unmarshal arrayFilter.Config = some (.arr []) ∧
    Gabs.set (.arr []) (.str "100001") "id" = .error .tree ∧
    stampId (.arr []) "100001" = .arr [] ∧
    upsertRequests jsonEnv emptyRemote 7 "100001" (some arrayFilter) =
      [.get 7, .put 7 "\x7b\"native_filter_configuration\":[[]]\x7d"] ∧
    upsertDashboardFilterError jsonEnv emptyRemote 7 "100001" (some arrayFilter)
      (.status 200) = none :=
  ⟨rfl, rfl, rfl, rfl, rfl⟩

/-! ### Two upserts in a row -/

/-- What a read returns after a successful upsert of a filter whose config is an
object with a string name: the old collection without the first element of the id,
followed by the new element. -/
theorem read_after_upsert {E : Env} (hE : E.Lawful) {r r' : Remote} {d : Int} {X : String}
    {f : DashboardFilter} {o : List (String × Json)} {nm : String}
    {old : List DashboardFilter} {jm : Option Json}
    (hget : getDashboardFilters E r d = .ok (old, jm))
    (ho : E.unmarshal f.Config = some (.obj o))
    (hname : Obj.get "name" o = some (.str nm))
    (hup : upsertDashboardFilter E r d X (some f) = .ok r') :
    ∃ fX jm', fX.Id = X ∧ fX.Name = nm ∧
      getDashboardFilters E r' d = .ok (newCollection old X none ++ [fX], jm') := by
  obtain ⟨hwire, _, _⟩ := getDashboardFilters_ok hget
  obtain ⟨tree, htree, _, _, hmeta, _⟩ := upsert_post hE hget hup
  have hRmem : ∀ g ∈ newCollection old X none, ∃ v, v.canonical = true ∧ EntryReads E d v g := by
    intro g hg
    rcases mem_newCollection hg with h | ⟨f0, h, _⟩
    · obtain ⟨v, hv, hvg⟩ := exists_entry_of_mem hwire g h
      exact ⟨v, wireEntries_canonical hE r d v hv, hvg⟩
    · cases h
  have he : entryOf E { f with Id := X } = .obj (Obj.set "id" (.str X) o) := by
    simp [entryOf, ho, stampId, Gabs.set]
  obtain ⟨fX, hfXid, hfXname, hXreads⟩ : ∃ fX : DashboardFilter, fX.Id = X ∧ fX.Name = nm ∧
      EntryReads E d (.obj (Obj.set "id" (.str X) o)) fX :=
    ⟨{ Id := X, DashboardId := d, Name := nm,
       Config := E.marshal (.obj (Obj.delete "id" (Obj.set "id" (.str X) o))) }, rfl, rfl,
      ⟨_, X, nm, rfl, Obj.get_set_self _ _ _,
        by rw [Obj.get_set_ne _ _ (by decide)]; exact hname, rfl⟩⟩
  have hentries : List.Forall₂ (EntryReads E d) (Gabs.children E (Gabs.path tree nfc))
      (newCollection old X none ++ [fX]) := by
    rw [htree]
    simp only [Gabs.path, Obj.get_set_self, Gabs.children]
    rw [newCollection_some, List.map_append, List.map_cons, List.map_nil, he]
    exact entryReads_append (entryReads_map_entryOf hE hRmem) hXreads
  exact ⟨fX, _, hfXid, hfXname, getDashboardFilters_of_metadata hmeta hentries⟩

theorem mem_remove_of_ne {l : List DashboardFilter} {e g : DashboardFilter}
    (hg : g ∈ l) (hne : g.Id ≠ e.Id) : g ∈ remove l e := by
  induction l with
  | nil => simp at hg
  | cons h l ih =>
    simp only [remove]
    split_ifs with hh
    · rcases List.mem_cons.1 hg with e' | hg
      · subst e'
        exact absurd hh hne
      · exact hg
    · rcases List.mem_cons.1 hg with e' | hg
      · subst e'
        exact List.mem_cons_self _ _
      · exact List.mem_cons_of_mem _ (ih hg)

theorem mem_newCollection_none_of_ne {l : List DashboardFilter} {Y : String}
    {g : DashboardFilter} (hg : g ∈ l) (hne : g.Id ≠ Y) : g ∈ newCollection l Y none := by
  simp only [newCollection]
  cases hfind : findDashboardFilterById l Y with
  | none => exact hg
  | some e =>
    have he := (findDashboardFilterById_some hfind).1
    exact mem_remove_of_ne hg (by rw [he]; exact hne)

theorem getDashboardFilterById_of_mem {E : Env} {r : Remote} {d : Int}
    {c : List DashboardFilter} {jm : Option Json} {g : DashboardFilter}
    (hget : getDashboardFilters E r d = .ok (c, jm)) (hg : g ∈ c) :
    ∃ g', getDashboardFilterById E r d g.Id = .ok (some g') ∧ g'.Id = g.Id := by
  rw [getDashboardFilterById_of_filters hget]
  cases hfind : findDashboardFilterById c g.Id with
  | none => exact absurd rfl (findDashboardFilterById_none.1 hfind g hg)
  | some g' => exact ⟨g', rfl, (findDashboardFilterById_some hfind).1⟩

/-- C16: on a dashboard whose collection extracts successfully, for two different ids
and two filters whose configs are JSON objects with a string `name`, an upsert of the
first id followed by an upsert of the second on the store the first one left (both
successful) leaves a store from which `getDashboardFilterById` returns a filter for
each of the two ids, and in which every element that was present before under another
id is still present. The two ids and filters are arbitrary, so this covers both
orders. -/
theorem C16_no_lost_update (E : Env) (hE : E.Lawful) (r r1 r2 : Remote) (d : Int)
    (X Y : String) (fX fY : DashboardFilter) (oX oY : List (String × Json))
    (nX nY : String) (old : List DashboardFilter) (jm : Option Json)
    (hget : getDashboardFilters E r d = .ok (old, jm))
    (hXY : X ≠ Y)
    (hoX : E.unmarshal fX.Config = some (.obj oX))
    (hnX : Obj.get "name" oX = some (.str nX))
    (hoY : E.unmarshal fY.Config = some (.obj oY))
    (hnY : Obj.get "name" oY = some (.str nY))
    (h1 : upsertDashboardFilter E r d X (some fX) = .ok r1)
    (h2 : upsertDashboardFilter E r1 d Y (some fY) = .ok r2) :
    (∃ g, getDashboardFilterById E r2 d X = .ok (some g) ∧ g.Id = X) ∧
    (∃ g, getDashboardFilterById E r2 d Y = .ok (some g) ∧ g.Id = Y) ∧
    ∃ c2 jm2, getDashboardFilters E r2 d = .ok (c2, jm2) ∧
      ∀ g ∈ old, g.Id ≠ X → g.Id ≠ Y →
        g ∈ c2 ∧ ∃ g', getDashboardFilterById E r2 d g.Id = .ok (some g') ∧ g'.Id = g.Id := by
  obtain ⟨gX, jm1, hgXid, _, hread1⟩ := read_after_upsert hE hget hoX hnX h1
  obtain ⟨gY, jm2, hgYid, _, hread2⟩ := read_after_upsert hE hread1 hoY hnY h2
  have hX2 : gX ∈ newCollection (newCollection old X none ++ [gX]) Y none ++ [gY] :=
    List.mem_append_left _ (mem_newCollection_none_of_ne
      (List.mem_append_right _ (List.mem_singleton_self _)) (by rw [hgXid]; exact hXY))
  have hY2 : gY ∈ newCollection (newCollection old X none ++ [gX]) Y none ++ [gY] :=
    List.mem_append_right _ (List.mem_singleton_self _)
  refine ⟨?_, ?_, _, _, hread2, ?_⟩
  · have := getDashboardFilterById_of_mem hread2 hX2
    rwa [hgXid] at this
  · have := getDashboardFilterById_of_mem hread2 hY2
    rwa [hgYid] at this
  · intro g hg hgX hgY
    have hmem : g ∈ newCollection (newCollection old X none ++ [gX]) Y none ++ [gY] :=
      List.mem_append_left _ (mem_newCollection_none_of_ne
        (List.mem_append_left _ (mem_newCollection_none_of_ne hg hgX)) hgY)
    exact ⟨hmem, getDashboardFilterById_of_mem hread2 hmem⟩

set_option maxRecDepth 40000 in
/-- C16 at the sample dashboard: the filters 100003 and 100004 are added one after the
other; both are found afterwards and the filters 100001 and 100002 are still there. -/
theorem C16_no_lost_update_witness :
    (∃ g, getDashboardFilterById jsonEnv sampleAddedTwice 7 "100003" = .ok (some g) ∧
      g.Id = "100003") ∧
    (∃ g, getDashboardFilterById jsonEnv sampleAddedTwice 7 "100004" = .ok (some g) ∧
      g.Id = "100004") ∧
    ∃ c2 jm2, getDashboardFilters jsonEnv sampleAddedTwice 7 = .ok (c2, jm2) ∧
      ∀ g ∈ sampleOld, g.Id ≠ "100003" → g.Id ≠ "100004" →
        g ∈ c2 ∧ ∃ g', getDashboardFilterById jsonEnv sampleAddedTwice 7 g.Id = .ok (some g') ∧
          g'.Id = g.Id :=
  C16_no_lost_update jsonEnv jsonEnv_lawful sampleRemote sampleAdded sampleAddedTwice 7
    "100003" "100004" sampleFilter otherFilter
    [("filterType", .str "filter_select"), ("name", .str "Country")]
    [("name", .str "Segment")] "Country" "Segment" sampleOld (some sampleTree)
    rfl (by decide) rfl rfl rfl rfl rfl rfl

/-! ### The generated id -/

namespace Codec

theorem natDigits_length : ∀ (fuel n k : Nat), n < fuel → 10 ^ k ≤ n → n < 10 ^ (k + 1) →
    (natDigits fuel n).length = k + 1
  | 0, _, _, h, _, _ => by omega
  | fuel + 1, n, k, hf, hlo, hhi => by
    simp only [natDigits]
    split_ifs with hn
    · cases k with
      | zero => rfl
      | succ k =>
        have hp : 1 ≤ 10 ^ k := Nat.one_le_pow _ _ (by decide)
        rw [pow_succ] at hlo
        omega
    · cases k with
      | zero =>
        simp only [zero_add, pow_one] at hhi
        omega
      | succ k =>
        rw [pow_succ] at hlo hhi
        have ih := natDigits_length fuel (n / 10) k (by omega) (by omega) (by omega)
        simp only [List.length_append, List.length_singleton, ih]

end Codec

theorem sprintInt_data (m : Nat) :
    (sprintInt (m : Int)).data = (Codec.natDigits (m + 1) m).map Codec.digitChar := rfl

/-- C18, the counterexample: the draw 900000 gives the id `1000000`, which has seven
digits. -/
theorem C18_counterexample :
    sprintInt ((900000 : Nat) + 100000) = "1000000" ∧
    (sprintInt ((900000 : Nat) + 100000)).length = 7 ∧
    ∃ r' s, resourceDashboardFilter.Create jsonEnv emptyRemote 900000 sampleFilter =
      .ok (r', s) ∧ s.Id = "1000000" :=
  ⟨rfl, rfl, _, _, rfl, rfl⟩

/-- C18, amended: for every draw `n` below 1000000 the id that `Create` passes to the
upsert and stores in the state is the decimal text of `n + 100000`, a number from
100000 to 1099999: it has six digits when `n` is below 900000 and seven digits
otherwise, and it is never below 100000. -/
theorem C18_generated_id (E : Env) (r r' : Remote) (n : Nat) (plan s : DashboardFilter)
    (hn : n < 1000000)
    (hc : resourceDashboardFilter.Create E r n plan = .ok (r', s)) :
    s.Id = sprintInt ((n : Int) + 100000) ∧
    upsertDashboardFilter E r plan.DashboardId s.Id (some plan) = .ok r' ∧
    ∃ ds : List Nat, s.Id.data = ds.map Codec.digitChar ∧ (∀ k ∈ ds, k < 10) ∧
      Codec.valueOf ds = n + 100000 ∧ 100000 ≤ Codec.valueOf ds ∧
      Codec.valueOf ds ≤ 1099999 ∧
      (n < 900000 → ds.length = 6) ∧ (900000 ≤ n → ds.length = 7) := by
  simp only [resourceDashboardFilter.Create] at hc
  cases hup : upsertDashboardFilter E r plan.DashboardId (sprintInt ((n : Int) + 100000))
      (some plan) with
  | error e => simp [hup] at hc
  | ok r'' =>
    simp only [hup, Except.ok.injEq, Prod.mk.injEq] at hc
    obtain ⟨hr, hs⟩ := hc
    subst hr
    subst hs
    have hcast : ((n : Int) + 100000) = ((n + 100000 : Nat) : Int) := by push_cast; rfl
    have hval := Codec.valueOf_natDigits (n + 100000 + 1) (n + 100000) (by omega)
    refine ⟨rfl, hup, Codec.natDigits (n + 100000 + 1) (n + 100000), ?_,
      Codec.natDigits_lt _ _, hval, ?_, ?_, ?_, ?_⟩
    · show (sprintInt ((n : Int) + 100000)).data = _
      rw [hcast]
      rfl
    · rw [hval]
      omega
    · rw [hval]
      omega
    · intro h
      exact Codec.natDigits_length _ _ 5 (by omega) (by norm_num) (by norm_num; omega)
    · intro h
      exact Codec.natDigits_length _ _ 6 (by omega) (by norm_num; omega) (by norm_num; omega)

/-- C18 at the draw 23456 on a dashboard without metadata: the id is `123456`. -/
theorem C18_generated_id_witness :
    ∃ r' s, resourceDashboardFilter.Create jsonEnv emptyRemote 23456 sampleFilter = .ok (r', s) ∧
      s.Id = "123456" ∧
      ∃ ds : List Nat, s.Id.data = ds.map Codec.digitChar ∧ (∀ k ∈ ds, k < 10) ∧
        Codec.valueOf ds = 23456 + 100000 ∧ 100000 ≤ Codec.valueOf ds ∧
        Codec.valueOf ds ≤ 1099999 ∧
        (23456 < 900000 → ds.length = 6) ∧ (900000 ≤ 23456 → ds.length = 7) :=
  ⟨_, _, rfl, rfl,
    (C18_generated_id jsonEnv emptyRemote _ 23456 sampleFilter _ (by decide) rfl).2.2⟩

/-! ### The provider configuration -/

/-- C19, the failing inputs: (1) with `api_token` set, `api_secret` null and
`PRESET_API_SECRET` set in the environment, the documented secret is the value of the
variable, but `Configure` takes the empty value of the null attribute and reports that
no secret was found; (2) with `api_token` null and `api_secret` set, `Configure`
passes the value of the variable to `client.New` instead of the configured secret. -/
theorem C19_secret_follows_token_attribute :
    (documentedSecret sampleGetenv tokenOnlyConfig = "s3cret" ∧
      presetProvider.Configure sampleGetenv recordClient tokenOnlyConfig =
        .error "Unable to find api_secret") ∧
    (documentedSecret sampleGetenv secretOnlyConfig = "configured" ∧
      presetProvider.Configure sampleGetenv recordClient secretOnlyConfig =
        .ok ("https://ws.example", "envtok", "s3cret")) :=
  ⟨⟨rfl, rfl⟩, ⟨rfl, rfl⟩⟩

/-! ### The name of a filter -/

theorem writeFilters_congr_last (E : Env) {g1 g2 : DashboardFilter}
    (hid : g1.Id = g2.Id) (hcfg : g1.Config = g2.Config) :
    ∀ (R : List DashboardFilter) (i : Nat) (t : Json),
      writeFilters E (R ++ [g1]) i t = writeFilters E (R ++ [g2]) i t := by
  intro R
  induction R with
  | nil =>
    intro i t
    simp only [List.nil_append, writeFilters, hid, hcfg]
  | cons h R ih =>
    intro i t
    simp only [List.cons_append, writeFilters]
    cases E.unmarshal h.Config with
    | none => rfl
    | some c => exact ih _ _

theorem upsertMetadata_congr_config (E : Env) (r : Remote) (d : Int) (X : String)
    {F1 F2 : DashboardFilter} (hcfg : F1.Config = F2.Config) :
    upsertMetadata E r d X (some F1) = upsertMetadata E r d X (some F2) := by
  simp only [upsertMetadata]
  cases getDashboardFilters E r d with
  | error e => rfl
  | ok p =>
    obtain ⟨old, jm⟩ := p
    simp only [newCollection_some, List.length_append, List.length_singleton]
    cases (match jm with
      | some jm => Gabs.mergeIntoNew E jm
      | none => Except.ok Gabs.new) with
    | error e => rfl
    | ok t =>
      exact @writeFilters_congr_last E { F1 with Id := X } { F2 with Id := X } rfl hcfg _ _ _

theorem readFilters_append_error {E : Env} {d : Int} {e : Json} {err : Err}
    (he : readFilter E d e = .error err) :
    ∀ {vs : List Json} {fs : List DashboardFilter}, List.Forall₂ (EntryReads E d) vs fs →
      readFilters E d (vs ++ [e]) = .error err := by
  intro vs fs h
  induction h with
  | nil => simp [readFilters, he]
  | @cons v f vs fs h1 _ ih =>
    obtain ⟨v', hv'⟩ := (readFilter_ok_iff E d v f).2 h1
    simp only [List.cons_append, readFilters, hv', List.append_eq, ih]

theorem readFilter_nameless {E : Env} {d : Int} {X : String} {o : List (String × Json)}
    (hno : ∀ s, Obj.get "name" o ≠ some (.str s)) :
    readFilter E d (.obj (Obj.set "id" (.str X) o)) = .error .parseName := by
  have hname : Obj.get "name" (Obj.set "id" (.str X) o) = Obj.get "name" o :=
    Obj.get_set_ne _ _ (by decide)
  simp only [readFilter, Gabs.path, Obj.get_set_self, Gabs.data, Gabs.asString, hname]
  cases hn : Obj.get "name" o with
  | none => rfl
  | some v =>
    cases v with
    | str s => exact absurd hn (hno s)
    | _ => rfl

set_option maxRecDepth 20000 in
/-- C20, the counterexample: (1) the config `[]` has no string `name` key and the
upsert on a dashboard without metadata succeeds, yet every later read and upsert on
the dashboard fails with the id-parse error, not the name-parse error; (2) on a
dashboard whose metadata text is not JSON, the upsert of a filter whose config is the
object without a `name` key does not succeed. -/
theorem C20_counterexample :
    (jsonEnv.unmarshal arrayFilter.Config = some (.arr []) ∧
      Gabs.path (.arr []) "name" = none ∧
      ∃ r', upsertDashboardFilter jsonEnv emptyRemote 7 "100001" (some arrayFilter) = .ok r' ∧
        writtenArray jsonEnv r' 7 = some [.arr []] ∧
        getDashboardFilters jsonEnv r' 7 = .error .parseId ∧
        getDashboardFilterById jsonEnv r' 7 "100001" = .error .parseId ∧
        upsertDashboardFilter jsonEnv r' 7 "100001" (some sampleFilter) = .error .parseId ∧
        Err.parseId ≠ Err.parseName) ∧
    (jsonEnv.unmarshal namelessFilter.Config = some (.obj []) ∧
      Gabs.path (.obj []) "name" = none ∧
      upsertDashboardFilter jsonEnv brokenRemote 7 "100001" (some namelessFilter) =
        .error .decode) :=
  ⟨⟨rfl, rfl, _, rfl, rfl, rfl, rfl, rfl, by decide⟩, rfl, rfl, rfl⟩

/-- C20, amended: the `Name` of the filter passed to `upsertDashboardFilter` has no
effect: two filters with the same `Config` give the same result, the same store and
the same requests, so the same PUT. When the collection extracts successfully and the
`Config` decodes to a JSON object or to `null`, without a string `name`, the upsert
succeeds, the entry it writes has no string `name`, and afterwards
`getDashboardFilters`, `getDashboardFilterById` for every id and
`upsertDashboardFilter` for every id and filter fail with the name-parse error. -/
theorem C20_name_not_written (E : Env) (hE : E.Lawful) (r : Remote) (d : Int) (X : String) :
    (∀ F1 F2 : DashboardFilter, F1.Config = F2.Config →
      upsertDashboardFilter E r d X (some F1) = upsertDashboardFilter E r d X (some F2) ∧
      upsertRequests E r d X (some F1) = upsertRequests E r d X (some F2)) ∧
    (∀ (f : DashboardFilter) (c : Json) (old : List DashboardFilter)
      (jm : Option Json), getDashboardFilters E r d = .ok (old, jm) →
      E.unmarshal f.Config = some c → (c = .null ∨ ∃ o, c = .obj o) →
      (∀ s, Gabs.path c "name" ≠ some (.str s)) →
      ∃ r' ws, upsertDashboardFilter E r d X (some f) = .ok r' ∧
        writtenArray E r' d = some (ws ++ [stampId c X]) ∧
        (∀ s, Gabs.path (stampId c X) "name" ≠ some (.str s)) ∧
        getDashboardFilters E r' d = .error .parseName ∧
        (∀ Y, getDashboardFilterById E r' d Y = .error .parseName) ∧
        (∀ Y G, upsertDashboardFilter E r' d Y G = .error .parseName)) := by
  constructor
  · intro F1 F2 hcfg
    simp only [upsertDashboardFilter, upsertRequests, upsertMetadata_congr_config E r d X hcfg,
      and_self]
  · intro f c old jm hget hc hshape hnoc
    obtain ⟨o, hstamp, hno⟩ : ∃ o, stampId c X = .obj (Obj.set "id" (.str X) o) ∧
        ∀ s, Obj.get "name" o ≠ some (.str s) := by
      rcases hshape with rfl | ⟨o, rfl⟩
      · exact ⟨[], rfl, by intro s h; cases h⟩
      · exact ⟨o, rfl, hnoc⟩
    rw [hstamp]
    obtain ⟨hwire, _, hsome⟩ := getDashboardFilters_ok hget
    have hRmem : ∀ g ∈ newCollection old X none,
        ∃ v, v.canonical = true ∧ EntryReads E d v g := by
      intro g hg
      rcases mem_newCollection hg with h | ⟨f0, h, _⟩
      · obtain ⟨v, hv, hvg⟩ := exists_entry_of_mem hwire g h
        exact ⟨v, wireEntries_canonical hE r d v hv, hvg⟩
      · cases h
    have hparse : ∀ g ∈ newCollection old X (some f), (E.unmarshal g.Config).isSome = true := by
      intro g hg
      rw [newCollection_some] at hg
      rcases List.mem_append.1 hg with hg | hg
      · obtain ⟨v, hv, hvg⟩ := hRmem g hg
        exact unmarshal_config_of_entryReads hE hv hvg
      · simp only [List.mem_singleton] at hg
        subst hg
        simp [hc]
    have hmd := upsertMetadata_eq hE X (some f) hget hparse
    obtain ⟨md, hmd'⟩ := Option.isSome_iff_exists.1 hsome
    have hup : ∃ r', upsertDashboardFilter E r d X (some f) = .ok r' := by
      simp only [upsertDashboardFilter, hmd, Remote.put, hmd']
      exact ⟨_, rfl⟩
    obtain ⟨r', hup⟩ := hup
    obtain ⟨tree, htree, _, _, hmeta, _⟩ := upsert_post hE hget hup
    have he : entryOf E { f with Id := X } = .obj (Obj.set "id" (.str X) o) := by
      simp only [entryOf, hc]
      exact hstamp
    rw [newCollection_some, List.map_append, List.map_cons, List.map_nil, he] at htree
    rw [htree] at hmeta
    have hread : getDashboardFilters E r' d = .error .parseName := by
      obtain ⟨text, hr', hu⟩ := (metadataOf_eq_some_iff E r' d _).1 hmeta
      simp only [getDashboardFilters, getDashboardJsonMetadata, hr', hu, Gabs.path,
        Obj.get_set_self, Gabs.children,
        readFilters_append_error (readFilter_nameless hno) (entryReads_map_entryOf hE hRmem)]
    refine ⟨r', _, hup, (writtenArray_of_metadata hmeta).1, ?_, hread, ?_, ?_⟩
    · intro s hs
      simp only [Gabs.path] at hs
      rw [Obj.get_set_ne _ _ (by decide)] at hs
      exact hno s hs
    · intro Y
      simp only [getDashboardFilterById, hread]
    · intro Y G
      simp only [upsertDashboardFilter, upsertMetadata, hread]

set_option maxRecDepth 20000 in
/-- C20 at the sample data: on a dashboard without metadata the filter whose config is
the empty object, and the filter whose config is `null`, are written as an entry with
an id only, and every later call on the dashboard fails with the name-parse error. -/
theorem C20_name_not_written_witness :
    (∃ r' ws, upsertDashboardFilter jsonEnv emptyRemote 7 "100001" (some namelessFilter) = .ok r' ∧
      writtenArray jsonEnv r' 7 = some (ws ++ [stampId (.obj []) "100001"]) ∧
      (∀ s, Gabs.path (stampId (.obj []) "100001") "name" ≠ some (.str s)) ∧
      getDashboardFilters jsonEnv r' 7 = .error .parseName ∧
      (∀ Y, getDashboardFilterById jsonEnv r' 7 Y = .error .parseName) ∧
      (∀ Y G, upsertDashboardFilter jsonEnv r' 7 Y G = .error .parseName)) ∧
    (∃ r' ws, upsertDashboardFilter jsonEnv emptyRemote 7 "100001" (some nullFilter) = .ok r' ∧
      writtenArray jsonEnv r' 7 = some (ws ++ [stampId .null "100001"]) ∧
      (∀ s, Gabs.path (stampId .null "100001") "name" ≠ some (.str s)) ∧
      getDashboardFilters jsonEnv r' 7 = .error .parseName ∧
      (∀ Y, getDashboardFilterById jsonEnv r' 7 Y = .error .parseName) ∧
      (∀ Y G, upsertDashboardFilter jsonEnv r' 7 Y G = .error .parseName)) ∧
    stampId .null "100001" = .obj [("id", .str "100001")] :=
  ⟨(C20_name_not_written jsonEnv jsonEnv_lawful emptyRemote 7 "100001").2 namelessFilter
      (.obj []) [] none rfl rfl (Or.inr ⟨[], rfl⟩) (by intro s h; cases h),
    (C20_name_not_written jsonEnv jsonEnv_lawful emptyRemote 7 "100001").2 nullFilter
      .null [] none rfl rfl (Or.inl rfl) (by intro s h; cases h),
    rfl⟩

/-! ### The config read back after an upsert -/

namespace Obj

theorem delete_set_self (k : String) (v : Json) (m : List (String × Json)) :
    delete k (set k v m) = delete k m := by
  induction m with
  | nil => simp [set, delete]
  | cons kv m ih =>
    obtain ⟨k', v'⟩ := kv
    simp only [set]
    split_ifs with h1 h2
    · simp [delete, h1]
    · simp [delete, h1]
    · simp [delete, h1, ih]

theorem delete_eq_self_iff (k : String) (m : List (String × Json)) :
    delete k m = m ↔ get k m = none := by
  constructor
  · intro h
    rw [← h]
    exact get_delete_self k m
  · intro h
    induction m with
    | nil => rfl
    | cons kv m ih =>
      obtain ⟨k', v'⟩ := kv
      simp only [get] at h
      split_ifs at h with h1
      simp only [delete, h1, if_false]
      rw [ih h]

end Obj

/-- The collection read back after a successful upsert of a filter whose config is
an object with a string name: the old collection without the first element of the
id, followed by the element read from the new entry. -/
theorem read_back_after_upsert {E : Env} (hE : E.Lawful) {r r' : Remote} {d : Int}
    {X : String} {f : DashboardFilter} {o : List (String × Json)} {nm : String}
    {old : List DashboardFilter} {jm : Option Json}
    (hget : getDashboardFilters E r d = .ok (old, jm))
    (ho : E.unmarshal f.Config = some (.obj o))
    (hname : Obj.get "name" o = some (.str nm))
    (hup : upsertDashboardFilter E r d X (some f) = .ok r') :
    ∃ jm', getDashboardFilters E r' d = .ok (newCollection old X none ++
      [{ Id := X, DashboardId := d, Name := nm,
         Config := E.marshal (.obj (Obj.delete "id" o)) }], jm') := by
  obtain ⟨hwire, _, _⟩ := getDashboardFilters_ok hget
  obtain ⟨tree, htree, _, _, hmeta, _⟩ := upsert_post hE hget hup
  have hRmem : ∀ g ∈ newCollection old X none, ∃ v, v.canonical = true ∧ EntryReads E d v g := by
    intro g hg
    rcases mem_newCollection hg with h | ⟨f0, h, _⟩
    · obtain ⟨v, hv, hvg⟩ := exists_entry_of_mem hwire g h
      exact ⟨v, wireEntries_canonical hE r d v hv, hvg⟩
    · cases h
  have he : entryOf E { f with Id := X } = .obj (Obj.set "id" (.str X) o) := by
    simp [entryOf, ho, stampId, Gabs.set]
  have hXreads : EntryReads E d (.obj (Obj.set "id" (.str X) o))
      { Id := X, DashboardId := d, Name := nm,
        Config := E.marshal (.obj (Obj.delete "id" o)) } :=
    ⟨_, X, nm, rfl, Obj.get_set_self _ _ _,
      by rw [Obj.get_set_ne _ _ (by decide)]; exact hname,
      by rw [Obj.delete_set_self]⟩
  have key : ∀ fX, EntryReads E d (.obj (Obj.set "id" (.str X) o)) fX →
      getDashboardFilters E r' d =
        .ok (newCollection old X none ++ [fX], some (afterRead tree)) := by
    intro fX hfX
    have hentries : List.Forall₂ (EntryReads E d) (Gabs.children E (Gabs.path tree nfc))
        (newCollection old X none ++ [fX]) := by
      rw [htree]
      simp only [Gabs.path, Obj.get_set_self, Gabs.children]
      rw [newCollection_some, List.map_append, List.map_cons, List.map_nil, he]
      exact entryReads_append (entryReads_map_entryOf hE hRmem) hfX
    exact getDashboardFilters_of_metadata hmeta hentries
  exact ⟨_, key _ hXreads⟩

set_option maxRecDepth 20000 in
/-- C21, the counterexample: the collection of the dashboard whose two filters share
the id 100001 extracts successfully, and the config of `sampleFilter` is an object
with the string name "Country" and without an `id` key; after the successful upsert
of that id, `getDashboardFilterById` returns the second of the old filters: its name
is "Year", and `isConfigEqual` of the config given and the config returned is
false. -/
theorem C21_counterexample :
    getDashboardFilters jsonEnv dupRemote 7 =
      .ok ([{ Id := "100001", DashboardId := 7, Name := "Region",
              Config := "\x7b\"name\":\"Region\"\x7d" },
            { Id := "100001", DashboardId := 7, Name := "Year",
              Config := "\x7b\"name\":\"Year\"\x7d" }],
        some (.obj [("native_filter_configuration",
          .arr [.obj [("name", .str "Region")], .obj [("name", .str "Year")]])])) ∧
    jsonEnv.unmarshal sampleFilter.Config =
      some (.obj [("filterType", .str "filter_select"), ("name", .str "Country")]) ∧
    upsertDashboardFilter jsonEnv dupRemote 7 "100001" (some sampleFilter) = .ok dupReplaced ∧
    getDashboardFilterById jsonEnv dupReplaced 7 "100001" =
      .ok (some { Id := "100001", DashboardId := 7, Name := "Year",
                  Config := "\x7b\"name\":\"Year\"\x7d" }) ∧
    isConfigEqual jsonEnv sampleFilter.Config "\x7b\"name\":\"Year\"\x7d" = .ok false :=
  ⟨rfl, rfl, rfl, rfl, rfl⟩

/-- C21, amended: when the extracted collection has at most one element of id `X` and
the `Config` of the filter decodes to a JSON object with a string `name`, then after a
successful `upsertDashboardFilter(d, X, F)` the filter `getDashboardFilterById(d, X)`
returns has `Id` `X`, `DashboardId` `d`, the `name` of the config as `Name`, and a
`Config` that decodes to the object of `F.Config` without its `id` key;
`isConfigEqual` of `F.Config` and the returned `Config` succeeds and is true exactly
when `F.Config` has no top-level `id` key. -/
theorem C21_config_round_trip (E : Env) (hE : E.Lawful) (r r' : Remote) (d : Int)
    (X : String) (f : DashboardFilter) (o : List (String × Json)) (nm : String)
    (old : List DashboardFilter) (jm : Option Json)
    (hget : getDashboardFilters E r d = .ok (old, jm))
    (hone : (old.filter (fun g => decide (g.Id = X))).length ≤ 1)
    (ho : E.unmarshal f.Config = some (.obj o))
    (hname : Obj.get "name" o = some (.str nm))
    (hup : upsertDashboardFilter E r d X (some f) = .ok r') :
    ∃ g, getDashboardFilterById E r' d X = .ok (some g) ∧
      g.Id = X ∧ g.DashboardId = d ∧ g.Name = nm ∧
      E.unmarshal g.Config = some (.obj (Obj.delete "id" o)) ∧
      ∃ b, isConfigEqual E f.Config g.Config = .ok b ∧
        (b = true ↔ Obj.get "id" o = none) := by
  obtain ⟨jm', hread⟩ := read_back_after_upsert hE hget ho hname hup
  have hR := newCollection_none_ne hone
  have ho_can : (Json.obj o).canonical = true := hE.unmarshal_canonical _ _ ho
  have hback : E.unmarshal (E.marshal (.obj (Obj.delete "id" o))) =
      some (.obj (Obj.delete "id" o)) :=
    hE.unmarshal_marshal _ (Json.canonical_delete ho_can)
  refine ⟨{ Id := X, DashboardId := d, Name := nm,
            Config := E.marshal (.obj (Obj.delete "id" o)) },
    ?_, rfl, rfl, rfl, hback, _, isConfigEqual_of_objects ho hback, ?_⟩
  · rw [getDashboardFilterById_of_filters hread, findDashboardFilterById_append_last hR rfl]
  · rw [Json.deepEqual_iff]
    constructor
    · intro h
      have h' : o = Obj.delete "id" o := by
        injection h
      exact (Obj.delete_eq_self_iff "id" o).1 h'.symm
    · intro h
      rw [(Obj.delete_eq_self_iff "id" o).2 h]

set_option maxRecDepth 20000 in
/-- C21 at the sample data: filter 100002 of the sample dashboard replaced by
`sampleFilter`, whose config has no `id` key, reads back with an equal config; the
filter `idFilter`, whose config carries an `id` of its own, added to the dashboard
without metadata reads back with a config that is not equal. -/
theorem C21_config_round_trip_witness :
    (∃ g, getDashboardFilterById jsonEnv sampleReplaced 7 "100002" = .ok (some g) ∧
      g.Id = "100002" ∧ g.DashboardId = 7 ∧ g.Name = "Country" ∧
      jsonEnv.unmarshal g.Config = some (.obj (Obj.delete "id"
        [("filterType", .str "filter_select"), ("name", .str "Country")])) ∧
      ∃ b, isConfigEqual jsonEnv sampleFilter.Config g.Config = .ok b ∧
        (b = true ↔ Obj.get "id"
          [("filterType", Json.str "filter_select"), ("name", .str "Country")] = none)) ∧
    isConfigEqual jsonEnv sampleFilter.Config
      "\x7b\"filterType\":\"filter_select\",\"name\":\"Country\"\x7d" = .ok true ∧
    getDashboardFilterById jsonEnv sampleTagged 7 "100001" =
      .ok (some { Id := "100001", DashboardId := 7, Name := "Country",
                  Config := "\x7b\"name\":\"Country\"\x7d" }) ∧
    upsertDashboardFilter jsonEnv emptyRemote 7 "100001" (some idFilter) = .ok sampleTagged ∧
    isConfigEqual jsonEnv idFilter.Config "\x7b\"name\":\"Country\"\x7d" = .ok false :=
  ⟨C21_config_round_trip jsonEnv jsonEnv_lawful sampleRemote sampleReplaced 7 "100002"
      sampleFilter [("filterType", .str "filter_select"), ("name", .str "Country")] "Country"
      sampleOld (some sampleTree) rfl (by decide) rfl rfl rfl,
    rfl, rfl, rfl, rfl⟩

/-! ### The dashboards an upsert touches -/

theorem getDashboardJsonMetadata_congr (E : Env) {r r2 : Remote} {d : Int}
    (h : r2 d = r d) : getDashboardJsonMetadata E r2 d = getDashboardJsonMetadata E r d := by
  simp only [getDashboardJsonMetadata, h]

theorem getDashboardFilters_congr (E : Env) {r r2 : Remote} {d : Int} (h : r2 d = r d) :
    getDashboardFilters E r2 d = getDashboardFilters E r d := by
  simp only [getDashboardFilters, getDashboardJsonMetadata_congr E h]

theorem upsertMetadata_congr_store (E : Env) {r r2 : Remote} {d : Int} (X : String)
    (F : Option DashboardFilter) (h : r2 d = r d) :
    upsertMetadata E r2 d X F = upsertMetadata E r d X F := by
  simp only [upsertMetadata, getDashboardFilters_congr E h]

theorem wireEntries_congr (E : Env) {r r2 : Remote} {d : Int} (h : r2 d = r d) :
    wireEntries E r2 d = wireEntries E r d ∧ writtenArray E r2 d = writtenArray E r d := by
  simp only [wireEntries, writtenArray, metadataOf, getDashboardJsonMetadata_congr E h,
    and_self]

theorem upsertDashboardFilterError_congr_store (E : Env) {r r2 : Remote} {d : Int}
    (X : String) (F : Option DashboardFilter) (answer : PutAnswer) (h : r2 d = r d) :
    upsertDashboardFilterError E r2 d X F answer = upsertDashboardFilterError E r d X F answer := by
  simp only [upsertDashboardFilterError, upsertMetadata_congr_store E X F h]

theorem upsertDashboardFilter_frame {E : Env} {r r' : Remote} {d : Int} {X : String}
    {F : Option DashboardFilter} (hup : upsertDashboardFilter E r d X F = .ok r')
    {d' : Int} (hd : d' ≠ d) : r' d' = r d' := by
  obtain ⟨tree, _, _, hr'⟩ := (upsertDashboardFilter_ok_iff E r r' d X F).1 hup
  rw [hr']
  simp only [hd, if_false]

theorem Remote.put_frame {r r' : Remote} {d : Int} {body : String}
    (h : r.put d body = .ok r') {d' : Int} (hd : d' ≠ d) : r' d' = r d' := by
  simp only [Remote.put] at h
  cases hr : r d with
  | none => simp [hr] at h
  | some md =>
    simp only [hr, Except.ok.injEq] at h
    rw [← h]
    simp only [hd, if_false]

/-- Whatever the API does with the requests of an upsert of dashboard `d`, carried
out or not, the other dashboards are as they were. -/
theorem serveAll_upsertRequests_frame (E : Env) (r : Remote) (d : Int) (X : String)
    (F : Option DashboardFilter) (carriedOut : Bool) {d' : Int} (hd : d' ≠ d) :
    Remote.serveAll r carriedOut (upsertRequests E r d X F) d' = r d' := by
  simp only [upsertRequests]
  cases hmd : upsertMetadata E r d X F with
  | error e => rfl
  | ok tree =>
    simp only [Remote.serveAll, List.foldl, Remote.serve]
    cases carriedOut with
    | false => rfl
    | true =>
      simp only [if_true]
      cases hput : Remote.put r d (E.marshal tree) with
      | error e => rfl
      | ok r' => exact Remote.put_frame hput hd

/-- A successful upsert, in the two forms of the model: the answer 200 gives nil, and
the store it leaves is the store after its requests have been carried out. -/
theorem upsertDashboardFilter_ok_serveAll {E : Env} {r : Remote} {d : Int} {X : String}
    {F : Option DashboardFilter} {answer : PutAnswer}
    (h : upsertDashboardFilterError E r d X F answer = none) :
    answer = .status 200 ∧
      upsertDashboardFilter E r d X F =
        .ok (Remote.serveAll r true (upsertRequests E r d X F)) := by
  simp only [upsertDashboardFilterError] at h
  cases hmd : upsertMetadata E r d X F with
  | error e => simp [hmd] at h
  | ok tree =>
    rw [hmd] at h
    obtain ⟨old, jm, hget, _⟩ := upsertMetadata_ok_parse hmd
    obtain ⟨_, _, hsome⟩ := getDashboardFilters_ok hget
    obtain ⟨md, hmd'⟩ := Option.isSome_iff_exists.1 hsome
    constructor
    · cases answer with
      | failed => simp at h
      | status code =>
        by_cases hc : code = 200
        · rw [hc]
        · simp [hc] at h
    · simp only [upsertDashboardFilter, upsertRequests, hmd, Remote.serveAll, List.foldl,
        Remote.serve, Remote.put, hmd', if_true]

set_option maxRecDepth 20000 in
/-- C22, the counterexample: the prior state names dashboard 7 and the plan dashboard
8, which has no metadata. (1) With a planned config that is not JSON the update
returns its diagnostic whatever the API would answer, the only request it has sent is
the GET, and dashboard 8 has gained no entry. (2) With the planned config `[]` and a
PUT answered with 200 the update succeeds and the state keeps the id 100002, but the
entry written to dashboard 8 is the array itself, without an `id`, and a read of the
filter there fails. -/
theorem C22_counterexample :
    brokenPlan.DashboardId ≠ sampleState.DashboardId ∧
    (∀ answer, resourceDashboardFilter.Update jsonEnv twoRemote brokenPlan sampleState answer =
      .error (.updating (.early .decode))) ∧
    updateRequests jsonEnv twoRemote brokenPlan sampleState = [.get 8] ∧
    (∀ carriedOut, Remote.serveAll twoRemote carriedOut
      (updateRequests jsonEnv twoRemote brokenPlan sampleState) 8 = some none) ∧
    wireEntries jsonEnv twoRemote 8 = [] ∧
    arrayPlan.DashboardId ≠ sampleState.DashboardId ∧
    resourceDashboardFilter.Update jsonEnv twoRemote arrayPlan sampleState (.status 200) =
      .ok { arrayPlan with Id := "100002" } ∧
    updateRequests jsonEnv twoRemote arrayPlan sampleState =
      [.get 8, .put 8 "\x7b\"native_filter_configuration\":[[]]\x7d"] ∧
    writtenArray jsonEnv (Remote.serveAll twoRemote true
      (updateRequests jsonEnv twoRemote arrayPlan sampleState)) 8 = some [.arr []] ∧
    entryId (.arr []) = none ∧
    getDashboardFilterById jsonEnv (Remote.serveAll twoRemote true
      (updateRequests jsonEnv twoRemote arrayPlan sampleState)) 8 "100002" = .error .parseId :=
  ⟨by decide, fun _ => rfl, rfl, fun _ => rfl, rfl, by decide, rfl, rfl, rfl, rfl, rfl⟩

/-- C22, amended: `upsertDashboardFilter(d, ...)` reads only dashboard `d` (its tree,
its requests and the error it returns are the same on every store that agrees on
`d`), sends requests for `d` alone, and leaves the metadata of every other dashboard
as it was, whether the API carries its PUT out or not and whatever it returns. The
method `Update` sends the requests of one upsert with the planned dashboard and the id
of the state; when the planned dashboard differs from the dashboard of the state, the
metadata of the dashboard of the state is unchanged after every run of the method, so
its entries and the filter read there under the id of the state are what they were;
and when the update succeeds and the planned config decodes to a JSON object or to
`null`, the state it sets is the plan with the id of the state and the array written
to the planned dashboard ends with the entry of the config, whose `id` is that id. -/
theorem C22_update_leaves_previous_dashboard (E : Env) (hE : E.Lawful) (r : Remote)
    (plan state : DashboardFilter) :
    (∀ (r2 : Remote) (d : Int) (X : String) (F : Option DashboardFilter), r2 d = r d →
      upsertMetadata E r2 d X F = upsertMetadata E r d X F ∧
      upsertRequests E r2 d X F = upsertRequests E r d X F ∧
      ∀ answer, upsertDashboardFilterError E r2 d X F answer =
        upsertDashboardFilterError E r d X F answer) ∧
    (∀ (d : Int) (X : String) (F : Option DashboardFilter) (q : Request),
      q ∈ upsertRequests E r d X F → q = .get d ∨ ∃ body, q = .put d body) ∧
    (∀ (d : Int) (X : String) (F : Option DashboardFilter) (carriedOut : Bool) (d' : Int),
      d' ≠ d → Remote.serveAll r carriedOut (upsertRequests E r d X F) d' = r d') ∧
    (∀ (d : Int) (X : String) (F : Option DashboardFilter) (r' : Remote),
      upsertDashboardFilter E r d X F = .ok r' → ∀ d', d' ≠ d → r' d' = r d') ∧
    updateRequests E r plan state =
      upsertRequests E r plan.DashboardId state.Id (some plan) ∧
    (plan.DashboardId ≠ state.DashboardId → ∀ carriedOut : Bool,
      Remote.serveAll r carriedOut (updateRequests E r plan state) state.DashboardId =
        r state.DashboardId ∧
      wireEntries E (Remote.serveAll r carriedOut (updateRequests E r plan state))
        state.DashboardId = wireEntries E r state.DashboardId ∧
      writtenArray E (Remote.serveAll r carriedOut (updateRequests E r plan state))
        state.DashboardId = writtenArray E r state.DashboardId ∧
      getDashboardFilterById E (Remote.serveAll r carriedOut (updateRequests E r plan state))
          state.DashboardId state.Id =
        getDashboardFilterById E r state.DashboardId state.Id) ∧
    (∀ (answer : PutAnswer) (s : DashboardFilter) (c : Json),
      resourceDashboardFilter.Update E r plan state answer = .ok s →
      E.unmarshal plan.Config = some c → (c = .null ∨ ∃ o, c = .obj o) →
      s = { plan with Id := state.Id } ∧ answer = .status 200 ∧
      entryId (stampId c state.Id) = some state.Id ∧
      ∃ kept, writtenArray E (Remote.serveAll r true (updateRequests E r plan state))
        plan.DashboardId = some (kept ++ [stampId c state.Id])) := by
  refine ⟨?_, ?_, ?_, ?_, rfl, ?_, ?_⟩
  · intro r2 d X F h
    have hm := upsertMetadata_congr_store E X F h
    exact ⟨hm, by simp only [upsertRequests, hm],
      fun answer => upsertDashboardFilterError_congr_store E X F answer h⟩
  · intro d X F q hq
    simp only [upsertRequests, List.mem_cons] at hq
    rcases hq with hq | hq
    · exact Or.inl hq
    · cases hmd : upsertMetadata E r d X F with
      | error e => simp [hmd] at hq
      | ok tree =>
        rw [hmd] at hq
        exact Or.inr ⟨_, List.mem_singleton.1 hq⟩
  · intro d X F carriedOut d' hd
    exact serveAll_upsertRequests_frame E r d X F carriedOut hd
  · intro d X F r' hup d' hd
    exact upsertDashboardFilter_frame hup hd
  · intro hne carriedOut
    have hframe : Remote.serveAll r carriedOut (updateRequests E r plan state)
        state.DashboardId = r state.DashboardId :=
      serveAll_upsertRequests_frame E r plan.DashboardId state.Id (some plan) carriedOut
        (Ne.symm hne)
    refine ⟨hframe, (wireEntries_congr E hframe).1, (wireEntries_congr E hframe).2, ?_⟩
    simp only [getDashboardFilterById, getDashboardFilters_congr E hframe]
  · intro answer s c hupd hc hshape
    simp only [resourceDashboardFilter.Update] at hupd
    cases herr : upsertDashboardFilterError E r plan.DashboardId state.Id (some plan) answer with
    | some e => simp [herr] at hupd
    | none =>
      rw [herr] at hupd
      simp only [Except.ok.injEq] at hupd
      obtain ⟨hans, hup⟩ := upsertDashboardFilter_ok_serveAll herr
      obtain ⟨tree, hmd, _, _⟩ := (upsertDashboardFilter_ok_iff E r _ plan.DashboardId
        state.Id (some plan)).1 hup
      obtain ⟨old, jm, hget, _⟩ := upsertMetadata_ok_parse hmd
      obtain ⟨tree', htree, _, _, hmeta, _⟩ := upsert_post hE hget hup
      have he : entryOf E { plan with Id := state.Id } = stampId c state.Id := by
        simp only [entryOf, hc]
      rw [htree, newCollection_some, List.map_append, List.map_cons, List.map_nil, he] at hmeta
      refine ⟨hupd.symm, hans, ?_, _, (writtenArray_of_metadata hmeta).1⟩
      rcases hshape with rfl | ⟨o, rfl⟩
      · rfl
      · simp [stampId, Gabs.set, entryId, Gabs.path, Obj.get_set_self]

set_option maxRecDepth 20000 in
/-- C22 at the sample data: filter 100002 of dashboard 7 updated with a plan that
names dashboard 8. Dashboard 7 keeps its metadata and the filter is still read there;
dashboard 8 has gained the entry, so the filter is now read on both. -/
theorem C22_update_leaves_previous_dashboard_witness :
    (Remote.serveAll twoRemote true (updateRequests jsonEnv twoRemote movedPlan sampleState)
        sampleState.DashboardId = twoRemote sampleState.DashboardId ∧
      wireEntries jsonEnv (Remote.serveAll twoRemote true
          (updateRequests jsonEnv twoRemote movedPlan sampleState)) sampleState.DashboardId =
        wireEntries jsonEnv twoRemote sampleState.DashboardId ∧
      writtenArray jsonEnv (Remote.serveAll twoRemote true
          (updateRequests jsonEnv twoRemote movedPlan sampleState)) sampleState.DashboardId =
        writtenArray jsonEnv twoRemote sampleState.DashboardId ∧
      getDashboardFilterById jsonEnv (Remote.serveAll twoRemote true
          (updateRequests jsonEnv twoRemote movedPlan sampleState))
          sampleState.DashboardId sampleState.Id =
        getDashboardFilterById jsonEnv twoRemote sampleState.DashboardId sampleState.Id) ∧
    resourceDashboardFilter.Update jsonEnv twoRemote movedPlan sampleState (.status 200) =
      .ok movedPlan ∧
    Remote.serveAll twoRemote true (updateRequests jsonEnv twoRemote movedPlan sampleState) =
      twoMoved ∧
    getDashboardFilterById jsonEnv twoMoved 7 "100002" =
      .ok (some { Id := "100002", DashboardId := 7, Name := "Year",
                  Config := "\x7b\"name\":\"Year\",\"scope\":[1,2]\x7d" }) ∧
    getDashboardFilterById jsonEnv twoMoved 8 "100002" =
      .ok (some { Id := "100002", DashboardId := 8, Name := "Year",
                  Config := "\x7b\"name\":\"Year\",\"scope\":[1,2]\x7d" }) ∧
    writtenArray jsonEnv twoMoved 8 =
      some [.obj [("id", .str "100002"), ("name", .str "Year"),
        ("scope", .arr [.num 1, .num 2])]] :=
  ⟨(C22_update_leaves_previous_dashboard jsonEnv jsonEnv_lawful twoRemote movedPlan
      sampleState).2.2.2.2.2.1 (by decide) true,
    rfl, rfl, rfl, rfl, rfl⟩
end Preset
